import Mathlib

/-!
Friend server: the social graph store, the line framer and the sessions.

A shallow embedding of `friends.c` (users, friend slots, posts, the rendering
of user lists and profiles) and of `friend_server.c` (the receive buffer and
its drain loop, `tokenize`, `process_args`, the handshake, replies and
notifications), with the properties of the store mutators, of the framing
and of the dispatch proved about the embedded code.

Conventions of the embedding

* A C string is the list of its characters before the terminating NUL.
* The user list is a Lean list in traversal order.  A `User *` is the position
  of the node in that list (nodes are only ever appended, so positions are
  stable); `NULL` is `none`.
* `MAX_NAME` and `MAX_FRIENDS` come from `friends.h`, which is not part of the
  sources at hand: they are parameters of the development.
-/

namespace Friends

/-! ## Data model (`friends.h` as used by `friends.c`) -/

/-- A NUL-terminated C string, without its terminator. -/
abbrev CStr := List Char

/-- A `Post` node: author name snapshot, contents, and the `time_t` stored in `date`.
The `next` link is the tail of the list the post sits in. -/
structure Post where
  author : CStr
  contents : CStr
  date : Nat
deriving DecidableEq

/-- A `User` node.  `friends` is the array `User *friends[MAX_FRIENDS]`; the
`next` link is the tail of the user list the node sits in. -/
structure User (MAX_FRIENDS : Nat) where
  name : CStr
  profile_pic : CStr
  first_post : List Post
  friends : Mathlib.Vector (Option Nat) MAX_FRIENDS
deriving DecidableEq

/-- The user list reachable from a head pointer. -/
abbrev Store (MAX_FRIENDS : Nat) := List (User MAX_FRIENDS)

/-- The call `strncpy(dst, src, n)` for a destination of `n` bytes: at most `n` characters
of `src` are copied. -/
def strncpy (src : CStr) (n : Nat) : CStr := src.take n

/-! ## `find_user` -/

/-- The loop of `find_user`: `i` is the position of the node `head` points at. -/
def find_user_from {M : Nat} (name : CStr) : List (User M) → Nat → Option Nat
  | [], _ => none
  | u :: rest, i => if name = u.name then some i else find_user_from name rest (i + 1)

/-- The function `find_user(name, head)`: pointer to the first user called `name`, or NULL. -/
def find_user {M : Nat} (name : CStr) (head : Store M) : Option Nat :=
  find_user_from name head 0

/-! ## `create_user` -/

/-- The list walk of `create_user` (lines 40-45): the final value of `curr`, that is the
first node whose name compares equal, or NULL when the walk falls off the end. -/
def create_user_walk {M : Nat} (name : CStr) : List (User M) → Nat → Option Nat
  | [], _ => none
  | u :: rest, i => if u.name = name then some i else create_user_walk name rest (i + 1)

/-- The node `create_user` allocates and initialises (lines 22-37). -/
def new_user (M MAX_NAME : Nat) (name : CStr) : User M :=
  { name := strncpy name MAX_NAME
    profile_pic := []
    first_post := []
    friends := Mathlib.Vector.replicate M none }

/-- The function `create_user(name, user_ptr_add)`: return code and resulting list. -/
def create_user {M : Nat} (MAX_NAME : Nat) (name : CStr) (users : Store M) : Nat × Store M :=
  if name.length ≥ MAX_NAME then (2, users)
  else
    let curr := create_user_walk name users 0
    if users.isEmpty then (0, [new_user M MAX_NAME name])
    else if curr.isSome then (1, users)
    else (0, users ++ [new_user M MAX_NAME name])

/-! ## `make_friends` -/

/-- The friend array of the user at `u` (empty for a pointer that is not in the list). -/
def slots {M : Nat} (head : Store M) (u : Nat) : List (Option Nat) :=
  match head[u]? with
  | some usr => usr.friends.toList
  | none => []

/-- First loop of `make_friends` (lines 146-152) over the slots of `user1`, `i` being the
loop counter.  `none`: the loop executed `return 1`.  `some i`: the loop was left, by
`break` or by exhausting the array, with this value of `i`. -/
def scan_user1 (user2 : Nat) : List (Option Nat) → Nat → Option Nat
  | [], i => some i
  | none :: _, i => some i
  | some p :: rest, i => if p = user2 then none else scan_user1 user2 rest (i + 1)

/-- Second loop of `make_friends` (lines 154-158): the value of `j` after the loop. -/
def scan_user2 : List (Option Nat) → Nat → Nat
  | [], j => j
  | none :: _, j => j
  | some _ :: rest, j => scan_user2 rest (j + 1)

/-- The assignment `u->friends[i] = p`. -/
def set_friend {M : Nat} (head : Store M) (u i p : Nat) : Store M :=
  match head[u]? with
  | some usr =>
    head.set u { usr with friends := ⟨usr.friends.toList.set i (some p), by simp⟩ }
  | none => head

/-- The function `make_friends(name1, name2, head)`: return code and resulting store. -/
def make_friends {M : Nat} (name1 name2 : CStr) (head : Store M) : Nat × Store M :=
  match find_user name1 head, find_user name2 head with
  | some user1, some user2 =>
    if user1 = user2 then (3, head)
    else
      match scan_user1 user2 (slots head user1) 0 with
      | none => (1, head)
      | some i =>
        let j := scan_user2 (slots head user2) 0
        if i = M ∨ j = M then (2, head)
        else (0, set_friend (set_friend head user1 i user2) user2 j user1)
  | _, _ => (4, head)

/-! ## `make_post` -/

/-- The name read through a `User *` (nothing for a pointer that is not in the list). -/
def name_at {M : Nat} (head : Store M) (p : Nat) : Option CStr :=
  (head[p]?).map (fun usr => usr.name)

/-- The loop of `make_post` (lines 311-317) over the slots of `target`: the final value of
the flag `friends`. -/
def post_scan {M : Nat} (head : Store M) (author_name : CStr) : List (Option Nat) → Bool
  | [] => false
  | none :: _ => false
  | some p :: rest =>
    if name_at head p = some author_name then true else post_scan head author_name rest

/-- The function `make_post(author, target, contents)`, `now` being the value `time` stores:
return code and resulting store.  A non-NULL argument is a pointer to a user of the list; for
any other value the C call has no defined behaviour and the embedding answers 2 without
touching the store. -/
def make_post {M : Nat} (MAX_NAME : Nat) (author target : Option Nat) (contents : CStr)
    (now : Nat) (head : Store M) : Nat × Store M :=
  match author, target with
  | some a, some t =>
    match head[a]?, head[t]? with
    | some au, some tu =>
      if post_scan head au.name tu.friends.toList then
        (0, head.set t
          { tu with first_post := ⟨strncpy au.name MAX_NAME, contents, now⟩ :: tu.first_post })
      else (1, head)
    | _, _ => (2, head)
  | _, _ => (2, head)

/-- A friend array whose occupied slots come first: no empty slot precedes an occupied one. -/
def contiguous : List (Option Nat) → Bool
  | [] => true
  | none :: rest => rest.all Option.isNone
  | some _ :: rest => contiguous rest

/-! ## Call sequences on the store -/

/-- One call of a store mutator, with its arguments. -/
inductive Op where
  | create_user (name : CStr)
  | make_friends (name1 name2 : CStr)
  | make_post (author target : Option Nat) (contents : CStr) (now : Nat)
deriving DecidableEq

/-- The store after one call (its return code is dropped). -/
def step {M : Nat} (MAX_NAME : Nat) (s : Store M) : Op → Store M
  | .create_user name => (create_user MAX_NAME name s).2
  | .make_friends name1 name2 => (make_friends name1 name2 s).2
  | .make_post author target contents now => (make_post MAX_NAME author target contents now s).2

/-- The store after a sequence of calls issued from the store `s`. -/
def run_from {M : Nat} (MAX_NAME : Nat) (s : Store M) : List Op → Store M
  | [] => s
  | op :: rest => run_from MAX_NAME (step MAX_NAME s op) rest

/-- The store reached from the empty store (`user_list = NULL`) by a sequence of calls. -/
def run (M MAX_NAME : Nat) (ops : List Op) : Store M := run_from MAX_NAME [] ops

/-- Whether the call `op`, issued on `s`, is a successful `make_friends` one of whose two
resolved users is `u`. -/
def takes_part {M : Nat} (s : Store M) (u : Nat) : Op → Bool
  | .make_friends name1 name2 =>
    (make_friends name1 name2 s).1 == 0 &&
      (find_user name1 s == some u || find_user name2 s == some u)
  | _ => false

/-- The number of successful `make_friends` calls involving the user at `u` in a sequence of
calls issued from the store `s`. -/
def friendships_from {M : Nat} (MAX_NAME : Nat) (u : Nat) (s : Store M) : List Op → Nat
  | [] => 0
  | op :: rest =>
    (if takes_part s u op then 1 else 0) + friendships_from MAX_NAME u (step MAX_NAME s op) rest

/-- The number of successful `make_friends` calls involving the user at `u` in a sequence of
calls issued from the empty store. -/
def friendships (M MAX_NAME : Nat) (u : Nat) (ops : List Op) : Nat :=
  friendships_from MAX_NAME u ([] : Store M) ops

/-- The properties every store built by the mutators has. -/
structure Inv {M : Nat} (MAX_NAME : Nat) (s : Store M) : Prop where
  names_nodup : (s.map (fun u => u.name)).Nodup
  names_fit : ∀ n ∈ s.map (fun u => u.name), n.length < MAX_NAME
  valid : ∀ a p, some p ∈ slots s a → p < s.length
  contig : ∀ a, contiguous (slots s a) = true
  sym : ∀ a b, some b ∈ slots s a → some a ∈ slots s b
  noself : ∀ a, some a ∉ slots s a
  nodup : ∀ (a i j p : Nat), (slots s a)[i]? = some (some p) → (slots s a)[j]? = some (some p) → i = j

/-- Two users, `a` and `b`, with two friend slots each, all empty. -/
def pair_store : Store 2 :=
  [ { name := ['a'], profile_pic := [], first_post := [], friends := ⟨[none, none], rfl⟩ },
    { name := ['b'], profile_pic := [], first_post := [], friends := ⟨[none, none], rfl⟩ } ]

/-- A call sequence that creates `a`, `b` and `c` and makes `a` and `b` friends. -/
def cap_ops : List Op :=
  [.create_user ['a'], .create_user ['b'], .create_user ['c'], .make_friends ['a'] ['b']]

/-! ## The line framer of `friend_server.c` -/

/-- The size of a session buffer (`#define BUF_SIZE 256`). -/
def BUF_SIZE : Nat := 256

/-- The loop of `find_network_newline` with `k` iterations left, that is with the loop
counter at `i = n - k`. -/
def find_network_newline_loop (buf : List Char) (n : Nat) : Nat → Int
  | 0 => -1
  | k + 1 =>
    if buf[n - (k + 1)]? = some '\n' then
      if n - (k + 1) > 0 ∧ buf[n - (k + 1) - 1]? = some '\r' then
        ((n - (k + 1) + 1 : Nat) : Int)
      else find_network_newline_loop buf n k
    else find_network_newline_loop buf n k

/-- The function `find_network_newline(buf, n)`. -/
def find_network_newline (buf : List Char) (n : Nat) : Int :=
  find_network_newline_loop buf n n

/-- The delimiters of `tokenize` (`#define DELIM " \n"`). -/
def DELIM : List Char := [' ', '\n']

/-- The limit of `tokenize` (`#define INPUT_ARG_MAX_NUM 12`). -/
def INPUT_ARG_MAX_NUM : Nat := 12

/-- The successive results of `strtok(cmd, DELIM)`, `strtok(NULL, DELIM)`, ...: the maximal
runs of non-delimiter characters.  `cur` is the token being read, last character first. -/
def strtok_all : List Char → List Char → List CStr
  | [], cur => if cur.isEmpty then [] else [cur.reverse]
  | c :: rest, cur =>
    if c ∈ DELIM then
      if cur.isEmpty then strtok_all rest [] else cur.reverse :: strtok_all rest []
    else strtok_all rest (c :: cur)

/-- The loop of `tokenize` over the tokens `strtok` yields: `cmd_argc` and the filled part
of `cmd_argv`, or -1 once a token arrives when `INPUT_ARG_MAX_NUM - 1` are stored. -/
def tokenize_loop : List CStr → Nat → List CStr → Int × List CStr
  | [], cmd_argc, cmd_argv => ((cmd_argc : Int), cmd_argv)
  | next_token :: rest, cmd_argc, cmd_argv =>
    if cmd_argc ≥ INPUT_ARG_MAX_NUM - 1 then (-1, cmd_argv)
    else tokenize_loop rest (cmd_argc + 1) (cmd_argv ++ [next_token])

/-- The function `tokenize(cmd, cmd_argv)`: the return value and the tokens stored. -/
def tokenize (cmd : CStr) : Int × List CStr :=
  tokenize_loop (strtok_all cmd []) 0 []

/-- A network newline ends at index `j` of `buf`: `buf[j]` is LF and `buf[j - 1]` is CR. -/
def crlf_at (buf : List Char) (j : Nat) : Prop :=
  0 < j ∧ buf[j]? = some '\n' ∧ buf[j - 1]? = some '\r'

/-! ## The documented failure conditions of `make_friends` -/

/-- The two users named `name1` and `name2` exist and one is in a friend slot of the other. -/
def already_friends {M : Nat} (name1 name2 : CStr) (head : Store M) : Prop :=
  ∃ a b, find_user name1 head = some a ∧ find_user name2 head = some b ∧
    (some b ∈ slots head a ∨ some a ∈ slots head b)

/-- The failure conditions of `make_friends` as the comment above the function lists them
(lines 124-130): code 1, the two users are already friends; code 2, they are not already
friends but at least one of them has `MAX_FRIENDS` friends; code 3, the same user is passed
in twice; code 4, at least one user does not exist. -/
def failure_applies {M : Nat} (name1 name2 : CStr) (head : Store M) : Nat → Prop
  | 1 => already_friends name1 name2 head
  | 2 => ¬ already_friends name1 name2 head ∧
      ∃ a, (find_user name1 head = some a ∨ find_user name2 head = some a) ∧
        none ∉ slots head a
  | 3 => name1 = name2
  | 4 => find_user name1 head = none ∨ find_user name2 head = none
  | _ => False

/-- The non-empty tokens of a line, in order, as the specification describes them: the line
is split at every delimiter character and the empty pieces are dropped. -/
def spec_tokens (line : CStr) : List CStr :=
  (line.splitOnP (fun c => decide (c ∈ DELIM))).filter (fun t => !t.isEmpty)

/-- A line of twelve one-letter tokens. -/
def twelve_tokens : CStr := "a b c d e f g h i j k l".toList

/-! ## Rendering (`list_users`, `print_post`, `print_user` of `friends.c`) -/

/-- The call `snprintf(dst, size, format, ...)`: the formatted text, cut to `size - 1`
characters. -/
def snprintf (size : Nat) (text : CStr) : CStr := text.take (size - 1)

/-- The assignment `str[i] = 0` that ends the building of a string: what is read from the
start of `str` afterwards has at most `i` characters. -/
def terminate_at (str : CStr) (i : Nat) : CStr := str.take i

/-- First loop of `list_users` (lines 85-88): `str_size` after the rest of the list. -/
def list_users_size {M : Nat} : List (User M) → Nat → Nat
  | [], str_size => str_size
  | curr_user :: rest, str_size => list_users_size rest (str_size + (2 + curr_user.name.length))

/-- Second loop of `list_users` (lines 100-110): three `strcat` per user. -/
def list_users_build {M : Nat} : List (User M) → CStr → CStr
  | [], user_list_str => user_list_str
  | curr :: rest, user_list_str =>
    list_users_build rest (((user_list_str ++ ['\t']) ++ curr.name) ++ ['\n'])

/-- The function `list_users(curr)`. -/
def list_users {M : Nat} (curr : Store M) : CStr :=
  let list_header : CStr := "User List\n".toList
  let str_size := list_users_size curr list_header.length + 1
  let user_list_str := strncpy list_header str_size
  terminate_at (list_users_build curr user_list_str) (str_size - 1)

/-- The function `print_post(post)`.  `asctime` stands for `asctime(localtime(date))`, the
text of a stored time. -/
def print_post (asctime : Nat → CStr) (post : Post) : CStr :=
  let str_size := (post.author.length + 7) + ((asctime post.date).length + 7) +
    (post.contents.length + 1) + 1
  snprintf str_size
    ("From: ".toList ++ post.author ++ "\nDate: ".toList ++ asctime post.date ++
      "\n".toList ++ post.contents ++ "\n".toList)

/-- The name read through a `User *` that points into the list (the empty string for any
other pointer, which the C program must not dereference). -/
def user_name {M : Nat} (head : Store M) (p : Nat) : CStr := (name_at head p).getD []

/-- The separator line of a profile. -/
def separator : CStr := "------------------------------------------\n".toList

/-- The divider between two posts of a profile. -/
def post_separator : CStr := "\n===\n\n".toList

/-- The friend loops of `print_user` (lines 228-230 and 265-268): the names of the friends
in the slots up to the first empty one. -/
def friend_names {M : Nat} (head : Store M) : List (Option Nat) → List CStr
  | [] => []
  | none :: _ => []
  | some p :: rest => user_name head p :: friend_names head rest

/-- The size added by the friend loop (lines 228-230). -/
def friends_size : List CStr → Nat → Nat
  | [], str_size => str_size
  | name :: rest, str_size => friends_size rest (str_size + (name.length + 1))

/-- The text added by the friend loop (lines 265-268): two `strcat` per friend. -/
def friends_build : List CStr → CStr → CStr
  | [], profile_str => profile_str
  | name :: rest, profile_str => friends_build rest ((profile_str ++ name) ++ ['\n'])

/-- The size added by the post loop (lines 234-245). -/
def posts_size (asctime : Nat → CStr) : List Post → Nat → Nat
  | [], str_size => str_size
  | curr :: rest, str_size =>
    posts_size asctime rest
      (str_size + (print_post asctime curr).length +
        (if rest.isEmpty then 0 else post_separator.length))

/-- The text added by the post loop (lines 273-280). -/
def posts_build (asctime : Nat → CStr) : List Post → CStr → CStr
  | [], profile_str => profile_str
  | curr :: rest, profile_str =>
    posts_build asctime rest
      ((profile_str ++ print_post asctime curr) ++
        (if rest.isEmpty then [] else post_separator))

/-- The size `print_user` computes (lines 221-247). -/
def print_user_size {M : Nat} (asctime : Nat → CStr) (head : Store M) (user : User M) : Nat :=
  let str_size := user.name.length + 8
  let str_size := str_size + separator.length
  let str_size := str_size + "Friends:\n".toList.length
  let str_size := friends_size (friend_names head user.friends.toList) str_size
  let str_size := str_size + separator.length
  let str_size := str_size + "Posts:\n".toList.length
  let str_size := posts_size asctime user.first_post str_size
  let str_size := str_size + separator.length
  str_size + 1

/-- The function `print_user(user)`; `head` is the list the friend pointers point into. -/
def print_user {M : Nat} (asctime : Nat → CStr) (head : Store M) (user : User M) : CStr :=
  let str_size := print_user_size asctime head user
  let profile_str := snprintf str_size ("Name: ".toList ++ user.name ++ "\n\n".toList)
  let profile_str := profile_str ++ separator
  let profile_str := profile_str ++ "Friends:\n".toList
  let profile_str := friends_build (friend_names head user.friends.toList) profile_str
  let profile_str := profile_str ++ separator
  let profile_str := profile_str ++ "Posts:\n".toList
  let profile_str := posts_build asctime user.first_post profile_str
  let profile_str := profile_str ++ separator
  terminate_at profile_str (str_size - 1)

/-- The text of one post as the specification gives it. -/
def spec_post_text (asctime : Nat → CStr) (post : Post) : CStr :=
  "From: ".toList ++ post.author ++ "\nDate: ".toList ++ asctime post.date ++
    "\n".toList ++ post.contents ++ "\n".toList

/-- The text of a profile as the specification gives it, from the name, the names of the
friends listed and the posts. -/
def spec_profile_text (asctime : Nat → CStr) (name : CStr) (friends : List CStr)
    (posts : List Post) : CStr :=
  "Name: ".toList ++ name ++ "\n\n".toList ++ separator ++ "Friends:\n".toList ++
    (friends.map (fun n => n ++ ['\n'])).flatten ++ separator ++ "Posts:\n".toList ++
    List.intercalate post_separator (posts.map (spec_post_text asctime)) ++ separator

/-! ## Sessions, replies and notifications (`friend_server.c`) -/

/-- A `Client` node of the session list; `next_client` is the tail of the list it sits in. -/
structure Client where
  sock_fd : Nat
  buf : List Char
  in_buf : Nat
  user : Option Nat
deriving DecidableEq

/-- The writes made to sockets, in order: the descriptor and the bytes of each `write`. -/
abbrev Wire := List (Nat × CStr)

/-- The expression `strchrnul(&s[start], LF) - s`: the index of the first LF at or after
`start`, or the length of `s` when there is none. -/
def strchrnul_lf (s : CStr) (start : Nat) : Nat :=
  start + ((s.drop start).takeWhile (fun c => c != '\n')).length

/-- The loop of `message_client` (lines 48-82), `line_start` being its variable.  A `write`
either transfers the whole line or fails with -1; `ok` tells which it is for this socket.
The test `line_start < strlen(message) - 1` is made on unsigned numbers, so it holds for the
empty message.  The result is the return value, if the loop decides it, and the writes
made.  The loop advances `line_start` each time, so `strlen(message) + 1` iterations are
enough. -/
def message_client_loop (ok : Bool) (sock_fd : Nat) (message : CStr) :
    Nat → Nat → Int × Wire
  | 0, _ => (0, [])
  | fuel + 1, line_start =>
    if message.length = 0 ∨ line_start < message.length - 1 then
      let found := strchrnul_lf message line_start
      if found ≠ 0 then
        let where_ := if found ≥ message.length then message.length - 1 else found
        let line := (message.drop line_start).take (where_ - line_start) ++ ['\r', '\n']
        if ok then
          let r := message_client_loop ok sock_fd message fuel (where_ + 1)
          (r.1, (sock_fd, line) :: r.2)
        else (-1, [])
      else (0, [])
    else (0, [])

/-- The function `message_client(client, message)` on the socket `sock_fd` of the client:
the return value and the writes made. -/
def message_client (ok : Bool) (sock_fd : Nat) (message : CStr) : Int × Wire :=
  message_client_loop ok sock_fd message (message.length + 1) 0

/-- The function `find_client_by_sockfd(sock_fd, client_list)`. -/
def find_client_by_sockfd (sock_fd : Nat) (client_list : List Client) : Option Client :=
  client_list.find? (fun c => c.sock_fd == sock_fd)

/-- The function `remove_client(sock_fd, client_list)`: the list without its first client
on that descriptor. -/
def remove_client (sock_fd : Nat) : List Client → List Client
  | [] => []
  | c :: rest => if c.sock_fd = sock_fd then rest else c :: remove_client sock_fd rest

/-- The test `curr_client->user != NULL && strcmp(curr_client->user->name, username) == 0`
of `message_to_users`. -/
def bound_to {M : Nat} (users : Store M) (username : CStr) (c : Client) : Bool :=
  match c.user with
  | some u => name_at users u == some username
  | none => false

/-- The outcome of `message_to_users`: the list as the removals leave it, the writes made,
and whether a removal freed the node that was first in the list (the caller that keeps its
own pointer to the list is then left with a pointer to freed memory). -/
structure Notified where
  clients : List Client
  wire : Wire
  head_freed : Bool

/-- The loop of `message_to_users` (lines 164-175): the first list holds `curr_client` and
the clients after it, the second is `client_list`.  `wr_ok` tells for each descriptor
whether writes to it succeed. -/
def message_to_users_loop {M : Nat} (wr_ok : Nat → Bool) (users : Store M) (username : CStr)
    (message : CStr) : List Client → List Client → Notified
  | [], client_list => ⟨client_list, [], false⟩
  | curr_client :: rest, client_list =>
    if bound_to users username curr_client then
      let sent := message_client (wr_ok curr_client.sock_fd) curr_client.sock_fd message
      if sent.1 = -1 then
        let r := message_to_users_loop wr_ok users username message rest
          (remove_client curr_client.sock_fd client_list)
        ⟨r.clients, sent.2 ++ r.wire,
          r.head_freed ||
            (client_list.head?.map (fun c => c.sock_fd) == some curr_client.sock_fd)⟩
      else
        let r := message_to_users_loop wr_ok users username message rest client_list
        ⟨r.clients, sent.2 ++ r.wire, r.head_freed⟩
    else message_to_users_loop wr_ok users username message rest client_list

/-- The function `message_to_users(username, client_list, message)`. -/
def message_to_users {M : Nat} (wr_ok : Nat → Bool) (users : Store M) (username : CStr)
    (client_list : List Client) (message : CStr) : Notified :=
  message_to_users_loop wr_ok users username message client_list client_list

/-- The assignment `client->user = user` for the client `find_client_by_sockfd` finds. -/
def set_client_user (sock_fd : Nat) (user : Option Nat) : List Client → List Client
  | [] => []
  | c :: rest =>
    if c.sock_fd = sock_fd then { c with user := user } :: rest
    else c :: set_client_user sock_fd user rest

/-- The notice `add_user_to_client` formats for a username that is too long. -/
def truncated_msg (MAX_NAME : Nat) : CStr :=
  snprintf BUF_SIZE
    ("Username too long, truncated to ".toList ++ (Nat.repr (MAX_NAME - 1)).toList ++
      " characters.\n".toList)

/-- The outcome of `add_user_to_client`: the user list, the session list and the writes. -/
structure Handshake (M : Nat) where
  users : Store M
  clients : List Client
  wire : Wire

/-- The end of `add_user_to_client` (lines 226-232): the last notice, then the binding. -/
def handshake_ready {M : Nat} (wr_ok : Nat → Bool) (client_fd : Nat)
    (client_list : List Client) (users : Store M) (user : Option Nat) (wire : Wire) :
    Handshake M :=
  let ready := message_client (wr_ok client_fd) client_fd
    "You may enter user commands now:\n".toList
  if ready.1 = -1 then ⟨users, remove_client client_fd client_list, wire ++ ready.2⟩
  else ⟨users, set_client_user client_fd user client_list, wire ++ ready.2⟩

/-- The function `add_user_to_client(username, client_fd, client_list, user_list_ptr)`, for
a descriptor that has a client in the list. -/
def add_user_to_client {M : Nat} (wr_ok : Nat → Bool) (MAX_NAME : Nat) (username : CStr)
    (client_fd : Nat) (client_list : List Client) (user_list : Store M) : Handshake M :=
  let too_long := decide (username.length ≥ MAX_NAME)
  let username1 := if too_long then username.take (MAX_NAME - 1) else username
  let notice := if too_long then message_client (wr_ok client_fd) client_fd
    (truncated_msg MAX_NAME) else (0, [])
  if notice.1 = -1 then ⟨user_list, remove_client client_fd client_list, notice.2⟩
  else
    match find_user username1 user_list with
    | none =>
      let created := create_user MAX_NAME username1 user_list
      if created.1 ≠ 0 then ⟨created.2, client_list, notice.2⟩
      else
        let user := find_user username1 created.2
        let welcome := message_client (wr_ok client_fd) client_fd "Welcome!\n".toList
        if welcome.1 = -1 then
          ⟨created.2, remove_client client_fd client_list, notice.2 ++ welcome.2⟩
        else handshake_ready wr_ok client_fd client_list created.2 user (notice.2 ++ welcome.2)
    | some user =>
      let welcome := message_client (wr_ok client_fd) client_fd "Welcome Back!\n".toList
      if welcome.1 = -1 then
        ⟨user_list, remove_client client_fd client_list, notice.2 ++ welcome.2⟩
      else
        handshake_ready wr_ok client_fd client_list user_list (some user)
          (notice.2 ++ welcome.2)

/-- The outcome of `process_args`: the return value, `*return_msg`, the user list and the
session list as they are afterwards, the writes of the notifications, and whether a
notification freed the first node of the session list, which the callers keep using. -/
structure Outcome (M : Nat) where
  code : Int
  return_msg : CStr
  users : Store M
  clients : List Client
  wire : Wire
  head_freed : Bool

/-- The contents of a post: `strcpy` of the first word, then a space and the next word for
each further one (lines 428-432). -/
def join_words : List CStr → CStr
  | [] => []
  | w :: rest => rest.foldl (fun contents x => (contents ++ [' ']) ++ x) w

/-- The function `process_args`.  `first_user` is the pointer to the user of the session;
`cmd_argv` holds the tokens stored by `tokenize`; `now` is the time a post would get.
Both notifications of a successful `make_friends` are called on the `client_list` of the
caller, the list returned by the first call being dropped (lines 393-394).  The removals
unlink nodes in place, so as long as the first node is still there the second call walks the
list the first call left.  When the first call freed the first node, the second call starts
from a freed node and the C program has no defined behaviour: the outcome then holds what
was done up to there, with `head_freed` set. -/
def process_args {M : Nat} (wr_ok : Nat → Bool) (asctime : Nat → CStr) (MAX_NAME now : Nat)
    (cmd_argc : Int) (cmd_argv : List CStr) (first_user : Nat) (user_list : Store M)
    (client_list : List Client) : Outcome M :=
  let argv0 := cmd_argv.getD 0 []
  let argv1 := cmd_argv.getD 1 []
  if cmd_argc ≤ 0 then ⟨0, [], user_list, client_list, [], false⟩
  else if argv0 = "quit".toList ∧ cmd_argc = 1 then
    ⟨-2, [], user_list, client_list, [], false⟩
  else if argv0 = "list_users".toList ∧ cmd_argc = 1 then
    ⟨0, list_users user_list, user_list, client_list, [], false⟩
  else if argv0 = "make_friends".toList ∧ cmd_argc = 2 then
    let new_friend_author_msg := snprintf BUF_SIZE
      ("You are now friends with ".toList ++ argv1 ++ "!\n".toList)
    let new_friend_target_msg := snprintf BUF_SIZE
      ("You are now friends with ".toList ++ user_name user_list first_user ++ "!\n".toList)
    let made := make_friends (user_name user_list first_user) argv1 user_list
    match made.1 with
    | 0 =>
      let target := message_to_users wr_ok made.2 argv1 client_list new_friend_target_msg
      -- the list returned is dropped and `client_list` is passed again (line 394): with its
      -- first node freed there is nothing defined to walk; otherwise it is the list as the
      -- removals of the first call left it
      if target.head_freed then ⟨0, [], made.2, target.clients, target.wire, true⟩
      else
        let author := message_to_users wr_ok made.2 (user_name made.2 first_user)
          target.clients new_friend_author_msg
        ⟨0, [], made.2, author.clients, target.wire ++ author.wire, author.head_freed⟩
    | 1 => ⟨-1, "users are already friends\n".toList, made.2, client_list, [], false⟩
    | 2 => ⟨-1, "at least one user you entered has the max number of friends\n".toList,
        made.2, client_list, [], false⟩
    | 3 => ⟨-1, "you must enter two different users\n".toList, made.2, client_list, [], false⟩
    | 4 => ⟨-1, "at least one user you entered does not exist\n".toList,
        made.2, client_list, [], false⟩
    | _ => ⟨0, [], made.2, client_list, [], false⟩
  else if argv0 = "post".toList ∧ cmd_argc ≥ 3 then
    let contents := join_words ((cmd_argv.take cmd_argc.toNat).drop 2)
    let target := find_user argv1 user_list
    let post_msg := snprintf BUF_SIZE
      ("Message from ".toList ++ user_name user_list first_user ++ ": ".toList ++ contents ++
        "\n".toList)
    let posted := make_post MAX_NAME (some first_user) target contents now user_list
    match posted.1 with
    | 0 =>
      let told := message_to_users wr_ok posted.2
        (match target with
          | some t => user_name posted.2 t
          | none => [])
        client_list post_msg
      ⟨0, [], posted.2, told.clients, told.wire, told.head_freed⟩
    | 1 => ⟨-1, "the users are not friends\n".toList, posted.2, client_list, [], false⟩
    | 2 => ⟨-1, "at least one user you entered does not exist\n".toList,
        posted.2, client_list, [], false⟩
    | _ => ⟨0, [], posted.2, client_list, [], false⟩
  else if argv0 = "profile".toList ∧ cmd_argc = 2 then
    match find_user argv1 user_list with
    | none => ⟨-1, "user not found\n".toList, user_list, client_list, [], false⟩
    | some user =>
      match user_list[user]? with
      | some usr => ⟨0, print_user asctime user_list usr, user_list, client_list, [], false⟩
      | none => ⟨0, [], user_list, client_list, [], false⟩
  else ⟨-1, "Incorrect syntax\n".toList, user_list, client_list, [], false⟩

/-- The outcome of serving one line of a bound session in `read_from`: whether `read_from`
returns the descriptor (the session is to be closed), and the state and writes. -/
structure Served (M : Nat) where
  closed : Bool
  users : Store M
  clients : List Client
  wire : Wire
  head_freed : Bool

/-- The processing of one line of a session bound to `first_user` in `read_from` (lines
531-563): `tokenize`, `process_args`, then the reply to the session, if there is one. -/
def serve_line {M : Nat} (wr_ok : Nat → Bool) (asctime : Nat → CStr) (MAX_NAME now : Nat)
    (sock_fd first_user : Nat) (line : CStr) (user_list : Store M)
    (client_list : List Client) : Served M :=
  let cmd := tokenize line
  let done := process_args wr_ok asctime MAX_NAME now cmd.1 cmd.2 first_user user_list
    client_list
  if done.code = -2 then ⟨true, done.users, done.clients, done.wire, done.head_freed⟩
  else
    let return_msg := if cmd.1 < 0 then "Too many arguments!\n".toList else done.return_msg
    if return_msg ≠ [] then
      let sent := message_client (wr_ok sock_fd) sock_fd return_msg
      if sent.1 = -1 then
        ⟨true, done.users, done.clients, done.wire ++ sent.2, done.head_freed⟩
      else ⟨false, done.users, done.clients, done.wire ++ sent.2, done.head_freed⟩
    else ⟨false, done.users, done.clients, done.wire, done.head_freed⟩

/-- What the specification says of a notification: every session that is bound to
`username` and whose socket takes writes is sent `message`, in list order, and nothing else
is written. -/
def spec_notify {M : Nat} (wr_ok : Nat → Bool) (users : Store M) (username : CStr)
    (client_list : List Client) (message : CStr) : Wire :=
  ((client_list.filter (fun c => bound_to users username c && wr_ok c.sock_fd)).map
    (fun c => (message_client true c.sock_fd message).2)).flatten

/-- The name the handshake settles on for a first line `s`, as the specification gives it:
`s` cut to its first `MAX_NAME - 1` characters when it has `MAX_NAME` characters or more. -/
def spec_handshake_name (MAX_NAME : Nat) (s : CStr) : CStr :=
  if MAX_NAME ≤ s.length then s.take (MAX_NAME - 1) else s

/-- The reply `process_args` gives for each failure code of `make_post`. -/
def post_reason : Nat → CStr
  | 1 => "the users are not friends\n".toList
  | 2 => "at least one user you entered does not exist\n".toList
  | _ => []

/-- The store reached by `cap_ops` (users `a`, `b`, `c`, the first two friends), and a
session of `a` on socket 4 and one of `b` on socket 5. -/
def two_clients : List Client := [⟨4, [], 0, some 0⟩, ⟨5, [], 0, some 1⟩]

/-- A word of 240 characters. -/
def long_word : CStr := List.replicate 240 'x'

/-- Following the spec's words: the five command forms of the dispatcher table, for a line of
`cmd_argc` tokens `cmd_argv` (the command word counts as a token): `quit` and `list_users`
alone, `make_friends` and `profile` with one argument, `post` with two or more. -/
def spec_command_form (cmd_argc : Int) (cmd_argv : List CStr) : Prop :=
  (cmd_argv.head? = some "quit".toList ∧ cmd_argc = 1) ∨
  (cmd_argv.head? = some "list_users".toList ∧ cmd_argc = 1) ∨
  (cmd_argv.head? = some "make_friends".toList ∧ cmd_argc = 2) ∨
  (cmd_argv.head? = some "post".toList ∧ 3 ≤ cmd_argc) ∨
  (cmd_argv.head? = some "profile".toList ∧ cmd_argc = 2)

instance (cmd_argc : Int) (cmd_argv : List CStr) :
    Decidable (spec_command_form cmd_argc cmd_argv) := by
  unfold spec_command_form
  infer_instance

/-- Following the spec's words, the store is append-only for users and posts: the user list
`before` is a prefix of the user list `after` as far as the nodes and their names go, and the
post list of each user of `before` is a suffix of the post list the user has in `after`. -/
def keeps_users_and_posts {M : Nat} (before after : Store M) : Prop :=
  before.length ≤ after.length ∧
  ∀ (i : Nat) (u : User M), before[i]? = some u →
    ∃ v, after[i]? = some v ∧ v.name = u.name ∧ u.first_post <:+ v.first_post

/-- The size `print_post` computes before it allocates (lines 175-182). -/
def print_post_size (asctime : Nat → CStr) (post : Post) : Nat :=
  let str_size := 0
  let str_size := str_size + (post.author.length + 7)
  let str_size := str_size + ((asctime post.date).length + 7)
  let str_size := str_size + (post.contents.length + 1)
  str_size + 1

/-- The text the format of `print_post` produces (lines 192-197), before `snprintf` cuts it
to the size it is given. -/
def print_post_format (asctime : Nat → CStr) (post : Post) : CStr :=
  "From: ".toList ++ post.author ++ "\nDate: ".toList ++ asctime post.date ++
    "\n".toList ++ post.contents ++ "\n".toList

/-- The second pass of `print_user` (lines 257-283) into an allocation of `str_size` bytes:
the text the `snprintf` and the `strcat` calls put together, before the final terminator is
set. -/
def print_user_build {M : Nat} (asctime : Nat → CStr) (head : Store M) (user : User M)
    (str_size : Nat) : CStr :=
  let profile_str := snprintf str_size ("Name: ".toList ++ user.name ++ "\n\n".toList)
  let profile_str := profile_str ++ separator
  let profile_str := profile_str ++ "Friends:\n".toList
  let profile_str := friends_build (friend_names head user.friends.toList) profile_str
  let profile_str := profile_str ++ separator
  let profile_str := profile_str ++ "Posts:\n".toList
  let profile_str := posts_build asctime user.first_post profile_str
  profile_str ++ separator

/-- Following the spec's words: the message with every LF replaced by CR LF. -/
def spec_crlf_text : CStr → CStr
  | [] => []
  | c :: rest =>
    if c = '\n' then '\r' :: '\n' :: spec_crlf_text rest else c :: spec_crlf_text rest

/-- The bytes of a sequence of writes, in order. -/
def wire_bytes (w : Wire) : CStr := (w.map (fun x => x.2)).flatten

/-- The store after a first session registers under the name `x` followed by a line feed
(the bytes `x`, LF, CR, LF on the wire: the name ends at the CR LF). -/
def lf_name_store : Store 1 :=
  (add_user_to_client (fun _ => true) 8 ['x', '\n'] 4 [⟨4, [], 0, none⟩] []).users

/-! ## Theorems -/

theorem find_user_from_some {M : Nat} (name : CStr) (l : List (User M)) (k i : Nat) :
    find_user_from name l k = some i ↔
      k ≤ i ∧ (∃ u, l[i - k]? = some u ∧ u.name = name) ∧
        ∀ j, j < i - k → ∀ v, l[j]? = some v → v.name ≠ name := by
  induction l generalizing k with
  | nil => simp [find_user_from]
  | cons u rest ih =>
    unfold find_user_from
    by_cases h : name = u.name
    · simp only [h, if_true, Option.some.injEq]
      constructor
      · rintro rfl
        simp
      · rintro ⟨hk, _, hmin⟩
        by_contra hne
        have hpos : 0 < i - k := by omega
        exact hmin 0 hpos u (by simp) rfl
    · simp only [h, if_false, ih]
      constructor
      · rintro ⟨hk, ⟨w, hw, hwn⟩, hmin⟩
        refine ⟨by omega, ⟨w, ?_, hwn⟩, ?_⟩
        · have : i - k = (i - (k + 1)) + 1 := by omega
          rw [this]; simpa using hw
        · intro j hj v hv
          cases j with
          | zero => simp at hv; subst hv; exact fun e => h e.symm
          | succ j => exact hmin j (by omega) v (by simpa using hv)
      · rintro ⟨hk, ⟨w, hw, hwn⟩, hmin⟩
        have hik : i ≠ k := by
          rintro rfl
          simp at hw
          subst hw
          exact h hwn.symm
        refine ⟨by omega, ⟨w, ?_, hwn⟩, ?_⟩
        · have : i - k = (i - (k + 1)) + 1 := by omega
          rw [this] at hw; simpa using hw
        · intro j hj v hv
          exact hmin (j + 1) (by omega) v (by simpa using hv)

theorem find_user_from_none {M : Nat} (name : CStr) (l : List (User M)) (k : Nat) :
    find_user_from name l k = none ↔ ∀ u ∈ l, u.name ≠ name := by
  induction l generalizing k with
  | nil => simp [find_user_from]
  | cons u rest ih =>
    unfold find_user_from
    by_cases h : name = u.name
    · simp [h]
    · simp only [h, if_false, ih, List.mem_cons, forall_eq_or_imp]
      exact ⟨fun hr => ⟨fun e => h e.symm, hr⟩, fun hr => hr.2⟩

theorem find_user_some_iff {M : Nat} (name : CStr) (head : Store M) (i : Nat) :
    find_user name head = some i ↔
      (∃ u, head[i]? = some u ∧ u.name = name) ∧
        ∀ j, j < i → ∀ v, head[j]? = some v → v.name ≠ name := by
  unfold find_user
  rw [find_user_from_some]
  simp

/-- C9. `find_user` returns the first user of the list whose name equals the given name
(exact, case-sensitive comparison of the characters), and returns NULL exactly when no user
of the list has that name.  The list is a read-only argument: the function has no other
result than the pointer. -/
theorem find_user_first_match {M : Nat} (name : CStr) (head : Store M) :
    (∀ i, find_user name head = some i ↔
      (∃ u, head[i]? = some u ∧ u.name = name) ∧
        ∀ j, j < i → ∀ v, head[j]? = some v → v.name ≠ name) ∧
    (find_user name head = none ↔ ∀ u ∈ head, u.name ≠ name) :=
  ⟨find_user_some_iff name head, find_user_from_none name head 0⟩

theorem create_user_walk_isSome {M : Nat} (name : CStr) (l : List (User M)) (k : Nat) :
    (create_user_walk name l k).isSome = true ↔ ∃ u ∈ l, u.name = name := by
  induction l generalizing k with
  | nil => simp [create_user_walk]
  | cons u rest ih =>
    unfold create_user_walk
    by_cases h : u.name = name
    · simp [h]
    · simp [h, ih]

theorem strncpy_fits (name : CStr) (n : Nat) (h : name.length < n) : strncpy name n = name := by
  unfold strncpy
  exact List.take_of_length_le (by omega)

/-- C8. `create_user` returns 2 exactly when the name has at least `MAX_NAME` characters;
it returns 1 exactly when the name fits and a user with that very name is already in the
list; otherwise it returns 0 and the list is the old list followed by one new user with that
name, every friend slot empty and no post.  With result 1 or 2 the list is unchanged. -/
theorem create_user_contract {M : Nat} (MAX_NAME : Nat) (name : CStr) (users : Store M) :
    ((create_user MAX_NAME name users).1 = 2 ↔ MAX_NAME ≤ name.length) ∧
    ((create_user MAX_NAME name users).1 = 1 ↔
      name.length < MAX_NAME ∧ ∃ u ∈ users, u.name = name) ∧
    (¬ MAX_NAME ≤ name.length → ¬ (∃ u ∈ users, u.name = name) →
      create_user MAX_NAME name users =
        (0, users ++ [{ name := name, profile_pic := [], first_post := [],
                        friends := Mathlib.Vector.replicate M none }])) ∧
    ((create_user MAX_NAME name users).1 = 1 ∨ (create_user MAX_NAME name users).1 = 2 →
      (create_user MAX_NAME name users).2 = users) := by
  unfold create_user
  by_cases hlen : MAX_NAME ≤ name.length
  · have hnot : ¬ name.length < MAX_NAME := by omega
    simp [hlen, hnot]
  · have hlt : name.length < MAX_NAME := by omega
    have hge : ¬ name.length ≥ MAX_NAME := hlen
    simp only [hge, if_false, hlen, hlt, true_and, not_false_eq_true, true_implies, false_iff]
    have hwalk := create_user_walk_isSome name users 0
    generalize (∃ u ∈ users, u.name = name) = P at hwalk ⊢
    cases users with
    | nil =>
      have hP : ¬ P := fun hp => by simpa [create_user_walk] using hwalk.2 hp
      simp [new_user, strncpy_fits name MAX_NAME hlt, hP]
    | cons u rest =>
      by_cases hex : P
      · have hw := hwalk.2 hex
        simp [hw, hex]
      · have hw : (create_user_walk name (u :: rest) 0).isSome = false := by
          rw [Bool.eq_false_iff]
          exact fun h => hex (hwalk.1 h)
        simp [hw, hex, new_user, strncpy_fits name MAX_NAME hlt]

/-! ### The slot scans of `make_friends` -/

theorem scan_user1_none (b : Nat) (l : List (Option Nat)) (i : Nat) :
    scan_user1 b l i = none ↔ some b ∈ l.takeWhile Option.isSome := by
  induction l generalizing i with
  | nil => simp [scan_user1]
  | cons x rest ih =>
    cases x with
    | none => simp [scan_user1]
    | some p =>
      unfold scan_user1
      by_cases h : p = b
      · simp [h]
      · have h2 : ¬ b = p := fun e => h e.symm
        simp [h, h2, ih]

theorem scan_user1_some (b : Nat) (l : List (Option Nat)) (i k : Nat)
    (h : scan_user1 b l i = some k) : k = i + (l.takeWhile Option.isSome).length := by
  induction l generalizing i with
  | nil => simp [scan_user1] at h; simp [h]
  | cons x rest ih =>
    cases x with
    | none => simp [scan_user1] at h; simp [h]
    | some p =>
      unfold scan_user1 at h
      by_cases hp : p = b
      · simp [hp] at h
      · simp only [hp, if_false] at h
        have := ih (i + 1) h
        simp only [Option.isSome_some, List.takeWhile_cons_of_pos, List.length_cons]
        omega

theorem scan_user2_eq (l : List (Option Nat)) (j : Nat) :
    scan_user2 l j = j + (l.takeWhile Option.isSome).length := by
  induction l generalizing j with
  | nil => simp [scan_user2]
  | cons x rest ih =>
    cases x with
    | none => simp [scan_user2]
    | some p =>
      simp only [scan_user2, ih, Option.isSome_some, List.takeWhile_cons_of_pos,
        List.length_cons]
      omega

theorem occupied_run_le (l : List (Option Nat)) :
    (l.takeWhile Option.isSome).length ≤ l.length := by
  induction l with
  | nil => simp
  | cons x rest ih =>
    cases x with
    | none => simp
    | some p => simpa using ih

/-- The occupied run covers the whole array exactly when no slot is empty. -/
theorem occupied_run_full (l : List (Option Nat)) :
    (l.takeWhile Option.isSome).length = l.length ↔ none ∉ l := by
  induction l with
  | nil => simp
  | cons x rest ih =>
    cases x with
    | none => simp
    | some p => simpa using ih

/-- The length of the occupied run is the index of the first empty slot. -/
theorem occupied_run_first_empty (l : List (Option Nat)) (h : none ∈ l) :
    l[(l.takeWhile Option.isSome).length]? = some none ∧
      ∀ k, k < (l.takeWhile Option.isSome).length → l[k]? ≠ some none := by
  induction l with
  | nil => simp at h
  | cons x rest ih =>
    cases x with
    | none => simp
    | some p =>
      have h2 : none ∈ rest := by simpa using h
      obtain ⟨h3, h4⟩ := ih h2
      refine ⟨by simpa using h3, ?_⟩
      intro k hk
      cases k with
      | zero => simp
      | succ k =>
        have : k < (rest.takeWhile Option.isSome).length := by simpa using hk
        simpa using h4 k this

theorem slots_length {M : Nat} (head : Store M) (u : Nat) (h : u < head.length) :
    (slots head u).length = M := by
  unfold slots
  rw [List.getElem?_eq_getElem h]
  simp

/-! ### The slot assignment -/

theorem set_friend_length {M : Nat} (head : Store M) (u i p : Nat) :
    (set_friend head u i p).length = head.length := by
  unfold set_friend
  split <;> simp

theorem set_friend_getElem?_ne {M : Nat} (head : Store M) (u i p v : Nat) (h : v ≠ u) :
    (set_friend head u i p)[v]? = head[v]? := by
  unfold set_friend
  split
  · rw [List.getElem?_set_ne (fun e => h e.symm)]
  · rfl

theorem slots_set_friend_same {M : Nat} (head : Store M) (u i p : Nat) :
    slots (set_friend head u i p) u = (slots head u).set i (some p) := by
  unfold set_friend slots
  cases hu : head[u]? with
  | none => simp [hu]
  | some usr =>
    have hlt : u < head.length := by
      rcases List.getElem?_eq_some_iff.1 hu with ⟨h, _⟩
      exact h
    simp [List.getElem?_set_self hlt]

theorem slots_set_friend_ne {M : Nat} (head : Store M) (u i p v : Nat) (h : v ≠ u) :
    slots (set_friend head u i p) v = slots head v := by
  unfold slots
  rw [set_friend_getElem?_ne head u i p v h]

/-! ### `make_friends` in closed form -/

theorem find_user_lt {M : Nat} (name : CStr) (head : Store M) (i : Nat)
    (h : find_user name head = some i) : i < head.length := by
  obtain ⟨⟨u, hu, _⟩, _⟩ := (find_user_some_iff name head i).1 h
  exact (List.getElem?_eq_some_iff.1 hu).1

/-- The result of `make_friends` once both names are resolved, with the two scans replaced by
the occupied run at the start of each friend array. -/
theorem make_friends_resolved {M : Nat} (name1 name2 : CStr) (head : Store M) (a b : Nat)
    (ha : find_user name1 head = some a) (hb : find_user name2 head = some b) :
    make_friends name1 name2 head =
      if a = b then (3, head)
      else if some b ∈ (slots head a).takeWhile Option.isSome then (1, head)
      else if none ∉ slots head a ∨ none ∉ slots head b then (2, head)
      else (0, set_friend
        (set_friend head a ((slots head a).takeWhile Option.isSome).length b)
        b ((slots head b).takeWhile Option.isSome).length a) := by
  have hla := slots_length head a (find_user_lt name1 head a ha)
  have hlb := slots_length head b (find_user_lt name2 head b hb)
  unfold make_friends
  rw [ha, hb]
  simp only
  by_cases hab : a = b
  · simp [hab]
  · simp only [hab, if_false]
    cases hs : scan_user1 b (slots head a) 0 with
    | none =>
      have := (scan_user1_none b (slots head a) 0).1 hs
      simp [this]
    | some i =>
      have hmem : some b ∉ (slots head a).takeWhile Option.isSome := by
        intro hm
        rw [(scan_user1_none b (slots head a) 0).2 hm] at hs
        exact Option.noConfusion hs
      have hi := scan_user1_some b (slots head a) 0 i hs
      rw [Nat.zero_add] at hi
      have hfa := occupied_run_full (slots head a)
      have hfb := occupied_run_full (slots head b)
      rw [hla] at hfa
      rw [hlb] at hfb
      simp only [hmem, if_false, scan_user2_eq, Nat.zero_add, hi, hfa, hfb]

theorem countP_fill_empty (l : List (Option Nat)) (i p : Nat) (h : l[i]? = some none) :
    (l.set i (some p)).countP Option.isSome = l.countP Option.isSome + 1 := by
  obtain ⟨hlt, hv⟩ := List.getElem?_eq_some_iff.1 h
  rw [List.countP_set Option.isSome l i (some p) hlt, hv]
  simp

/-- C1. When both names resolve to distinct users A and B, B is in no slot of A, and each of
the two has an empty slot, `make_friends` returns 0; B is then in the first previously empty
slot of A and A in the first previously empty slot of B, every other slot of the two arrays
is as before, so the number of occupied slots of each grows by exactly one. -/
theorem make_friends_success {M : Nat} (name1 name2 : CStr) (head : Store M) (a b : Nat)
    (ha : find_user name1 head = some a) (hb : find_user name2 head = some b)
    (hab : a ≠ b) (hnf : some b ∉ slots head a)
    (hfa : none ∈ slots head a) (hfb : none ∈ slots head b) :
    ∃ i j,
      ((slots head a)[i]? = some none ∧ ∀ k, k < i → (slots head a)[k]? ≠ some none) ∧
      ((slots head b)[j]? = some none ∧ ∀ k, k < j → (slots head b)[k]? ≠ some none) ∧
      (make_friends name1 name2 head).1 = 0 ∧
      slots (make_friends name1 name2 head).2 a = (slots head a).set i (some b) ∧
      slots (make_friends name1 name2 head).2 b = (slots head b).set j (some a) ∧
      (slots (make_friends name1 name2 head).2 a).countP Option.isSome =
        (slots head a).countP Option.isSome + 1 ∧
      (slots (make_friends name1 name2 head).2 b).countP Option.isSome =
        (slots head b).countP Option.isSome + 1 := by
  have hpre : some b ∉ (slots head a).takeWhile Option.isSome :=
    fun hm => hnf ((List.takeWhile_sublist _).subset hm)
  have hcap : ¬ (none ∉ slots head a ∨ none ∉ slots head b) := by
    rintro (h | h)
    · exact h hfa
    · exact h hfb
  have hres := make_friends_resolved name1 name2 head a b ha hb
  rw [if_neg hab, if_neg hpre, if_neg hcap] at hres
  obtain ⟨hia, hmina⟩ := occupied_run_first_empty (slots head a) hfa
  obtain ⟨hjb, hminb⟩ := occupied_run_first_empty (slots head b) hfb
  have hsa : slots (make_friends name1 name2 head).2 a =
      (slots head a).set ((slots head a).takeWhile Option.isSome).length (some b) := by
    rw [hres]
    simp only
    rw [slots_set_friend_ne _ b _ a a hab, slots_set_friend_same]
  have hsb : slots (make_friends name1 name2 head).2 b =
      (slots head b).set ((slots head b).takeWhile Option.isSome).length (some a) := by
    rw [hres]
    simp only
    rw [slots_set_friend_same, slots_set_friend_ne _ a _ b b (fun e => hab e.symm)]
  refine ⟨_, _, ⟨hia, hmina⟩, ⟨hjb, hminb⟩, by rw [hres], hsa, hsb, ?_, ?_⟩
  · rw [hsa]; exact countP_fill_empty _ _ _ hia
  · rw [hsb]; exact countP_fill_empty _ _ _ hjb

/-- C3. When `make_friends` returns a non-zero code, the store it leaves is the store it
was given: every friend slot, every post list and the user list are unchanged.  The codes
it can return are 0, 1, 2, 3 and 4. -/
theorem make_friends_failure_unchanged {M : Nat} (name1 name2 : CStr) (head : Store M) :
    ((make_friends name1 name2 head).1 ≠ 0 → (make_friends name1 name2 head).2 = head) ∧
    (make_friends name1 name2 head).1 ∈ [0, 1, 2, 3, 4] := by
  unfold make_friends
  split
  · split
    · simp
    · split
      · simp
      · simp only
        split <;> simp
  · simp

/-! ### Contiguous friend arrays -/

theorem all_isNone_not_mem (l : List (Option Nat)) (h : l.all Option.isNone = true) (p : Nat) :
    some p ∉ l := by
  intro hm
  have := List.all_eq_true.1 h (some p) hm
  simp at this

theorem contiguous_mem_occupied_run (l : List (Option Nat)) (h : contiguous l = true) (p : Nat) :
    some p ∈ l.takeWhile Option.isSome ↔ some p ∈ l := by
  induction l with
  | nil => simp
  | cons x rest ih =>
    cases x with
    | none =>
      have := all_isNone_not_mem rest (by simpa [contiguous] using h) p
      simp [this]
    | some q =>
      have h2 : contiguous rest = true := by simpa [contiguous] using h
      simp [ih h2]

theorem contiguous_of_all_isNone (l : List (Option Nat)) (h : l.all Option.isNone = true) :
    contiguous l = true := by
  cases l with
  | nil => rfl
  | cons x rest =>
    cases x with
    | none => simpa [contiguous] using h
    | some q => simp at h

theorem contiguous_fill (l : List (Option Nat)) (h : contiguous l = true) (p : Nat) :
    contiguous (l.set (l.takeWhile Option.isSome).length (some p)) = true := by
  induction l with
  | nil => simp [contiguous]
  | cons x rest ih =>
    cases x with
    | none =>
      have h2 : rest.all Option.isNone = true := by simpa [contiguous] using h
      simpa [contiguous] using contiguous_of_all_isNone rest h2
    | some q =>
      have h2 : contiguous rest = true := by simpa [contiguous] using h
      simpa [contiguous] using ih h2

theorem contiguous_replicate (n : Nat) : contiguous (List.replicate n none) = true := by
  cases n with
  | zero => simp [contiguous]
  | succ n => simp [List.replicate_succ, contiguous]

/-- Filling an empty slot keeps every pointer already in the array. -/
theorem mem_set_of_mem (l : List (Option Nat)) (i p q : Nat) (hi : l[i]? = some none)
    (hq : some q ∈ l) : some q ∈ l.set i (some p) := by
  obtain ⟨k, hk⟩ := List.mem_iff_getElem?.1 hq
  refine List.mem_iff_getElem?.2 ⟨k, ?_⟩
  have hik : i ≠ k := by
    rintro rfl
    rw [hi] at hk
    simp at hk
  rw [List.getElem?_set_ne hik]
  exact hk

/-- The order of the checks of `make_friends`, on any list of users: 4 exactly when a name is
absent from the list; else 3 exactly when both names resolve to the same user; else 1
exactly when B is in a slot of A that the first loop reaches, that is one before the first
empty slot of A; else 2 exactly when A or B has no empty slot; else 0.  In a friend array
whose occupied slots form a contiguous run at the front, the loop reaches every slot that
holds a friend. -/
theorem make_friends_order {M : Nat} (name1 name2 : CStr) (head : Store M) :
    ((make_friends name1 name2 head).1 = 4 ↔
      find_user name1 head = none ∨ find_user name2 head = none) ∧
    ((make_friends name1 name2 head).1 = 3 ↔
      ∃ a, find_user name1 head = some a ∧ find_user name2 head = some a) ∧
    ((make_friends name1 name2 head).1 = 1 ↔
      ∃ a b, find_user name1 head = some a ∧ find_user name2 head = some b ∧ a ≠ b ∧
        some b ∈ (slots head a).takeWhile Option.isSome) ∧
    ((make_friends name1 name2 head).1 = 2 ↔
      ∃ a b, find_user name1 head = some a ∧ find_user name2 head = some b ∧ a ≠ b ∧
        some b ∉ (slots head a).takeWhile Option.isSome ∧
        (none ∉ slots head a ∨ none ∉ slots head b)) ∧
    ((make_friends name1 name2 head).1 = 0 ↔
      ∃ a b, find_user name1 head = some a ∧ find_user name2 head = some b ∧ a ≠ b ∧
        some b ∉ (slots head a).takeWhile Option.isSome ∧
        none ∈ slots head a ∧ none ∈ slots head b) ∧
    (∀ a b : Nat, contiguous (slots head a) = true →
      (some b ∈ (slots head a).takeWhile Option.isSome ↔ some b ∈ slots head a)) := by
  refine (and_assoc.1 (and_assoc.1 (and_assoc.1 (and_assoc.1
    ⟨?_, fun a b hc => contiguous_mem_occupied_run (slots head a) hc b⟩))))
  cases ha : find_user name1 head with
  | none => simp [make_friends, ha]
  | some a =>
    cases hb : find_user name2 head with
    | none => simp [make_friends, ha, hb]
    | some b =>
      rw [make_friends_resolved name1 name2 head a b ha hb]
      by_cases hab : a = b
      · subst hab
        simp
      · have hba : ¬ b = a := fun e => hab e.symm
        by_cases hpre : some b ∈ (slots head a).takeWhile Option.isSome
        · simp [hab, hba, hpre]
        · by_cases hcap : none ∉ slots head a ∨ none ∉ slots head b
          · simp only [if_neg hab, if_neg hpre, if_pos hcap]
            simp [hab, hba, hpre, hcap]
            intro h1 h2
            rcases hcap with h | h
            · exact absurd h1 h
            · exact absurd h2 h
          · simp only [if_neg hab, if_neg hpre, if_neg hcap]
            simp [hab, hba, hpre, hcap]
            push_neg at hcap
            exact hcap

/-! ### How the mutators change names and friend arrays -/

theorem slots_nil {M : Nat} (a : Nat) : slots ([] : Store M) a = [] := by
  simp [slots]

theorem slots_of_le {M : Nat} (s : Store M) (a : Nat) (h : s.length ≤ a) : slots s a = [] := by
  unfold slots
  rw [List.getElem?_eq_none h]

theorem slots_append_new {M : Nat} (s : Store M) (x : User M) (a : Nat) :
    slots (s ++ [x]) a =
      if a < s.length then slots s a else if a = s.length then x.friends.toList else [] := by
  unfold slots
  by_cases h : a < s.length
  · rw [List.getElem?_append_left h]
    simp [h]
  · by_cases h2 : a = s.length
    · subst h2
      simp
    · have h3 : (s ++ [x]).length ≤ a := by simp; omega
      have h4 : s.length ≤ a := by omega
      rw [List.getElem?_eq_none h3, List.getElem?_eq_none h4]
      simp [h, h2]

theorem set_friend_names {M : Nat} (s : Store M) (u i p : Nat) :
    (set_friend s u i p).map (fun x => x.name) = s.map (fun x => x.name) := by
  unfold set_friend
  cases hu : s[u]? with
  | none => rfl
  | some usr =>
    simp only
    apply List.ext_getElem?
    intro k
    by_cases hk : u = k
    · subst hk
      simp [List.getElem?_map, List.getElem?_set, hu]
      exact (List.getElem?_eq_some_iff.1 hu).1
    · simp [List.getElem?_map, List.getElem?_set, hk]

theorem set_post_names {M : Nat} (s : Store M) (t : Nat) (tu : User M) (posts : List Post)
    (ht : s[t]? = some tu) :
    (s.set t { tu with first_post := posts }).map (fun x => x.name) =
      s.map (fun x => x.name) := by
  apply List.ext_getElem?
  intro k
  by_cases hk : t = k
  · subst hk
    simp [List.getElem?_map, List.getElem?_set, ht]
    exact (List.getElem?_eq_some_iff.1 ht).1
  · simp [List.getElem?_map, List.getElem?_set, hk]

theorem set_post_slots {M : Nat} (s : Store M) (t : Nat) (tu : User M) (posts : List Post)
    (ht : s[t]? = some tu) (a : Nat) :
    slots (s.set t { tu with first_post := posts }) a = slots s a := by
  unfold slots
  by_cases hk : t = a
  · subst hk
    have hlt := (List.getElem?_eq_some_iff.1 ht).1
    rw [List.getElem?_set_self hlt, ht]
  · rw [List.getElem?_set_ne hk]

/-- The store `make_post` leaves has the names and the friend arrays of the store it got. -/
theorem make_post_graph {M : Nat} (MAX_NAME : Nat) (author target : Option Nat)
    (contents : CStr) (now : Nat) (s : Store M) :
    ((make_post MAX_NAME author target contents now s).2.map (fun x => x.name) =
        s.map (fun x => x.name)) ∧
      ∀ a, slots (make_post MAX_NAME author target contents now s).2 a = slots s a := by
  unfold make_post
  split
  · split
    · rename_i au tu hau htu
      split
      · exact ⟨set_post_names s _ tu _ htu, set_post_slots s _ tu _ htu⟩
      · exact ⟨rfl, fun _ => rfl⟩
    · exact ⟨rfl, fun _ => rfl⟩
  · exact ⟨rfl, fun _ => rfl⟩

/-- The three outcomes of `create_user`. -/
theorem create_user_cases {M : Nat} (MAX_NAME : Nat) (name : CStr) (s : Store M) :
    create_user MAX_NAME name s = (2, s) ∨ create_user MAX_NAME name s = (1, s) ∨
      (name.length < MAX_NAME ∧ (∀ u ∈ s, u.name ≠ name) ∧
        create_user MAX_NAME name s = (0, s ++ [new_user M MAX_NAME name])) := by
  unfold create_user
  by_cases hlen : name.length ≥ MAX_NAME
  · simp [hlen]
  · have hwalk := create_user_walk_isSome name s 0
    simp only [hlen, if_false]
    cases s with
    | nil => simp; omega
    | cons u rest =>
      by_cases hw : (create_user_walk name (u :: rest) 0).isSome = true
      · simp [hw]
      · right; right
        refine ⟨by omega, ?_, by simp [hw]⟩
        intro v hv hname
        exact hw (hwalk.2 ⟨v, hv, hname⟩)

/-! ### The store invariant -/

theorem Inv_empty (M MAX_NAME : Nat) : Inv MAX_NAME ([] : Store M) where
  names_nodup := by simp
  names_fit := by simp
  valid := by simp [slots_nil]
  contig := by simp [slots_nil, contiguous]
  sym := by simp [slots_nil]
  noself := by simp [slots_nil]
  nodup := by simp [slots_nil]

theorem Inv_same_graph {M : Nat} (MAX_NAME : Nat) (s t : Store M)
    (hn : t.map (fun x => x.name) = s.map (fun x => x.name))
    (hs : ∀ a, slots t a = slots s a) (h : Inv MAX_NAME s) : Inv MAX_NAME t where
  names_nodup := by rw [hn]; exact h.names_nodup
  names_fit := by rw [hn]; exact h.names_fit
  valid := by
    intro a p hp
    have hl : t.length = s.length := by simpa using congrArg List.length hn
    rw [hl]
    rw [hs] at hp
    exact h.valid a p hp
  contig := by intro a; rw [hs]; exact h.contig a
  sym := by intro a b; rw [hs, hs]; exact h.sym a b
  noself := by intro a; rw [hs]; exact h.noself a
  nodup := by intro a; rw [hs]; exact h.nodup a

theorem Inv_make_post {M : Nat} (MAX_NAME : Nat) (author target : Option Nat)
    (contents : CStr) (now : Nat) (s : Store M) (h : Inv MAX_NAME s) :
    Inv MAX_NAME (make_post MAX_NAME author target contents now s).2 :=
  Inv_same_graph MAX_NAME s _ (make_post_graph MAX_NAME author target contents now s).1
    (make_post_graph MAX_NAME author target contents now s).2 h

theorem new_user_slots (M MAX_NAME : Nat) (name : CStr) :
    (new_user M MAX_NAME name).friends.toList = List.replicate M none := by
  simp [new_user, Mathlib.Vector.replicate, Mathlib.Vector.toList]

theorem Inv_append_new {M : Nat} (MAX_NAME : Nat) (name : CStr) (s : Store M)
    (hlen : name.length < MAX_NAME) (hfresh : ∀ u ∈ s, u.name ≠ name) (h : Inv MAX_NAME s) :
    Inv MAX_NAME (s ++ [new_user M MAX_NAME name]) := by
  have hname : (new_user M MAX_NAME name).name = name := strncpy_fits name MAX_NAME hlen
  have hsl : ∀ a, slots (s ++ [new_user M MAX_NAME name]) a =
      if a < s.length then slots s a else if a = s.length then List.replicate M none else [] := by
    intro a
    rw [slots_append_new, new_user_slots]
  have hmem : ∀ a p, some p ∈ slots (s ++ [new_user M MAX_NAME name]) a →
      a < s.length ∧ some p ∈ slots s a := by
    intro a p hp
    rw [hsl] at hp
    by_cases ha : a < s.length
    · simp only [ha, if_true] at hp
      exact ⟨ha, hp⟩
    · simp only [ha, if_false] at hp
      split at hp
      · simp at hp
      · simp at hp
  have hold : ∀ a, a < s.length → slots (s ++ [new_user M MAX_NAME name]) a = slots s a := by
    intro a ha
    rw [hsl]
    simp [ha]
  constructor
  · rw [List.map_append, List.nodup_append]
    refine ⟨h.names_nodup, by simp, ?_⟩
    intro n hn hn2
    simp only [List.map_cons, List.map_nil, List.mem_singleton] at hn2
    obtain ⟨u, hu, hun⟩ := List.mem_map.1 hn
    exact hfresh u hu (by rw [hun, hn2, hname])
  · intro n hn
    rw [List.map_append, List.mem_append] at hn
    rcases hn with hn | hn
    · exact h.names_fit n hn
    · simp only [List.map_cons, List.map_nil, List.mem_singleton] at hn
      rw [hn, hname]
      exact hlen
  · intro a p hp
    obtain ⟨ha, hp2⟩ := hmem a p hp
    have := h.valid a p hp2
    simp
    omega
  · intro a
    rw [hsl]
    by_cases ha : a < s.length
    · simp only [ha, if_true]
      exact h.contig a
    · simp only [ha, if_false]
      split
      · exact contiguous_replicate M
      · rfl
  · intro a b hb
    obtain ⟨ha, hb2⟩ := hmem a b hb
    have hbl := h.valid a b hb2
    rw [hold b hbl]
    exact h.sym a b hb2
  · intro a ha
    obtain ⟨_, ha2⟩ := hmem a a ha
    exact h.noself a ha2
  · intro a i j p hi hj
    have hm : some p ∈ slots (s ++ [new_user M MAX_NAME name]) a :=
      List.mem_iff_getElem?.2 ⟨i, hi⟩
    obtain ⟨ha, _⟩ := hmem a p hm
    rw [hold a ha] at hi hj
    exact h.nodup a i j p hi hj

theorem Inv_create_user {M : Nat} (MAX_NAME : Nat) (name : CStr) (s : Store M)
    (h : Inv MAX_NAME s) : Inv MAX_NAME (create_user MAX_NAME name s).2 := by
  rcases create_user_cases MAX_NAME name s with hc | hc | ⟨hlen, hfresh, hc⟩
  · rw [hc]; exact h
  · rw [hc]; exact h
  · rw [hc]; exact Inv_append_new MAX_NAME name s hlen hfresh h

/-- The two outcomes of `make_friends`: a failure that returns the store as it was, or a
success that fills the first empty slot on each side. -/
theorem make_friends_cases {M : Nat} (name1 name2 : CStr) (s : Store M) :
    ((make_friends name1 name2 s).1 ≠ 0 ∧ (make_friends name1 name2 s).2 = s) ∨
    ∃ a b, find_user name1 s = some a ∧ find_user name2 s = some b ∧ a ≠ b ∧
      some b ∉ (slots s a).takeWhile Option.isSome ∧ none ∈ slots s a ∧ none ∈ slots s b ∧
      make_friends name1 name2 s =
        (0, set_friend (set_friend s a ((slots s a).takeWhile Option.isSome).length b)
          b ((slots s b).takeWhile Option.isSome).length a) := by
  cases ha : find_user name1 s with
  | none => left; simp [make_friends, ha]
  | some a =>
    cases hb : find_user name2 s with
    | none => left; simp [make_friends, ha, hb]
    | some b =>
      have hres := make_friends_resolved name1 name2 s a b ha hb
      by_cases hab : a = b
      · left; rw [hres]; simp [hab]
      · by_cases hpre : some b ∈ (slots s a).takeWhile Option.isSome
        · left; rw [hres]; simp [hab, hpre]
        · by_cases hcap : none ∉ slots s a ∨ none ∉ slots s b
          · left; rw [hres]; simp only [if_neg hab, if_neg hpre, if_pos hcap]; simp
          · right
            rw [if_neg hab, if_neg hpre, if_neg hcap] at hres
            push_neg at hcap
            exact ⟨a, b, rfl, rfl, hab, hpre, hcap.1, hcap.2, hres⟩

/-- The friend arrays after the two assignments of a successful `make_friends`. -/
theorem slots_after_fill {M : Nat} (s : Store M) (a b i j : Nat) (hab : a ≠ b) (c : Nat) :
    slots (set_friend (set_friend s a i b) b j a) c =
      if c = a then (slots s a).set i (some b)
      else if c = b then (slots s b).set j (some a) else slots s c := by
  by_cases hca : c = a
  · subst hca
    rw [slots_set_friend_ne _ b _ _ c hab, slots_set_friend_same]
    simp
  · by_cases hcb : c = b
    · subst hcb
      rw [slots_set_friend_same, slots_set_friend_ne _ a _ _ c hca]
      simp [hca]
    · rw [slots_set_friend_ne _ b _ _ c hcb, slots_set_friend_ne _ a _ _ c hca]
      simp [hca, hcb]

theorem nodup_fill (l : List (Option Nat)) (i q : Nat)
    (hnd : ∀ (k1 k2 p : Nat), l[k1]? = some (some p) → l[k2]? = some (some p) → k1 = k2)
    (hq : some q ∉ l) (k1 k2 p : Nat)
    (h1 : (l.set i (some q))[k1]? = some (some p))
    (h2 : (l.set i (some q))[k2]? = some (some p)) : k1 = k2 := by
  rw [List.getElem?_set] at h1 h2
  by_cases e1 : i = k1
  · by_cases e2 : i = k2
    · omega
    · exfalso
      simp only [e1, if_true] at h1
      simp only [e2, if_false] at h2
      split at h1
      · simp only [Option.some.injEq] at h1
        rw [← h1] at h2
        exact hq (List.mem_iff_getElem?.2 ⟨k2, h2⟩)
      · exact Option.noConfusion h1
  · simp only [e1, if_false] at h1
    by_cases e2 : i = k2
    · exfalso
      simp only [e2, if_true] at h2
      split at h2
      · simp only [Option.some.injEq] at h2
        rw [← h2] at h1
        exact hq (List.mem_iff_getElem?.2 ⟨k1, h1⟩)
      · exact Option.noConfusion h2
    · simp only [e2, if_false] at h2
      exact hnd k1 k2 p h1 h2

theorem Inv_fill {M : Nat} (MAX_NAME : Nat) (s : Store M) (a b : Nat) (hab : a ≠ b)
    (hbl : b < s.length) (hal : a < s.length) (h : Inv MAX_NAME s)
    (hpre : some b ∉ (slots s a).takeWhile Option.isSome)
    (hfa : none ∈ slots s a) (hfb : none ∈ slots s b) :
    Inv MAX_NAME (set_friend (set_friend s a ((slots s a).takeWhile Option.isSome).length b)
      b ((slots s b).takeWhile Option.isSome).length a) := by
  have hnb : some b ∉ slots s a :=
    fun hm => hpre ((contiguous_mem_occupied_run _ (h.contig a) b).2 hm)
  have hna : some a ∉ slots s b := fun hm => hnb (h.sym b a hm)
  have hia := (occupied_run_first_empty (slots s a) hfa).1
  have hjb := (occupied_run_first_empty (slots s b) hfb).1
  have hsl := slots_after_fill s a b ((slots s a).takeWhile Option.isSome).length
    ((slots s b).takeWhile Option.isSome).length hab
  generalize hi : ((slots s a).takeWhile Option.isSome).length = i at hia hsl ⊢
  generalize hj : ((slots s b).takeWhile Option.isSome).length = j at hjb hsl ⊢
  have hba : b ≠ a := fun e => hab e.symm
  have hnames : (set_friend (set_friend s a i b) b j a).map (fun x => x.name) =
      s.map (fun x => x.name) := by
    rw [set_friend_names, set_friend_names]
  have hlen : (set_friend (set_friend s a i b) b j a).length = s.length := by
    rw [set_friend_length, set_friend_length]
  have hmono : ∀ c q, some q ∈ slots s c →
      some q ∈ slots (set_friend (set_friend s a i b) b j a) c := by
    intro c q hq
    rw [hsl]
    by_cases hca : c = a
    · subst hca
      simp only [if_true]
      exact mem_set_of_mem _ _ _ _ hia hq
    · by_cases hcb : c = b
      · subst hcb
        simp only [hca, if_false, if_true]
        exact mem_set_of_mem _ _ _ _ hjb hq
      · simpa [hca, hcb] using hq
  have hmem : ∀ c q, some q ∈ slots (set_friend (set_friend s a i b) b j a) c →
      some q ∈ slots s c ∨ (c = a ∧ q = b) ∨ (c = b ∧ q = a) := by
    intro c q hq
    rw [hsl] at hq
    by_cases hca : c = a
    · subst hca
      simp only [if_true] at hq
      rcases List.mem_or_eq_of_mem_set hq with hq | hq
      · exact Or.inl hq
      · exact Or.inr (Or.inl ⟨rfl, by simpa using hq⟩)
    · by_cases hcb : c = b
      · subst hcb
        simp only [hca, if_false, if_true] at hq
        rcases List.mem_or_eq_of_mem_set hq with hq | hq
        · exact Or.inl hq
        · exact Or.inr (Or.inr ⟨rfl, by simpa using hq⟩)
      · simp only [hca, hcb, if_false] at hq
        exact Or.inl hq
  have hba_new : some b ∈ slots (set_friend (set_friend s a i b) b j a) a := by
    rw [hsl]
    simp only [if_true]
    exact List.mem_set _ _ (List.getElem?_eq_some_iff.1 hia).1 _
  have hab_new : some a ∈ slots (set_friend (set_friend s a i b) b j a) b := by
    rw [hsl]
    simp only [hba, if_false, if_true]
    exact List.mem_set _ _ (List.getElem?_eq_some_iff.1 hjb).1 _
  constructor
  · rw [hnames]; exact h.names_nodup
  · rw [hnames]; exact h.names_fit
  · intro c q hq
    rw [hlen]
    rcases hmem c q hq with hq | ⟨_, hq⟩ | ⟨_, hq⟩
    · exact h.valid c q hq
    · rw [hq]; exact hbl
    · rw [hq]; exact hal
  · intro c
    rw [hsl]
    by_cases hca : c = a
    · subst hca
      simp only [if_true]
      have := contiguous_fill (slots s c) (h.contig c) b
      rw [hi] at this
      exact this
    · by_cases hcb : c = b
      · subst hcb
        simp only [hca, if_false, if_true]
        have := contiguous_fill (slots s c) (h.contig c) a
        rw [hj] at this
        exact this
      · simp only [hca, hcb, if_false]
        exact h.contig c
  · intro c q hq
    rcases hmem c q hq with hq | ⟨hc, hq⟩ | ⟨hc, hq⟩
    · exact hmono q c (h.sym c q hq)
    · rw [hc, hq]; exact hab_new
    · rw [hc, hq]; exact hba_new
  · intro c hc
    rcases hmem c c hc with hq | ⟨hc1, hc2⟩ | ⟨hc1, hc2⟩
    · exact h.noself c hq
    · exact hab (hc1.symm.trans hc2)
    · exact hab (hc2.symm.trans hc1)
  · intro c k1 k2 p h1 h2
    rw [hsl] at h1 h2
    by_cases hca : c = a
    · subst hca
      simp only [if_true] at h1 h2
      exact nodup_fill _ i b (h.nodup c) hnb k1 k2 p h1 h2
    · by_cases hcb : c = b
      · subst hcb
        simp only [hca, if_false, if_true] at h1 h2
        exact nodup_fill _ j a (h.nodup c) hna k1 k2 p h1 h2
      · simp only [hca, hcb, if_false] at h1 h2
        exact h.nodup c k1 k2 p h1 h2

theorem Inv_make_friends {M : Nat} (MAX_NAME : Nat) (name1 name2 : CStr) (s : Store M)
    (h : Inv MAX_NAME s) : Inv MAX_NAME (make_friends name1 name2 s).2 := by
  rcases make_friends_cases name1 name2 s with ⟨_, hs⟩ | ⟨a, b, ha, hb, hab, hpre, hfa, hfb, hs⟩
  · rw [hs]; exact h
  · rw [hs]
    exact Inv_fill MAX_NAME s a b hab (find_user_lt name2 s b hb) (find_user_lt name1 s a ha)
      h hpre hfa hfb

theorem Inv_step {M : Nat} (MAX_NAME : Nat) (s : Store M) (op : Op) (h : Inv MAX_NAME s) :
    Inv MAX_NAME (step MAX_NAME s op) := by
  cases op with
  | create_user name => exact Inv_create_user MAX_NAME name s h
  | make_friends name1 name2 => exact Inv_make_friends MAX_NAME name1 name2 s h
  | make_post author target contents now =>
    exact Inv_make_post MAX_NAME author target contents now s h

theorem Inv_run_from {M : Nat} (MAX_NAME : Nat) (ops : List Op) (s : Store M)
    (h : Inv MAX_NAME s) : Inv MAX_NAME (run_from MAX_NAME s ops) := by
  induction ops generalizing s with
  | nil => exact h
  | cons op rest ih => exact ih _ (Inv_step MAX_NAME s op h)

/-- Every store reachable from the empty store satisfies the store invariant. -/
theorem Inv_run (M MAX_NAME : Nat) (ops : List Op) : Inv MAX_NAME (run M MAX_NAME ops) :=
  Inv_run_from MAX_NAME ops [] (Inv_empty M MAX_NAME)

/-- C4. In every store reachable from the empty store by a sequence of `create_user`,
`make_friends` and `make_post` calls (whatever their outcome), friendship is symmetric (B is
in a slot of A exactly when A is in a slot of B), no user is in a slot of its own friend
array, and no user is in two slots of the same friend array. -/
theorem reachable_friendship_symmetric_simple (M MAX_NAME : Nat) (ops : List Op) :
    (∀ a b : Nat, some b ∈ slots (run M MAX_NAME ops) a ↔ some a ∈ slots (run M MAX_NAME ops) b) ∧
    (∀ a : Nat, some a ∉ slots (run M MAX_NAME ops) a) ∧
    (∀ a i j p : Nat, (slots (run M MAX_NAME ops) a)[i]? = some (some p) →
      (slots (run M MAX_NAME ops) a)[j]? = some (some p) → i = j) :=
  ⟨fun a b => ⟨(Inv_run M MAX_NAME ops).sym a b, (Inv_run M MAX_NAME ops).sym b a⟩,
    (Inv_run M MAX_NAME ops).noself, (Inv_run M MAX_NAME ops).nodup⟩

/-! ### Counting friendships -/

theorem count_after_step {M : Nat} (MAX_NAME : Nat) (s : Store M) (u : Nat) (op : Op) :
    (slots (step MAX_NAME s op) u).countP Option.isSome =
      (slots s u).countP Option.isSome + (if takes_part s u op then 1 else 0) := by
  cases op with
  | create_user name =>
    simp only [step, takes_part]
    rcases create_user_cases MAX_NAME name s with hc | hc | ⟨_, _, hc⟩
    · simp [hc]
    · simp [hc]
    · rw [hc]
      simp only
      rw [slots_append_new, new_user_slots]
      by_cases hu : u < s.length
      · simp [hu]
      · rw [slots_of_le s u (by omega)]
        by_cases hu2 : u = s.length
        · simp [hu2]
        · simp [hu, hu2]
  | make_post author target contents now =>
    simp only [step, takes_part]
    rw [(make_post_graph MAX_NAME author target contents now s).2]
    simp
  | make_friends name1 name2 =>
    simp only [step, takes_part]
    rcases make_friends_cases name1 name2 s with
      ⟨hne, hs⟩ | ⟨a, b, ha, hb, hab, hpre, hfa, hfb, hs⟩
    · rw [hs]
      simp [hne]
    · have hia := (occupied_run_first_empty (slots s a) hfa).1
      have hjb := (occupied_run_first_empty (slots s b) hfb).1
      simp only [hs, ha, hb]
      rw [slots_after_fill s a b _ _ hab]
      by_cases hua : u = a
      · subst hua
        simp [countP_fill_empty _ _ _ hia]
      · by_cases hub : u = b
        · subst hub
          simp [hua, countP_fill_empty _ _ _ hjb]
        · have hau : ¬ a = u := fun e => hua e.symm
          have hbu : ¬ b = u := fun e => hub e.symm
          simp [hua, hub, hau, hbu]

theorem count_run_from {M : Nat} (MAX_NAME : Nat) (ops : List Op) (s : Store M) (u : Nat) :
    (slots (run_from MAX_NAME s ops) u).countP Option.isSome =
      (slots s u).countP Option.isSome + friendships_from MAX_NAME u s ops := by
  induction ops generalizing s with
  | nil => simp [run_from, friendships_from]
  | cons op rest ih =>
    simp only [run_from, friendships_from]
    rw [ih, count_after_step]
    omega

/-- In a reachable store the occupied slots of a user count the successful `make_friends`
calls the user took part in. -/
theorem count_run (M MAX_NAME : Nat) (ops : List Op) (u : Nat) :
    (slots (run M MAX_NAME ops) u).countP Option.isSome = friendships M MAX_NAME u ops := by
  unfold run friendships
  rw [count_run_from]
  simp [slots_nil]

theorem find_user_of_nodup {M : Nat} (s : Store M) (u : Nat) (U : User M)
    (hn : (s.map (fun x => x.name)).Nodup) (hU : s[u]? = some U) :
    find_user U.name s = some u := by
  rw [find_user_some_iff]
  refine ⟨⟨U, hU, rfl⟩, ?_⟩
  intro j hj v hv hname
  obtain ⟨hul, hUe⟩ := List.getElem?_eq_some_iff.1 hU
  obtain ⟨hjl, hve⟩ := List.getElem?_eq_some_iff.1 hv
  have h1 : j < (s.map (fun x => x.name)).length := by simpa using hjl
  have h2 : u < (s.map (fun x => x.name)).length := by simpa using hul
  have heq : (s.map (fun x => x.name))[j] = (s.map (fun x => x.name))[u] := by
    simp [hUe, hve, hname]
  have := (@List.Nodup.getElem_inj_iff _ _ hn j h1 u h2).1 heq
  omega

/-- Witness of C1 on `pair_store`: `a` and `b` become friends. -/
theorem make_friends_success_witness :
    find_user ['a'] pair_store = some 0 ∧ find_user ['b'] pair_store = some 1 ∧
    (make_friends ['a'] ['b'] pair_store).1 = 0 ∧
    (slots (make_friends ['a'] ['b'] pair_store).2 0).countP Option.isSome =
      (slots pair_store 0).countP Option.isSome + 1 := by
  obtain ⟨_, _, _, _, h0, _, _, hc, _⟩ :=
    make_friends_success ['a'] ['b'] pair_store 0 1 (by decide) (by decide) (by decide)
      (by decide) (by decide) (by decide)
  exact ⟨by decide, by decide, h0, hc⟩

/-- C5. In a store reachable from the empty store, a user U that took part in exactly
`MAX_FRIENDS` successful `make_friends` calls has every slot occupied, and one more
`make_friends` between U, in either argument position, and any other user of the store that
is not in a slot of U returns 2 and leaves the store as it is. -/
theorem capacity_bound (M MAX_NAME : Nat) (ops : List Op) (u : Nat) (U : User M)
    (hU : (run M MAX_NAME ops)[u]? = some U)
    (hcount : friendships M MAX_NAME u ops = M) :
    none ∉ slots (run M MAX_NAME ops) u ∧
    ∀ (v : Nat) (V : User M), (run M MAX_NAME ops)[v]? = some V → v ≠ u →
      some v ∉ slots (run M MAX_NAME ops) u →
      make_friends U.name V.name (run M MAX_NAME ops) = (2, run M MAX_NAME ops) ∧
      make_friends V.name U.name (run M MAX_NAME ops) = (2, run M MAX_NAME ops) := by
  have hinv := Inv_run M MAX_NAME ops
  have hul := (List.getElem?_eq_some_iff.1 hU).1
  have hfull : none ∉ slots (run M MAX_NAME ops) u := by
    have hc := count_run M MAX_NAME ops u
    have hl := slots_length (run M MAX_NAME ops) u hul
    have hc2 : (slots (run M MAX_NAME ops) u).countP Option.isSome =
        (slots (run M MAX_NAME ops) u).length := by rw [hc, hcount, hl]
    replace hc := List.countP_eq_length.1 hc2
    intro hn
    have := hc none hn
    simp at this
  refine ⟨hfull, ?_⟩
  intro v V hV hvu hnv
  have hfu := find_user_of_nodup _ u U hinv.names_nodup hU
  have hfv := find_user_of_nodup _ v V hinv.names_nodup hV
  have hnu : some u ∉ slots (run M MAX_NAME ops) v := fun hm => hnv (hinv.sym v u hm)
  constructor
  · rw [make_friends_resolved _ _ _ u v hfu hfv]
    have h1 : some v ∉ (slots (run M MAX_NAME ops) u).takeWhile Option.isSome :=
      fun hm => hnv ((List.takeWhile_sublist _).subset hm)
    rw [if_neg (fun e => hvu e.symm), if_neg h1, if_pos (Or.inl hfull)]
  · rw [make_friends_resolved _ _ _ v u hfv hfu]
    have h1 : some u ∉ (slots (run M MAX_NAME ops) v).takeWhile Option.isSome :=
      fun hm => hnu ((List.takeWhile_sublist _).subset hm)
    rw [if_neg hvu, if_neg h1, if_pos (Or.inr hfull)]

/-- Witness of C5 with one friend slot per user: after `cap_ops` user `a` has had its one
friendship, and befriending `c` fails with 2 in both argument orders. -/
theorem capacity_bound_witness :
    friendships 1 8 0 cap_ops = 1 ∧
    make_friends ['a'] ['c'] (run 1 8 cap_ops) = (2, run 1 8 cap_ops) ∧
    make_friends ['c'] ['a'] (run 1 8 cap_ops) = (2, run 1 8 cap_ops) :=
  ⟨by decide,
    (capacity_bound 1 8 cap_ops 0
      { name := ['a'], profile_pic := [], first_post := [], friends := ⟨[some 1], rfl⟩ }
      (by decide) (by decide)).2 2
      { name := ['c'], profile_pic := [], first_post := [], friends := ⟨[none], rfl⟩ }
      (by decide) (by decide) (by decide)⟩

/-! ### `make_post` -/

theorem post_scan_iff {M : Nat} (head : Store M) (n : CStr) (l : List (Option Nat)) :
    post_scan head n l = true ↔
      ∃ p, some p ∈ l.takeWhile Option.isSome ∧ name_at head p = some n := by
  induction l with
  | nil => simp [post_scan]
  | cons x rest ih =>
    cases x with
    | none => simp [post_scan]
    | some q =>
      unfold post_scan
      by_cases h : name_at head q = some n
      · simp only [h, if_true, Option.isSome_some, List.takeWhile_cons_of_pos, true_iff]
        exact ⟨q, by simp, h⟩
      · simp only [h, if_false, ih, Option.isSome_some, List.takeWhile_cons_of_pos,
          List.mem_cons, Option.some.injEq]
        constructor
        · rintro ⟨p, hp, hn⟩
          exact ⟨p, Or.inr hp, hn⟩
        · rintro ⟨p, hp | hp, hn⟩
          · rw [hp] at hn
            exact absurd hn h
          · exact ⟨p, hp, hn⟩

/-- The result of `make_post` on two pointers to users of the store. -/
theorem make_post_resolved {M : Nat} (MAX_NAME : Nat) (a t : Nat) (A T : User M)
    (contents : CStr) (now : Nat) (head : Store M)
    (hA : head[a]? = some A) (hT : head[t]? = some T) :
    make_post MAX_NAME (some a) (some t) contents now head =
      if post_scan head A.name T.friends.toList then
        (0, head.set t
          { T with first_post := ⟨strncpy A.name MAX_NAME, contents, now⟩ :: T.first_post })
      else (1, head) := by
  unfold make_post
  simp only [hA, hT]

/-- The result of `make_post` when its loop finds the author: for pointers `author` and
`target` to users of the list such that a user with the author's name is in a slot of the
target before the first empty one, `make_post` returns 0 and puts one new post, with the
author's name and the given contents, in front of the target's previous posts; the user
list, every friend array and every other user's posts are unchanged. -/
theorem make_post_adds {M : Nat} (MAX_NAME : Nat) (a t : Nat) (A T : User M)
    (contents : CStr) (now : Nat) (head : Store M)
    (hA : head[a]? = some A) (hT : head[t]? = some T) (hfit : A.name.length < MAX_NAME)
    (hfr : ∃ p, some p ∈ T.friends.toList.takeWhile Option.isSome ∧
      name_at head p = some A.name) :
    make_post MAX_NAME (some a) (some t) contents now head =
      (0, head.set t { T with first_post := ⟨A.name, contents, now⟩ :: T.first_post }) ∧
    (make_post MAX_NAME (some a) (some t) contents now head).2.map (fun x => x.name) =
      head.map (fun x => x.name) ∧
    (∀ c, slots (make_post MAX_NAME (some a) (some t) contents now head).2 c = slots head c) ∧
    (∀ c, c ≠ t → (make_post MAX_NAME (some a) (some t) contents now head).2[c]? = head[c]?) := by
  have hscan := (post_scan_iff head A.name T.friends.toList).2 hfr
  have hres := make_post_resolved MAX_NAME a t A T contents now head hA hT
  rw [if_pos hscan, strncpy_fits A.name MAX_NAME hfit] at hres
  refine ⟨hres, (make_post_graph MAX_NAME _ _ contents now head).1,
    (make_post_graph MAX_NAME _ _ contents now head).2, ?_⟩
  intro c hc
  rw [hres]
  exact List.getElem?_set_ne (fun e => hc e.symm)

/-- The failing results of `make_post`, on any list of users: for arguments that are NULL or
point to users of the list, `make_post` returns 2 exactly when the author or the target is
NULL; otherwise it returns 1 exactly when its loop, which stops at the first empty slot of
the target, meets no user with the author's name.  Whenever it does not return 0 the list is
unchanged. -/
theorem make_post_refusal {M : Nat} (MAX_NAME : Nat) (author target : Option Nat)
    (contents : CStr) (now : Nat) (head : Store M)
    (hva : ∀ a, author = some a → a < head.length)
    (hvt : ∀ t, target = some t → t < head.length) :
    ((make_post MAX_NAME author target contents now head).1 = 2 ↔
      author = none ∨ target = none) ∧
    (∀ (a t : Nat) (A T : User M), author = some a → target = some t →
      head[a]? = some A → head[t]? = some T →
      ((make_post MAX_NAME author target contents now head).1 = 1 ↔
        ¬ ∃ p, some p ∈ T.friends.toList.takeWhile Option.isSome ∧
          name_at head p = some A.name)) ∧
    ((make_post MAX_NAME author target contents now head).1 ≠ 0 →
      (make_post MAX_NAME author target contents now head).2 = head) := by
  cases author with
  | none => simp [make_post]
  | some a =>
    cases target with
    | none => simp [make_post]
    | some t =>
      have hal := hva a rfl
      have htl := hvt t rfl
      have hA : head[a]? = some head[a] := List.getElem?_eq_getElem hal
      have hT : head[t]? = some head[t] := List.getElem?_eq_getElem htl
      have hres := make_post_resolved MAX_NAME a t head[a] head[t] contents now head hA hT
      have hiff := post_scan_iff head head[a].name head[t].friends.toList
      by_cases hscan : post_scan head head[a].name head[t].friends.toList = true
      · rw [hres, if_pos hscan]
        refine ⟨by simp, ?_, by simp⟩
        intro a2 t2 A2 T2 ea et hA2 hT2
        cases ea; cases et
        rw [hA] at hA2; rw [hT] at hT2
        cases hA2; cases hT2
        constructor
        · intro h01
          exact absurd h01 (by simp)
        · intro hno
          exact absurd (hiff.1 hscan) hno
      · rw [hres, if_neg hscan]
        refine ⟨by simp, ?_, by simp⟩
        intro a2 t2 A2 T2 ea et hA2 hT2
        cases ea; cases et
        rw [hA] at hA2; rw [hT] at hT2
        cases hA2; cases hT2
        exact ⟨fun _ h => hscan (hiff.2 h), fun _ => rfl⟩

/-! ### The line framer -/

theorem find_network_newline_loop_spec (buf : List Char) (n k : Nat) (hk : k ≤ n) :
    (∃ i, n - k ≤ i ∧ i < n ∧ crlf_at buf i ∧
        (∀ j, n - k ≤ j → j < i → ¬ crlf_at buf j) ∧
        find_network_newline_loop buf n k = ((i + 1 : Nat) : Int)) ∨
    ((∀ j, n - k ≤ j → j < n → ¬ crlf_at buf j) ∧ find_network_newline_loop buf n k = -1) := by
  induction k with
  | zero =>
    right
    exact ⟨fun j h1 h2 => by omega, rfl⟩
  | succ k ih =>
    have ih2 := ih (by omega)
    unfold find_network_newline_loop
    by_cases hc : crlf_at buf (n - (k + 1))
    · left
      obtain ⟨h0, h1, h2⟩ := hc
      refine ⟨n - (k + 1), le_refl _, by omega, ⟨h0, h1, h2⟩, fun j h3 h4 => by omega, ?_⟩
      simp [h0, h1, h2]
    · have hstep : (if buf[n - (k + 1)]? = some '\n' then
            if n - (k + 1) > 0 ∧ buf[n - (k + 1) - 1]? = some '\r' then
              ((n - (k + 1) + 1 : Nat) : Int)
            else find_network_newline_loop buf n k
          else find_network_newline_loop buf n k) = find_network_newline_loop buf n k := by
        by_cases h1 : buf[n - (k + 1)]? = some '\n'
        · have h2 : ¬ (n - (k + 1) > 0 ∧ buf[n - (k + 1) - 1]? = some '\r') :=
            fun h => hc ⟨h.1, h1, h.2⟩
          rw [if_pos h1, if_neg h2]
        · rw [if_neg h1]
      rw [hstep]
      have hlow : ∀ j, n - (k + 1) ≤ j → ¬ n - k ≤ j → j = n - (k + 1) := by
        intro j h1 h2; omega
      rcases ih2 with ⟨i, h1, h2, h3, h4, h5⟩ | ⟨h1, h2⟩
      · left
        refine ⟨i, by omega, h2, h3, ?_, h5⟩
        intro j hj1 hj2
        by_cases hj : n - k ≤ j
        · exact h4 j hj hj2
        · rw [hlow j hj1 hj]; exact hc
      · right
        refine ⟨?_, h2⟩
        intro j hj1 hj2
        by_cases hj : n - k ≤ j
        · exact h1 j hj hj2
        · rw [hlow j hj1 hj]; exact hc

/-- The result of `find_network_newline`: one past the first network newline that ends
before `n`, or -1 when there is none. -/
theorem find_network_newline_spec (buf : List Char) (n : Nat) :
    (∃ i, i < n ∧ crlf_at buf i ∧ (∀ j, j < i → ¬ crlf_at buf j) ∧
        find_network_newline buf n = ((i + 1 : Nat) : Int)) ∨
    ((∀ j, j < n → ¬ crlf_at buf j) ∧ find_network_newline buf n = -1) := by
  unfold find_network_newline
  rcases find_network_newline_loop_spec buf n n (le_refl n) with
    ⟨i, _, h2, h3, h4, h5⟩ | ⟨h1, h2⟩
  · exact Or.inl ⟨i, h2, h3, fun j hj => h4 j (by omega) hj, h5⟩
  · exact Or.inr ⟨fun j hj => h1 j (by omega) hj, h2⟩

theorem crlf_at_drop (buf : List Char) (w j : Nat) :
    crlf_at (buf.drop w) j ↔ 0 < j ∧ crlf_at buf (w + j) := by
  unfold crlf_at
  simp only [List.getElem?_drop]
  constructor
  · rintro ⟨h0, h1, h2⟩
    have e : w + j - 1 = w + (j - 1) := by omega
    exact ⟨h0, by omega, h1, by rw [e]; exact h2⟩
  · rintro ⟨h0, _, h1, h2⟩
    have e : w + j - 1 = w + (j - 1) := by omega
    exact ⟨h0, h1, by rw [← e]; exact h2⟩

/-- C11. For every buffer and every `n`, `find_network_newline(buf, n)` returns `k + 1` for
the smallest index `k` with `1 ≤ k < n`, `buf[k]` LF and `buf[k - 1]` CR, and returns -1
exactly when there is no such index; so a non-negative result `r` has `2 ≤ r ≤ n` and the two
bytes before position `r` are CR LF. -/
theorem find_network_newline_contract (buf : List Char) (n : Nat) :
    ((∃ k, 1 ≤ k ∧ k < n ∧ buf[k]? = some '\n' ∧ buf[k - 1]? = some '\r' ∧
        (∀ j, 1 ≤ j → j < k → ¬ (buf[j]? = some '\n' ∧ buf[j - 1]? = some '\r')) ∧
        find_network_newline buf n = ((k + 1 : Nat) : Int)) ∨
      find_network_newline buf n = -1) ∧
    (find_network_newline buf n = -1 ↔
      ¬ ∃ k, 1 ≤ k ∧ k < n ∧ buf[k]? = some '\n' ∧ buf[k - 1]? = some '\r') ∧
    (∀ r : Int, 0 ≤ r → find_network_newline buf n = r →
      2 ≤ r ∧ r ≤ (n : Int) ∧ buf[r.toNat - 2]? = some '\r' ∧ buf[r.toNat - 1]? = some '\n') := by
  rcases find_network_newline_spec buf n with ⟨i, hi, ⟨h0, h1, h2⟩, hmin, hr⟩ | ⟨hno, hr⟩
  · have hmin2 : ∀ j, 1 ≤ j → j < i → ¬ (buf[j]? = some '\n' ∧ buf[j - 1]? = some '\r') :=
      fun j hj1 hj2 hj => hmin j hj2 ⟨hj1, hj.1, hj.2⟩
    refine ⟨Or.inl ⟨i, h0, hi, h1, h2, hmin2, hr⟩, ?_, ?_⟩
    · rw [hr]
      constructor
      · intro h
        omega
      · intro h
        exact absurd ⟨i, h0, hi, h1, h2⟩ h
    · intro r _ hrr
      rw [hr] at hrr
      subst hrr
      have e1 : ((i + 1 : Nat) : Int).toNat - 2 = i - 1 := by
        rw [Int.toNat_ofNat]; omega
      have e2 : ((i + 1 : Nat) : Int).toNat - 1 = i := by
        rw [Int.toNat_ofNat]; omega
      rw [e1, e2]
      exact ⟨by omega, by omega, h2, h1⟩
  · refine ⟨Or.inr hr, ?_, ?_⟩
    · rw [hr]
      simp only [true_iff]
      rintro ⟨k, hk0, hk, hk1, hk2⟩
      exact hno k hk ⟨hk0, hk1, hk2⟩
    · intro r h0 hrr
      rw [hr] at hrr
      omega

/-! ### The largest applicable failure code -/

/-- C20. Whenever more than one of the documented failure conditions of `make_friends`
applies, the code returned is an applicable one and no applicable code is larger. -/
theorem make_friends_largest_code {M : Nat} (name1 name2 : CStr) (head : Store M)
    (c d : Nat) (hcd : c ≠ d)
    (hc : failure_applies name1 name2 head c) (hd : failure_applies name1 name2 head d) :
    failure_applies name1 name2 head (make_friends name1 name2 head).1 ∧
    ∀ e, failure_applies name1 name2 head e → e ≤ (make_friends name1 name2 head).1 := by
  have hle4 : ∀ e, failure_applies name1 name2 head e → e ≤ 4 := by
    intro e he
    match e, he with
    | 1, _ => omega
    | 2, _ => omega
    | 3, _ => omega
    | 4, _ => omega
  cases ha : find_user name1 head with
  | none =>
    have h4 : (make_friends name1 name2 head).1 = 4 := by simp [make_friends, ha]
    rw [h4]
    exact ⟨Or.inl ha, hle4⟩
  | some a =>
    cases hb : find_user name2 head with
    | none =>
      have h4 : (make_friends name1 name2 head).1 = 4 := by simp [make_friends, ha, hb]
      rw [h4]
      exact ⟨Or.inr hb, hle4⟩
    | some b =>
      have hno4 : ¬ failure_applies name1 name2 head 4 := by
        rintro (h | h)
        · rw [ha] at h; exact Option.noConfusion h
        · rw [hb] at h; exact Option.noConfusion h
      by_cases h3 : name1 = name2
      · have hab : a = b := by
          rw [h3, hb] at ha
          exact (Option.some.inj ha).symm
        have hres : (make_friends name1 name2 head).1 = 3 := by
          rw [make_friends_resolved name1 name2 head a b ha hb, if_pos hab]
        rw [hres]
        refine ⟨h3, ?_⟩
        intro e he
        match e, he with
        | 1, _ => omega
        | 2, _ => omega
        | 3, _ => omega
        | 4, h => exact absurd h hno4
      · exfalso
        have hcases : ∀ e, failure_applies name1 name2 head e → e = 1 ∨ e = 2 ∨ e = 3 ∨ e = 4 := by
          intro e he
          match e, he with
          | 1, _ => simp
          | 2, _ => simp
          | 3, _ => simp
          | 4, _ => simp
        rcases hcases c hc with rfl | rfl | rfl | rfl <;>
          rcases hcases d hd with rfl | rfl | rfl | rfl <;>
          first
            | exact hcd rfl
            | exact h3 hc
            | exact h3 hd
            | exact hno4 hc
            | exact hno4 hd
            | exact hd.1 hc
            | exact hc.1 hd

/-- Witness of C20 on the store reached by `cap_ops`, where `a` has its one friend slot
taken: for `make_friends a a` the conditions 2 and 3 both apply and the code is 3. -/
theorem make_friends_largest_code_witness :
    failure_applies ['a'] ['a'] (run 1 8 cap_ops) 2 ∧
    failure_applies ['a'] ['a'] (run 1 8 cap_ops) 3 ∧
    (make_friends ['a'] ['a'] (run 1 8 cap_ops)).1 = 3 ∧
    ∀ e, failure_applies ['a'] ['a'] (run 1 8 cap_ops) e →
      e ≤ (make_friends ['a'] ['a'] (run 1 8 cap_ops)).1 := by
  have hf : find_user ['a'] (run 1 8 cap_ops) = some 0 := by decide
  have h2 : failure_applies ['a'] ['a'] (run 1 8 cap_ops) 2 := by
    refine ⟨?_, 0, Or.inl hf, by decide⟩
    rintro ⟨x, y, hx, hy, h⟩
    rw [hf] at hx hy
    cases hx
    cases hy
    revert h
    decide
  have h3 : failure_applies ['a'] ['a'] (run 1 8 cap_ops) 3 := rfl
  exact ⟨h2, h3, by decide,
    (make_friends_largest_code ['a'] ['a'] (run 1 8 cap_ops) 2 3 (by decide) h2 h3).2⟩

/-! ### `tokenize` -/

theorem strtok_all_eq_go (l cur : List Char) :
    strtok_all l cur =
      (List.splitOnP.go (fun c => decide (c ∈ DELIM)) l cur).filter (fun t => !t.isEmpty) := by
  induction l generalizing cur with
  | nil =>
    cases cur with
    | nil => simp [strtok_all, List.splitOnP.go]
    | cons x xs => simp [strtok_all, List.splitOnP.go]
  | cons c rest ih =>
    unfold strtok_all List.splitOnP.go
    by_cases hc : c ∈ DELIM
    · cases cur with
      | nil => simp [hc, ih]
      | cons x xs => simp [hc, ih]
    · simp [hc, ih]

/-- The tokens `strtok` yields are the non-empty pieces of the line between delimiters. -/
theorem strtok_all_eq_spec (line : CStr) : strtok_all line [] = spec_tokens line :=
  strtok_all_eq_go line []

theorem tokenize_loop_eq (toks : List CStr) (argc : Nat) (argv : List CStr)
    (h : argc ≤ INPUT_ARG_MAX_NUM - 1) :
    tokenize_loop toks argc argv =
      if argc + toks.length ≤ INPUT_ARG_MAX_NUM - 1 then
        (((argc + toks.length : Nat) : Int), argv ++ toks)
      else (-1, argv ++ toks.take (INPUT_ARG_MAX_NUM - 1 - argc)) := by
  induction toks generalizing argc argv with
  | nil => simp [tokenize_loop, h]
  | cons t rest ih =>
    unfold tokenize_loop
    by_cases hfull : argc ≥ INPUT_ARG_MAX_NUM - 1
    · have e : argc = INPUT_ARG_MAX_NUM - 1 := by omega
      have h2 : ¬ argc + (t :: rest).length ≤ INPUT_ARG_MAX_NUM - 1 := by
        simp only [List.length_cons]; omega
      rw [if_pos hfull, if_neg h2, e]
      simp
    · rw [if_neg hfull, ih (argc + 1) (argv ++ [t]) (by omega)]
      have e1 : argc + 1 + rest.length = argc + (t :: rest).length := by
        simp only [List.length_cons]; omega
      rw [e1]
      by_cases hle : argc + (t :: rest).length ≤ INPUT_ARG_MAX_NUM - 1
      · rw [if_pos hle, if_pos hle]
        simp
      · rw [if_neg hle, if_neg hle]
        have e2 : INPUT_ARG_MAX_NUM - 1 - argc = (INPUT_ARG_MAX_NUM - 1 - (argc + 1)) + 1 := by
          omega
        rw [e2]
        simp

/-- C12, the claim as stated fails: a line of twelve tokens is within the claimed limit of
12, yet `tokenize` returns -1 on it. -/
theorem tokenize_twelve_rejected :
    (spec_tokens twelve_tokens).length = 12 ∧ (tokenize twelve_tokens).1 = -1 := by
  decide

/-- C12, amended. `tokenize` splits the line at delimiter characters into its non-empty
tokens in order; when the line has at most `INPUT_ARG_MAX_NUM - 1 = 11` tokens it returns
their number and stores them in order in `cmd_argv`; when it has more it returns -1, the
first 11 being stored. -/
theorem tokenize_contract (cmd : CStr) :
    INPUT_ARG_MAX_NUM - 1 = 11 ∧
    ((spec_tokens cmd).length ≤ 11 →
      tokenize cmd = ((((spec_tokens cmd).length : Nat) : Int), spec_tokens cmd)) ∧
    (11 < (spec_tokens cmd).length →
      tokenize cmd = (-1, (spec_tokens cmd).take 11)) ∧
    ((tokenize cmd).1 = -1 ↔ 11 < (spec_tokens cmd).length) := by
  have h11 : INPUT_ARG_MAX_NUM - 1 = 11 := rfl
  have hres := tokenize_loop_eq (strtok_all cmd []) 0 [] (by omega)
  rw [strtok_all_eq_spec, h11] at hres
  simp only [Nat.zero_add, List.nil_append, Nat.sub_zero] at hres
  unfold tokenize
  rw [strtok_all_eq_spec, hres]
  refine ⟨h11, ?_, ?_, ?_⟩
  · intro h
    rw [if_pos h]
  · intro h
    rw [if_neg (by omega)]
  · by_cases h : (spec_tokens cmd).length ≤ 11
    · rw [if_pos h]
      constructor
      · intro h2
        simp only at h2
        omega
      · intro h2
        omega
    · rw [if_neg h]
      simp only [true_iff]
      omega

/-! ### Rendering -/

theorem list_users_size_eq {M : Nat} (l : List (User M)) (n : Nat) :
    list_users_size l n = n + ((l.map (fun u => ['\t'] ++ u.name ++ ['\n'])).flatten).length := by
  induction l generalizing n with
  | nil => simp [list_users_size]
  | cons u rest ih =>
    simp only [list_users_size, ih, List.map_cons, List.flatten_cons, List.length_append,
      List.length_cons, List.length_nil]
    omega

theorem list_users_build_eq {M : Nat} (l : List (User M)) (s : CStr) :
    list_users_build l s = s ++ (l.map (fun u => ['\t'] ++ u.name ++ ['\n'])).flatten := by
  induction l generalizing s with
  | nil => simp [list_users_build]
  | cons u rest ih =>
    simp only [list_users_build, ih, List.map_cons, List.flatten_cons, List.append_assoc]

/-- C16. `list_users` returns the header line `User List` followed, for each user in list
order, by a tab, the name of the user and a newline, and nothing else; for the empty list it
returns the header alone. -/
theorem list_users_text {M : Nat} (curr : Store M) :
    list_users curr =
      "User List\n".toList ++ (curr.map (fun u => ['\t'] ++ u.name ++ ['\n'])).flatten ∧
    list_users ([] : Store M) = "User List\n".toList := by
  have key : ∀ l : Store M, list_users l =
      "User List\n".toList ++ (l.map (fun u => ['\t'] ++ u.name ++ ['\n'])).flatten := by
    intro l
    unfold list_users
    simp only [list_users_size_eq, list_users_build_eq, terminate_at]
    have h1 : strncpy "User List\n".toList
        ("User List\n".toList.length +
          ((l.map (fun u => ['\t'] ++ u.name ++ ['\n'])).flatten).length + 1) =
        "User List\n".toList := by
      unfold strncpy
      exact List.take_of_length_le (by omega)
    rw [h1]
    exact List.take_of_length_le (by simp only [List.length_append]; omega)
  exact ⟨key curr, by rw [key]; simp⟩

theorem friends_size_eq (l : List CStr) (n : Nat) :
    friends_size l n = n + ((l.map (fun x => x ++ ['\n'])).flatten).length := by
  induction l generalizing n with
  | nil => simp [friends_size]
  | cons x rest ih =>
    simp only [friends_size, ih, List.map_cons, List.flatten_cons, List.length_append,
      List.length_cons, List.length_nil]
    omega

theorem friends_build_eq (l : List CStr) (s : CStr) :
    friends_build l s = s ++ (l.map (fun x => x ++ ['\n'])).flatten := by
  induction l generalizing s with
  | nil => simp [friends_build]
  | cons x rest ih =>
    simp only [friends_build, ih, List.map_cons, List.flatten_cons, List.append_assoc]

theorem print_post_eq (asctime : Nat → CStr) (post : Post) :
    print_post asctime post = spec_post_text asctime post := by
  unfold print_post spec_post_text snprintf
  apply List.take_of_length_le
  have e1 : "From: ".toList.length = 6 := by decide
  have e2 : "\nDate: ".toList.length = 7 := by decide
  have e3 : "\n".toList.length = 1 := by decide
  simp only [List.length_append, e1, e2, e3]
  omega

theorem intercalate_cons_cons (sep x y : CStr) (rest : List CStr) :
    List.intercalate sep (x :: y :: rest) = x ++ sep ++ List.intercalate sep (y :: rest) := by
  simp [List.intercalate, List.intersperse]

theorem posts_build_eq (asctime : Nat → CStr) (l : List Post) (s : CStr) :
    posts_build asctime l s =
      s ++ List.intercalate post_separator (l.map (spec_post_text asctime)) := by
  induction l generalizing s with
  | nil => simp [posts_build, List.intercalate]
  | cons p rest ih =>
    cases rest with
    | nil => simp [posts_build, print_post_eq, List.intercalate]
    | cons q rest2 =>
      rw [posts_build, ih]
      simp only [List.map_cons, intercalate_cons_cons, print_post_eq, List.isEmpty_cons,
        Bool.false_eq_true, if_false, List.append_assoc]

theorem posts_size_eq (asctime : Nat → CStr) (l : List Post) (n : Nat) :
    posts_size asctime l n =
      n + (List.intercalate post_separator (l.map (spec_post_text asctime))).length := by
  induction l generalizing n with
  | nil => simp [posts_size, List.intercalate]
  | cons p rest ih =>
    cases rest with
    | nil => simp [posts_size, print_post_eq, List.intercalate]
    | cons q rest2 =>
      rw [posts_size, ih]
      simp only [List.map_cons, intercalate_cons_cons, print_post_eq, List.isEmpty_cons,
        Bool.false_eq_true, if_false, List.length_append]
      omega

/-- The names `print_user` lists are those of the friends in the slots before the first
empty one, in slot order. -/
theorem friend_names_eq {M : Nat} (head : Store M) (l : List (Option Nat)) :
    friend_names head l = ((l.takeWhile Option.isSome).reduceOption).map (user_name head) := by
  induction l with
  | nil => simp [friend_names]
  | cons x rest ih =>
    cases x with
    | none => simp [friend_names]
    | some p => simp [friend_names, ih, List.reduceOption_cons_of_some]

theorem reduceOption_of_all_isNone (l : List (Option Nat)) (h : l.all Option.isNone = true) :
    l.reduceOption = [] := by
  induction l with
  | nil => rfl
  | cons x rest ih =>
    cases x with
    | none =>
      have h2 : rest.all Option.isNone = true := by simpa using h
      simp [List.reduceOption_cons_of_none, ih h2]
    | some q => simp at h

theorem contiguous_occupied_run_all (l : List (Option Nat)) (h : contiguous l = true) :
    (l.takeWhile Option.isSome).reduceOption = l.reduceOption := by
  induction l with
  | nil => simp
  | cons x rest ih =>
    cases x with
    | none =>
      have hall : rest.all Option.isNone = true := by simpa [contiguous] using h
      have hnone : rest.reduceOption = [] := reduceOption_of_all_isNone rest hall
      simp [List.reduceOption_cons_of_none, hnone]
    | some p =>
      have h2 : contiguous rest = true := by simpa [contiguous] using h
      simp [List.reduceOption_cons_of_some, ih h2]

/-- The text `print_user` builds, with the two passes and the truncations resolved. -/
theorem print_user_eq {M : Nat} (asctime : Nat → CStr) (head : Store M) (user : User M) :
    print_user asctime head user =
      spec_profile_text asctime user.name (friend_names head user.friends.toList)
        user.first_post := by
  unfold print_user print_user_size spec_profile_text snprintf terminate_at
  simp only [friends_size_eq, friends_build_eq, posts_size_eq, posts_build_eq]
  have e1 : "Name: ".toList.length = 6 := by decide
  have e2 : "\n\n".toList.length = 2 := by decide
  have hname : ("Name: ".toList ++ user.name ++ "\n\n".toList).take
      (user.name.length + 8 + separator.length + "Friends:\n".toList.length +
        ((friend_names head user.friends.toList).map (fun x => x ++ ['\n'])).flatten.length +
        separator.length + "Posts:\n".toList.length +
        (List.intercalate post_separator
          (user.first_post.map (spec_post_text asctime))).length +
        separator.length + 1 - 1) = "Name: ".toList ++ user.name ++ "\n\n".toList := by
    apply List.take_of_length_le
    simp only [List.length_append, e1, e2]
    omega
  rw [hname]
  apply List.take_of_length_le
  simp only [List.length_append, e1, e2]
  omega

/-- The layout of the text of `print_user`, for any user record: the name line `Name: <name>`
and an empty line, the separator rule, `Friends:`, the name of each friend the loop reaches
(the slots before the first empty one), in slot order and each followed by a newline, the
separator rule, `Posts:`, the posts in list order, each as `From: <author>`, `Date:
<formatted time>`, `<contents>` with the divider between consecutive posts and none after
the last, and a final separator rule.  When the occupied slots are a contiguous run at the
front, the friends listed are those of all the occupied slots. -/
theorem print_user_layout {M : Nat} (asctime : Nat → CStr) (head : Store M) (user : User M) :
    print_user asctime head user =
      spec_profile_text asctime user.name
        (((user.friends.toList.takeWhile Option.isSome).reduceOption).map (user_name head))
        user.first_post ∧
    (contiguous user.friends.toList = true →
      print_user asctime head user =
        spec_profile_text asctime user.name
          (user.friends.toList.reduceOption.map (user_name head)) user.first_post) ∧
    (∀ (head2 : Store M) (user2 : User M), user2.name = user.name →
      ((user2.friends.toList.takeWhile Option.isSome).reduceOption).map (user_name head2) =
        ((user.friends.toList.takeWhile Option.isSome).reduceOption).map (user_name head) →
      user2.first_post = user.first_post →
      print_user asctime head2 user2 = print_user asctime head user) := by
  refine ⟨?_, ?_, ?_⟩
  · rw [print_user_eq, friend_names_eq]
  · intro hc
    rw [print_user_eq, friend_names_eq, contiguous_occupied_run_all _ hc]
  · intro head2 user2 hn hf hp
    rw [print_user_eq, print_user_eq, friend_names_eq, friend_names_eq, hn, hf, hp]

/-! ### `message_client` -/

theorem message_client_loop_ok (sock_fd : Nat) (message : CStr) (fuel line_start : Nat) :
    (message_client_loop true sock_fd message fuel line_start).1 = 0 := by
  induction fuel generalizing line_start with
  | zero => rfl
  | succ fuel ih =>
    unfold message_client_loop
    split
    · dsimp only
      split
      · simp only [if_true]
        exact ih _
      · rfl
    · rfl

/-- When every write succeeds `message_client` returns 0. -/
theorem message_client_ok (sock_fd : Nat) (message : CStr) :
    (message_client true sock_fd message).1 = 0 :=
  message_client_loop_ok sock_fd message _ 0

theorem message_client_loop_dead (sock_fd : Nat) (message : CStr) (fuel line_start : Nat) :
    (message_client_loop false sock_fd message fuel line_start).2 = [] := by
  cases fuel with
  | zero => rfl
  | succ fuel =>
    unfold message_client_loop
    split
    · dsimp only
      split
      · simp
      · rfl
    · rfl

/-- When the socket takes no write, `message_client` writes nothing. -/
theorem message_client_dead (sock_fd : Nat) (message : CStr) :
    (message_client false sock_fd message).2 = [] :=
  message_client_loop_dead sock_fd message _ 0

theorem strchrnul_lf_line (text rest : CStr) (h : '\n' ∉ text) :
    strchrnul_lf (text ++ '\n' :: rest) 0 = text.length := by
  unfold strchrnul_lf
  simp only [List.drop_zero, Nat.zero_add]
  induction text with
  | nil => simp
  | cons c t ih =>
    have hc : c ≠ '\n' := fun e => h (by simp [e])
    have ht : '\n' ∉ t := fun hm => h (by simp [hm])
    simp [hc, ih ht]

/-- A message that is one non-empty line and its newline is written as that line followed
by CR LF, in one `write`; on a socket that takes no write the result is -1. -/
theorem message_client_one_line (ok : Bool) (sock_fd : Nat) (text : CStr)
    (hne : text ≠ []) (hlf : '\n' ∉ text) :
    message_client ok sock_fd (text ++ ['\n']) =
      if ok then (0, [(sock_fd, text ++ ['\r', '\n'])]) else (-1, []) := by
  have hlen : 0 < text.length := List.length_pos.2 hne
  have hfound := strchrnul_lf_line text [] hlf
  unfold message_client
  rw [message_client_loop]
  have hcond : (text ++ ['\n']).length = 0 ∨ 0 < (text ++ ['\n']).length - 1 := by
    right; simp; exact hlen
  rw [if_pos hcond]
  dsimp only
  rw [hfound]
  have h0 : text.length ≠ 0 := by omega
  have hnot : ¬ text.length ≥ (text ++ ['\n']).length := by simp
  rw [if_pos h0, if_neg hnot]
  cases ok with
  | false => simp
  | true =>
    simp only [if_true]
    have hline : (List.drop 0 (text ++ ['\n'])).take (text.length - 0) = text := by
      simp
    rw [hline]
    have hstop : message_client_loop true sock_fd (text ++ ['\n']) (text ++ ['\n']).length
        (text.length + 1) = (0, []) := by
      have hl : (text ++ ['\n']).length = text.length + 1 := by simp
      rw [hl, message_client_loop]
      have hc2 : ¬ ((text ++ ['\n']).length = 0 ∨
          text.length + 1 < (text ++ ['\n']).length - 1) := by
        simp
      rw [if_neg hc2]
    rw [hstop]

/-- A message of at least two characters that does not start with a newline has at least
one line written when the writes succeed. -/
theorem message_client_writes (sock_fd : Nat) (c d : Char) (rest : CStr) (hc : c ≠ '\n') :
    (message_client true sock_fd (c :: d :: rest)).2 ≠ [] := by
  unfold message_client
  rw [message_client_loop]
  have hcond : (c :: d :: rest).length = 0 ∨ 0 < (c :: d :: rest).length - 1 := by
    right; simp
  rw [if_pos hcond]
  dsimp only
  have hfound : strchrnul_lf (c :: d :: rest) 0 ≠ 0 := by
    unfold strchrnul_lf
    simp [hc]
  rw [if_pos hfound]
  simp

/-! ### `message_to_users` -/

theorem message_to_users_loop_wire {M : Nat} (wr_ok : Nat → Bool) (users : Store M)
    (username message : CStr) (todo client_list : List Client) :
    (message_to_users_loop wr_ok users username message todo client_list).wire =
      spec_notify wr_ok users username todo message := by
  induction todo generalizing client_list with
  | nil => rfl
  | cons c rest ih =>
    unfold message_to_users_loop spec_notify
    by_cases hb : bound_to users username c = true
    · rw [if_pos hb]
      dsimp only
      cases hok : wr_ok c.sock_fd with
      | true =>
        have hne : ¬ (message_client true c.sock_fd message).1 = -1 := by
          rw [message_client_ok]; decide
        rw [if_neg hne]
        dsimp only
        rw [ih]
        simp [List.filter_cons, hb, hok, spec_notify]
      | false =>
        rw [message_client_dead]
        split
        · dsimp only
          rw [ih]
          simp [List.filter_cons, hb, hok, spec_notify]
        · dsimp only
          rw [ih]
          simp [List.filter_cons, hb, hok, spec_notify]
    · rw [if_neg hb, ih]
      simp [List.filter_cons, hb, spec_notify]

/-- The writes of `message_to_users`: every live session bound to the name is sent the
message, in list order. -/
theorem message_to_users_wire {M : Nat} (wr_ok : Nat → Bool) (users : Store M)
    (username message : CStr) (client_list : List Client) :
    (message_to_users wr_ok users username client_list message).wire =
      spec_notify wr_ok users username client_list message :=
  message_to_users_loop_wire wr_ok users username message client_list client_list

theorem truncated_msg_shape (MAX_NAME : Nat) :
    ∃ rest, truncated_msg MAX_NAME = 'U' :: 's' :: rest :=
  ⟨_, rfl⟩

theorem spec_handshake_name_fits (MAX_NAME : Nat) (s : CStr) (hpos : 0 < MAX_NAME) :
    (spec_handshake_name MAX_NAME s).length < MAX_NAME := by
  unfold spec_handshake_name
  split
  · rw [List.length_take]
    omega
  · omega

theorem find_user_append_new {M : Nat} (users : Store M) (x : User M)
    (h : find_user x.name users = none) :
    find_user x.name (users ++ [x]) = some users.length := by
  rw [find_user_some_iff]
  have hno := (find_user_from_none x.name users 0).1 h
  refine ⟨⟨x, by simp, rfl⟩, ?_⟩
  intro j hj v hv
  rw [List.getElem?_append_left hj] at hv
  exact hno v (List.getElem?_mem hv)

theorem handshake_ready_ok {M : Nat} (wr_ok : Nat → Bool) (client_fd : Nat)
    (client_list : List Client) (users : Store M) (user : Option Nat) (wire : Wire)
    (hok : wr_ok client_fd = true) :
    handshake_ready wr_ok client_fd client_list users user wire =
      ⟨users, set_client_user client_fd user client_list,
        wire ++ [(client_fd, "You may enter user commands now:".toList ++ ['\r', '\n'])]⟩ := by
  unfold handshake_ready
  have h := message_client_one_line true client_fd "You may enter user commands now:".toList
    (by decide) (by decide)
  have e : "You may enter user commands now:\n".toList =
      "You may enter user commands now:".toList ++ ['\n'] := by decide
  rw [hok, e, h]
  simp

/-- C13. For a session whose socket takes the writes and a first line `s`, with `n` the name
`s` cut to `MAX_NAME - 1` characters when it has `MAX_NAME` or more: the truncation notice is
sent exactly when `s` has `MAX_NAME` characters or more; if a user named `n` exists the store
is unchanged and the session is sent `Welcome Back!`, otherwise a user named `n`, without
friends or posts, is appended to the store and the session is sent `Welcome!`; in both cases
the session is then sent `You may enter user commands now:` and ends bound to the user named
`n`. -/
theorem handshake_contract {M : Nat} (wr_ok : Nat → Bool) (MAX_NAME : Nat) (s : CStr)
    (client_fd : Nat) (client_list : List Client) (users : Store M)
    (hpos : 0 < MAX_NAME) (hok : wr_ok client_fd = true) :
    ((∃ u ∈ users, u.name = spec_handshake_name MAX_NAME s) →
      (add_user_to_client wr_ok MAX_NAME s client_fd client_list users).users = users ∧
      (add_user_to_client wr_ok MAX_NAME s client_fd client_list users).wire =
        (if MAX_NAME ≤ s.length then
            (message_client true client_fd (truncated_msg MAX_NAME)).2 else []) ++
          [(client_fd, "Welcome Back!".toList ++ ['\r', '\n']),
            (client_fd, "You may enter user commands now:".toList ++ ['\r', '\n'])]) ∧
    (¬ (∃ u ∈ users, u.name = spec_handshake_name MAX_NAME s) →
      (add_user_to_client wr_ok MAX_NAME s client_fd client_list users).users =
        users ++ [{ name := spec_handshake_name MAX_NAME s, profile_pic := [],
                    first_post := [], friends := Mathlib.Vector.replicate M none }] ∧
      (add_user_to_client wr_ok MAX_NAME s client_fd client_list users).wire =
        (if MAX_NAME ≤ s.length then
            (message_client true client_fd (truncated_msg MAX_NAME)).2 else []) ++
          [(client_fd, "Welcome!".toList ++ ['\r', '\n']),
            (client_fd, "You may enter user commands now:".toList ++ ['\r', '\n'])]) ∧
    (message_client true client_fd (truncated_msg MAX_NAME)).2 ≠ [] ∧
    (∃ p, find_user (spec_handshake_name MAX_NAME s)
        (add_user_to_client wr_ok MAX_NAME s client_fd client_list users).users = some p ∧
      name_at (add_user_to_client wr_ok MAX_NAME s client_fd client_list users).users p =
        some (spec_handshake_name MAX_NAME s) ∧
      (add_user_to_client wr_ok MAX_NAME s client_fd client_list users).clients =
        set_client_user client_fd (some p) client_list) := by
  have hfit := spec_handshake_name_fits MAX_NAME s hpos
  have hwb : message_client (wr_ok client_fd) client_fd "Welcome Back!\n".toList =
      (0, [(client_fd, "Welcome Back!".toList ++ ['\r', '\n'])]) := by
    have e : "Welcome Back!\n".toList = "Welcome Back!".toList ++ ['\n'] := by decide
    rw [hok, e, message_client_one_line true client_fd "Welcome Back!".toList
      (by decide) (by decide)]
    rfl
  have hw : message_client (wr_ok client_fd) client_fd "Welcome!\n".toList =
      (0, [(client_fd, "Welcome!".toList ++ ['\r', '\n'])]) := by
    have e : "Welcome!\n".toList = "Welcome!".toList ++ ['\n'] := by decide
    rw [hok, e, message_client_one_line true client_fd "Welcome!".toList
      (by decide) (by decide)]
    rfl
  have hnotice : ∀ b : Bool,
      ¬ (if b = true then message_client (wr_ok client_fd) client_fd (truncated_msg MAX_NAME)
          else ((0 : Int), ([] : Wire))).1 = -1 := by
    intro b
    cases b with
    | true => rw [hok]; simp only [if_true]; rw [message_client_ok]; decide
    | false => simp
  have hname : (if decide (s.length ≥ MAX_NAME) = true then s.take (MAX_NAME - 1) else s) =
      spec_handshake_name MAX_NAME s := by
    unfold spec_handshake_name
    simp only [decide_eq_true_eq, ge_iff_le]
  have hwire : (if decide (s.length ≥ MAX_NAME) = true then
        message_client (wr_ok client_fd) client_fd (truncated_msg MAX_NAME)
        else ((0 : Int), ([] : Wire))).2 =
      (if MAX_NAME ≤ s.length then
        (message_client true client_fd (truncated_msg MAX_NAME)).2 else []) := by
    rw [hok]
    by_cases hl : MAX_NAME ≤ s.length
    · simp [hl]
    · simp [hl]
  obtain ⟨rest, hshape⟩ := truncated_msg_shape MAX_NAME
  have hnonempty : (message_client true client_fd (truncated_msg MAX_NAME)).2 ≠ [] := by
    rw [hshape]
    exact message_client_writes client_fd 'U' 's' rest (by decide)
  generalize hn : spec_handshake_name MAX_NAME s = n at *
  cases hf : find_user n users with
  | some p =>
    have hex : ∃ u ∈ users, u.name = n := by
      obtain ⟨⟨u, hu, hun⟩, _⟩ := (find_user_some_iff n users p).1 hf
      exact ⟨u, List.getElem?_mem hu, hun⟩
    have hres : add_user_to_client wr_ok MAX_NAME s client_fd client_list users =
        ⟨users, set_client_user client_fd (some p) client_list,
          (if MAX_NAME ≤ s.length then
            (message_client true client_fd (truncated_msg MAX_NAME)).2 else []) ++
          [(client_fd, "Welcome Back!".toList ++ ['\r', '\n'])] ++
          [(client_fd, "You may enter user commands now:".toList ++ ['\r', '\n'])]⟩ := by
      unfold add_user_to_client
      simp only [hname, hf]
      rw [if_neg (hnotice _), hwire, hwb]
      dsimp only
      rw [if_neg (by decide), handshake_ready_ok wr_ok _ _ _ _ _ hok]
    rw [hres]
    refine ⟨fun _ => ⟨rfl, by simp⟩, fun h => absurd hex h, hnonempty, p, hf, ?_, rfl⟩
    obtain ⟨⟨u, hu, hun⟩, _⟩ := (find_user_some_iff n users p).1 hf
    simp [name_at, hu, hun]
  | none =>
    have hnone := (find_user_from_none n users 0).1 hf
    have hex : ¬ ∃ u ∈ users, u.name = n := fun ⟨u, hu, hun⟩ => hnone u hu hun
    have hcreate : create_user MAX_NAME n users = (0, users ++ [new_user M MAX_NAME n]) := by
      rcases create_user_cases MAX_NAME n users with hc | hc | ⟨_, _, hc⟩
      · exfalso
        have : (create_user MAX_NAME n users).1 = 2 := by rw [hc]
        unfold create_user at this
        have hge : ¬ n.length ≥ MAX_NAME := by omega
        rw [if_neg hge] at this
        dsimp only at this
        split at this <;> [skip; split at this] <;> simp at this
      · exfalso
        have : (create_user MAX_NAME n users).1 = 1 := by rw [hc]
        unfold create_user at this
        have hge : ¬ n.length ≥ MAX_NAME := by omega
        rw [if_neg hge] at this
        dsimp only at this
        have hw0 : (create_user_walk n users 0).isSome = false := by
          rw [Bool.eq_false_iff]
          exact fun h => hex ((create_user_walk_isSome n users 0).1 h)
        rw [hw0] at this
        split at this <;> simp at this
      · exact hc
    have hnew : new_user M MAX_NAME n =
        { name := n, profile_pic := [], first_post := [],
          friends := Mathlib.Vector.replicate M none } := by
      simp [new_user, strncpy_fits n MAX_NAME hfit]
    have hfind : find_user n (users ++ [new_user M MAX_NAME n]) = some users.length := by
      have := find_user_append_new users (new_user M MAX_NAME n) (by rw [hnew]; exact hf)
      rw [hnew] at this ⊢
      exact this
    have hres : add_user_to_client wr_ok MAX_NAME s client_fd client_list users =
        ⟨users ++ [new_user M MAX_NAME n],
          set_client_user client_fd (some users.length) client_list,
          (if MAX_NAME ≤ s.length then
            (message_client true client_fd (truncated_msg MAX_NAME)).2 else []) ++
          [(client_fd, "Welcome!".toList ++ ['\r', '\n'])] ++
          [(client_fd, "You may enter user commands now:".toList ++ ['\r', '\n'])]⟩ := by
      unfold add_user_to_client
      simp only [hname, hf, hcreate]
      rw [if_neg (hnotice _), hwire, hw]
      dsimp only
      rw [if_neg (by decide), if_neg (by decide), handshake_ready_ok wr_ok _ _ _ _ _ hok, hfind]
    rw [hres]
    refine ⟨fun h => absurd h hex, fun _ => ⟨by rw [hnew], by simp⟩, hnonempty,
      users.length, hfind, ?_, rfl⟩
    simp [name_at, hnew]

/-- Witness of C13: the first line `alice` with `MAX_NAME = 4` on an empty store creates the
user `ali`, binds the session to it, and sends the notice, `Welcome!` and the ready line. -/
theorem handshake_contract_witness :
    (add_user_to_client (fun _ => true) 4 "alice".toList 7 [⟨7, [], 0, none⟩]
        ([] : Store 1)).users =
      [{ name := "ali".toList, profile_pic := [], first_post := [],
         friends := Mathlib.Vector.replicate 1 none }] ∧
    (add_user_to_client (fun _ => true) 4 "alice".toList 7 [⟨7, [], 0, none⟩]
        ([] : Store 1)).wire =
      [(7, "Username too long, truncated to 3 characters.\r\n".toList),
        (7, "Welcome!\r\n".toList),
        (7, "You may enter user commands now:\r\n".toList)] ∧
    (add_user_to_client (fun _ => true) 4 "alice".toList 7 [⟨7, [], 0, none⟩]
        ([] : Store 1)).clients = [⟨7, [], 0, some 0⟩] := by
  have h := (handshake_contract (fun _ => true) 4 "alice".toList 7 [⟨7, [], 0, none⟩]
    ([] : Store 1) (by decide) rfl).2.1 (by simp)
  exact ⟨h.1, by decide, by decide⟩

/-! ### The commands of a bound session -/

theorem name_at_eq_of_names {M : Nat} (s t : Store M)
    (h : t.map (fun x => x.name) = s.map (fun x => x.name)) (p : Nat) :
    name_at t p = name_at s p := by
  have e : ∀ l : Store M, name_at l p = (l.map (fun x => x.name))[p]? := by
    intro l
    simp [name_at]
  rw [e, e, h]

theorem bound_to_eq_of_names {M : Nat} (s t : Store M)
    (h : t.map (fun x => x.name) = s.map (fun x => x.name)) (username : CStr) :
    bound_to t username = bound_to s username := by
  funext c
  unfold bound_to
  cases c.user with
  | none => rfl
  | some u => simp only [name_at_eq_of_names s t h]

theorem spec_notify_eq_of_names {M : Nat} (wr_ok : Nat → Bool) (s t : Store M)
    (h : t.map (fun x => x.name) = s.map (fun x => x.name)) (username message : CStr)
    (client_list : List Client) :
    spec_notify wr_ok t username client_list message =
      spec_notify wr_ok s username client_list message := by
  unfold spec_notify
  rw [bound_to_eq_of_names s t h]

theorem user_name_eq_of_names {M : Nat} (s t : Store M)
    (h : t.map (fun x => x.name) = s.map (fun x => x.name)) (p : Nat) :
    user_name t p = user_name s p := by
  unfold user_name
  rw [name_at_eq_of_names s t h]

theorem snprintf_fits (text : CStr) (h : text.length < BUF_SIZE) :
    snprintf BUF_SIZE text = text := by
  unfold snprintf
  exact List.take_of_length_le (by omega)

theorem join_words_fold (w : CStr) (rest : List CStr) :
    rest.foldl (fun contents x => (contents ++ [' ']) ++ x) w =
      w ++ (rest.map (fun x => [' '] ++ x)).flatten := by
  induction rest generalizing w with
  | nil => simp
  | cons x xs ih =>
    rw [List.foldl_cons, ih]
    simp

theorem intercalate_space (w : CStr) (rest : List CStr) :
    List.intercalate [' '] (w :: rest) = w ++ (rest.map (fun x => [' '] ++ x)).flatten := by
  induction rest generalizing w with
  | nil => simp [List.intercalate]
  | cons x xs ih =>
    rw [intercalate_cons_cons, ih]
    simp

/-- The contents of a post are its words joined by single spaces. -/
theorem join_words_eq (words : List CStr) : join_words words = List.intercalate [' '] words := by
  cases words with
  | nil => simp [join_words, List.intercalate]
  | cons w rest => rw [intercalate_space, join_words, join_words_fold]

/-- A failing `make_post` returns the store it was given, and its codes are 0, 1 and 2. -/
theorem make_post_codes {M : Nat} (MAX_NAME : Nat) (author target : Option Nat)
    (contents : CStr) (now : Nat) (head : Store M) :
    ((make_post MAX_NAME author target contents now head).1 ≠ 0 →
      (make_post MAX_NAME author target contents now head).2 = head) ∧
    (make_post MAX_NAME author target contents now head).1 ∈ [0, 1, 2] ∧
    ((make_post MAX_NAME author target contents now head).1 = 0 → ∃ t, target = some t) := by
  unfold make_post
  split
  · split
    · split <;> simp
    · simp
  · simp

/-- The branch of `process_args` taken for `post <name> <words...>`. -/
theorem process_args_post {M : Nat} (wr_ok : Nat → Bool) (asctime : Nat → CStr)
    (MAX_NAME now : Nat) (name w : CStr) (ws : List CStr) (first_user : Nat)
    (users : Store M) (clients : List Client) :
    process_args wr_ok asctime MAX_NAME now ((ws.length + 3 : Nat) : Int)
        ("post".toList :: name :: w :: ws) first_user users clients =
      match (make_post MAX_NAME (some first_user) (find_user name users)
          (join_words (w :: ws)) now users).1 with
      | 0 =>
        ⟨0, [], (make_post MAX_NAME (some first_user) (find_user name users)
            (join_words (w :: ws)) now users).2,
          (message_to_users wr_ok
            (make_post MAX_NAME (some first_user) (find_user name users)
              (join_words (w :: ws)) now users).2
            (match find_user name users with
              | some t => user_name (make_post MAX_NAME (some first_user)
                  (find_user name users) (join_words (w :: ws)) now users).2 t
              | none => [])
            clients
            (snprintf BUF_SIZE ("Message from ".toList ++ user_name users first_user ++
              ": ".toList ++ join_words (w :: ws) ++ "\n".toList))).clients,
          (message_to_users wr_ok
            (make_post MAX_NAME (some first_user) (find_user name users)
              (join_words (w :: ws)) now users).2
            (match find_user name users with
              | some t => user_name (make_post MAX_NAME (some first_user)
                  (find_user name users) (join_words (w :: ws)) now users).2 t
              | none => [])
            clients
            (snprintf BUF_SIZE ("Message from ".toList ++ user_name users first_user ++
              ": ".toList ++ join_words (w :: ws) ++ "\n".toList))).wire,
          (message_to_users wr_ok
            (make_post MAX_NAME (some first_user) (find_user name users)
              (join_words (w :: ws)) now users).2
            (match find_user name users with
              | some t => user_name (make_post MAX_NAME (some first_user)
                  (find_user name users) (join_words (w :: ws)) now users).2 t
              | none => [])
            clients
            (snprintf BUF_SIZE ("Message from ".toList ++ user_name users first_user ++
              ": ".toList ++ join_words (w :: ws) ++ "\n".toList))).head_freed⟩
      | code + 1 =>
        if code + 1 ≤ 2 then
          ⟨-1, post_reason (code + 1),
            (make_post MAX_NAME (some first_user) (find_user name users)
              (join_words (w :: ws)) now users).2, clients, [], false⟩
        else ⟨0, [], (make_post MAX_NAME (some first_user) (find_user name users)
            (join_words (w :: ws)) now users).2, clients, [], false⟩ := by
  have hpos : ¬ ((ws.length + 3 : Nat) : Int) ≤ 0 := by omega
  have h1 : ¬ ((ws.length + 3 : Nat) : Int) = 1 := by omega
  have h2 : ¬ ((ws.length + 3 : Nat) : Int) = 2 := by omega
  have h3 : ((ws.length + 3 : Nat) : Int) ≥ 3 := by omega
  have htake : (("post".toList :: name :: w :: ws).take
      ((ws.length + 3 : Nat) : Int).toNat).drop 2 = w :: ws := by
    rw [Int.toNat_ofNat]
    simp
  unfold process_args
  simp only [List.getD_cons_zero, List.getD_cons_succ, htake]
  rw [if_neg hpos, if_neg (fun h => h1 h.2), if_neg (fun h => h1 h.2),
    if_neg (fun h => h2 h.2), if_pos ⟨trivial, h3⟩]
  match (make_post MAX_NAME (some first_user) (find_user name users)
      (join_words (w :: ws)) now users).1 with
  | 0 => rfl
  | 1 => rfl
  | 2 => rfl
  | n + 3 => rfl

set_option maxRecDepth 100000 in
/-- C15, the claim as stated fails: user `a` posts a word of 240 characters to its friend
`b` (the line `post b` and the word fits the receive buffer).  The post is made, but the
notification is formatted in `BUF_SIZE` bytes: the session of `b` is sent `Message from a: `
and only the first 238 characters of the word. -/
theorem process_post_long_cut :
    (make_post 8 (some 0) (find_user ['b'] (run 1 8 cap_ops)) long_word 0
      (run 1 8 cap_ops)).1 = 0 ∧
    ("post b ".toList ++ long_word).length + 2 ≤ BUF_SIZE ∧
    (process_args (fun _ => true) (fun _ => []) 8 0 3 ["post".toList, ['b'], long_word] 0
        (run 1 8 cap_ops) two_clients).wire =
      [(5, "Message from a: ".toList ++ List.replicate 238 'x' ++ ['\r', '\n'])] := by
  refine ⟨?_, ?_, ?_⟩ <;> decide

/-- A message of two characters or more without any newline, which `message_client` is not
meant to be given: the last character makes room for the newline, and what is written is
the message without its last character, followed by CR LF. -/
theorem message_client_no_newline (ok : Bool) (sock_fd : Nat) (m : CStr)
    (hlen : 2 ≤ m.length) (hlf : '\n' ∉ m) :
    message_client ok sock_fd m =
      if ok then (0, [(sock_fd, m.take (m.length - 1) ++ ['\r', '\n'])]) else (-1, []) := by
  have hfound : strchrnul_lf m 0 = m.length := by
    unfold strchrnul_lf
    simp only [List.drop_zero, Nat.zero_add]
    congr 1
    rw [List.takeWhile_eq_self_iff]
    intro c hc
    have : c ≠ '\n' := fun e => hlf (e ▸ hc)
    simpa using this
  unfold message_client
  rw [message_client_loop]
  rw [if_pos (Or.inr (by omega))]
  dsimp only
  rw [hfound, if_pos (by omega), if_pos (le_refl _)]
  cases ok with
  | false => simp
  | true =>
    simp only [if_true, List.drop_zero, Nat.sub_zero]
    have hstop : message_client_loop true sock_fd m m.length (m.length - 1 + 1) = (0, []) := by
      cases hm : m.length with
      | zero => rfl
      | succ k =>
        unfold message_client_loop
        rw [hm, if_neg (by omega)]
    rw [hstop]

/-- When a message is written to each socket as the one line `line`, a notification writes
that line to every live session bound to the name, in list order. -/
theorem spec_notify_single {M : Nat} (wr_ok : Nat → Bool) (users : Store M)
    (username message line : CStr) (clients : List Client)
    (h : ∀ sock_fd, (message_client true sock_fd message).2 = [(sock_fd, line)]) :
    spec_notify wr_ok users username clients message =
      (clients.filter (fun c => bound_to users username c && wr_ok c.sock_fd)).map
        (fun c => (c.sock_fd, line)) := by
  unfold spec_notify
  simp only [h]
  induction clients.filter (fun c => bound_to users username c && wr_ok c.sock_fd) with
  | nil => rfl
  | cons c rest ih => simp [ih]

/-- C15, amended. For a session bound to `first_user` that issues `post <name> <words...>`
with at least one word, the content of the post is the words joined by single spaces.  When
`make_post` succeeds, the text `Message from <invoker>: <content>` and a newline are
formatted in `BUF_SIZE` bytes and passed to `message_client` for every live session bound to
the target, and nothing else is written.  When the text has fewer than `BUF_SIZE - 1`
characters (and no line feed), each of these sessions is sent it whole as one line, which
contains the name of the invoker and the complete content.  When it has `BUF_SIZE - 1`
characters or more, the newline is cut by the formatting and `message_client` puts it in
place of the last character left: each session is sent the first `BUF_SIZE - 2` characters
of the text, followed by CR LF.  When `make_post` fails, nothing is written by
`process_args`, the store is unchanged, and the reply for the invoker is the reason. -/
theorem process_post {M : Nat} (wr_ok : Nat → Bool) (asctime : Nat → CStr)
    (MAX_NAME now : Nat) (name w : CStr) (ws : List CStr) (first_user : Nat)
    (users : Store M) (clients : List Client) :
    ((make_post MAX_NAME (some first_user) (find_user name users)
        (List.intercalate [' '] (w :: ws)) now users).1 = 0 →
      (process_args wr_ok asctime MAX_NAME now ((ws.length + 3 : Nat) : Int)
          ("post".toList :: name :: w :: ws) first_user users clients).code = 0 ∧
      (process_args wr_ok asctime MAX_NAME now ((ws.length + 3 : Nat) : Int)
          ("post".toList :: name :: w :: ws) first_user users clients).users =
        (make_post MAX_NAME (some first_user) (find_user name users)
          (List.intercalate [' '] (w :: ws)) now users).2 ∧
      (process_args wr_ok asctime MAX_NAME now ((ws.length + 3 : Nat) : Int)
          ("post".toList :: name :: w :: ws) first_user users clients).wire =
        spec_notify wr_ok users name clients
          (snprintf BUF_SIZE ("Message from ".toList ++ user_name users first_user ++
            ": ".toList ++ List.intercalate [' '] (w :: ws) ++ "\n".toList)) ∧
      ('\n' ∉ "Message from ".toList ++ user_name users first_user ++ ": ".toList ++
          List.intercalate [' '] (w :: ws) →
        ("Message from ".toList ++ user_name users first_user ++ ": ".toList ++
          List.intercalate [' '] (w :: ws)).length + 1 < BUF_SIZE →
        (process_args wr_ok asctime MAX_NAME now ((ws.length + 3 : Nat) : Int)
            ("post".toList :: name :: w :: ws) first_user users clients).wire =
          (clients.filter (fun c => bound_to users name c && wr_ok c.sock_fd)).map
            (fun c => (c.sock_fd, "Message from ".toList ++ user_name users first_user ++
              ": ".toList ++ List.intercalate [' '] (w :: ws) ++ ['\r', '\n']))) ∧
      ('\n' ∉ "Message from ".toList ++ user_name users first_user ++ ": ".toList ++
          List.intercalate [' '] (w :: ws) →
        BUF_SIZE ≤ ("Message from ".toList ++ user_name users first_user ++ ": ".toList ++
          List.intercalate [' '] (w :: ws)).length + 1 →
        (process_args wr_ok asctime MAX_NAME now ((ws.length + 3 : Nat) : Int)
            ("post".toList :: name :: w :: ws) first_user users clients).wire =
          (clients.filter (fun c => bound_to users name c && wr_ok c.sock_fd)).map
            (fun c => (c.sock_fd, ("Message from ".toList ++ user_name users first_user ++
              ": ".toList ++ List.intercalate [' '] (w :: ws)).take (BUF_SIZE - 2) ++
                ['\r', '\n'])))) ∧
    (("Message from ".toList ++ user_name users first_user ++ ": ".toList ++
        List.intercalate [' '] (w :: ws)).length + 1 < BUF_SIZE →
      snprintf BUF_SIZE ("Message from ".toList ++ user_name users first_user ++
          ": ".toList ++ List.intercalate [' '] (w :: ws) ++ "\n".toList) =
        "Message from ".toList ++ user_name users first_user ++ ": ".toList ++
          List.intercalate [' '] (w :: ws) ++ "\n".toList) ∧
    (∀ sock_fd, '\n' ∉ "Message from ".toList ++ user_name users first_user ++ ": ".toList ++
        List.intercalate [' '] (w :: ws) →
      (message_client true sock_fd
        ("Message from ".toList ++ user_name users first_user ++ ": ".toList ++
          List.intercalate [' '] (w :: ws) ++ "\n".toList)).2 =
        [(sock_fd, "Message from ".toList ++ user_name users first_user ++ ": ".toList ++
          List.intercalate [' '] (w :: ws) ++ ['\r', '\n'])]) ∧
    (∀ code, code ≠ 0 →
      (make_post MAX_NAME (some first_user) (find_user name users)
        (List.intercalate [' '] (w :: ws)) now users).1 = code →
      (code = 1 ∨ code = 2) ∧
      process_args wr_ok asctime MAX_NAME now ((ws.length + 3 : Nat) : Int)
          ("post".toList :: name :: w :: ws) first_user users clients =
        ⟨-1, post_reason code, users, clients, [], false⟩) := by
  rw [← join_words_eq]
  have hcodes := make_post_codes MAX_NAME (some first_user) (find_user name users)
    (join_words (w :: ws)) now users
  have hgraph := make_post_graph MAX_NAME (some first_user) (find_user name users)
    (join_words (w :: ws)) now users
  have e : "\n".toList = ['\n'] := by decide
  have hwhole : ∀ sock_fd, '\n' ∉ "Message from ".toList ++ user_name users first_user ++
      ": ".toList ++ join_words (w :: ws) →
      (message_client true sock_fd
        ("Message from ".toList ++ user_name users first_user ++ ": ".toList ++
          join_words (w :: ws) ++ "\n".toList)).2 =
        [(sock_fd, "Message from ".toList ++ user_name users first_user ++ ": ".toList ++
          join_words (w :: ws) ++ ['\r', '\n'])] := by
    intro sock_fd hlf
    rw [e, message_client_one_line true sock_fd _ (by simp) hlf]
    rfl
  have hfits : ("Message from ".toList ++ user_name users first_user ++ ": ".toList ++
      join_words (w :: ws)).length + 1 < BUF_SIZE →
      snprintf BUF_SIZE ("Message from ".toList ++ user_name users first_user ++
          ": ".toList ++ join_words (w :: ws) ++ "\n".toList) =
        "Message from ".toList ++ user_name users first_user ++ ": ".toList ++
          join_words (w :: ws) ++ "\n".toList := by
    intro hlen
    apply snprintf_fits
    rw [List.length_append]
    have e1 : "\n".toList.length = 1 := by decide
    rw [e1]
    exact hlen
  refine ⟨?_, hfits, hwhole, ?_⟩
  · intro h0
    have hwire : (process_args wr_ok asctime MAX_NAME now ((ws.length + 3 : Nat) : Int)
        ("post".toList :: name :: w :: ws) first_user users clients).wire =
        spec_notify wr_ok users name clients
          (snprintf BUF_SIZE ("Message from ".toList ++ user_name users first_user ++
            ": ".toList ++ join_words (w :: ws) ++ "\n".toList)) := by
      rw [process_args_post, h0]
      dsimp only
      obtain ⟨t, ht⟩ := hcodes.2.2 h0
      rw [message_to_users_wire, spec_notify_eq_of_names wr_ok _ _ hgraph.1]
      congr 1
      split
      · rename_i t2 ht2
        rw [user_name_eq_of_names _ _ hgraph.1]
        obtain ⟨⟨u, hu, hun⟩, _⟩ := (find_user_some_iff name users t2).1 ht2
        simp [user_name, name_at, hu, hun]
      · rename_i hnone
        rw [ht] at hnone
        exact Option.noConfusion hnone
    refine ⟨?_, ?_, hwire, ?_, ?_⟩
    · rw [process_args_post, h0]
    · rw [process_args_post, h0]
    · intro hlf hlen
      rw [hwire, hfits hlen]
      exact spec_notify_single wr_ok users name _ _ clients (fun fd => hwhole fd hlf)
    · intro hlf hlen
      rw [hwire]
      apply spec_notify_single
      intro sock_fd
      have hcut : snprintf BUF_SIZE ("Message from ".toList ++ user_name users first_user ++
          ": ".toList ++ join_words (w :: ws) ++ "\n".toList) =
          ("Message from ".toList ++ user_name users first_user ++ ": ".toList ++
            join_words (w :: ws)).take (BUF_SIZE - 1) := by
        unfold snprintf
        rw [List.take_append_of_le_length (by omega)]
      have hl : (("Message from ".toList ++ user_name users first_user ++ ": ".toList ++
          join_words (w :: ws)).take (BUF_SIZE - 1)).length = BUF_SIZE - 1 := by
        rw [List.length_take]
        omega
      rw [hcut, message_client_no_newline true sock_fd _ (by rw [hl]; decide)
        (fun hm => hlf (List.mem_of_mem_take hm)), hl]
      simp only [if_true]
      rw [List.take_take]
      rfl
  · intro code hne hcode
    have hstore := hcodes.1 (by rw [hcode]; exact hne)
    have hrange := hcodes.2.1
    rw [hcode] at hrange
    have hcases : code = 1 ∨ code = 2 := by
      simp only [List.mem_cons, List.mem_singleton, List.not_mem_nil, or_false] at hrange
      rcases hrange with h | h | h
      · exact absurd h hne
      · exact Or.inl h
      · exact Or.inr h
    refine ⟨hcases, ?_⟩
    rw [process_args_post, hstore, hcode]
    rcases hcases with h | h <;> subst h <;> rfl

set_option maxRecDepth 100000 in
/-- Witness of C15: user `a` sends `post b hello world` to its friend `b`; the session of
`b` receives one line with the name of `a` and the whole content.  When `a` posts a word of
240 characters, the session of `b` receives the first 254 characters of the text, which
hold 238 characters of the word. -/
theorem process_post_witness :
    (process_args (fun _ => true) (fun _ => []) 8 0 4
        ["post".toList, ['b'], "hello".toList, "world".toList] 0
        (run 1 8 cap_ops) two_clients).wire =
      [(5, "Message from a: hello world\r\n".toList)] ∧
    (process_args (fun _ => true) (fun _ => []) 8 0 3 ["post".toList, ['b'], long_word] 0
        (run 1 8 cap_ops) two_clients).wire =
      [(5, ("Message from a: ".toList ++ long_word).take 254 ++ ['\r', '\n'])] := by
  have h := ((process_post (fun _ => true) (fun _ => []) 8 0 ['b'] "hello".toList
    ["world".toList] 0 (run 1 8 cap_ops) two_clients).1 (by decide)).2.2.2.1
    (by decide) (by decide)
  have h2 := ((process_post (fun _ => true) (fun _ => []) 8 0 ['b'] long_word
    [] 0 (run 1 8 cap_ops) two_clients).1 (by decide)).2.2.2.2
    (by decide) (by decide)
  exact ⟨h.trans (by decide), h2.trans (by decide)⟩

/-! ### Lines that are no command (`read_from`, lines 531-559) -/

theorem serve_line_reply {M : Nat} (wr_ok : Nat → Bool) (asctime : Nat → CStr)
    (MAX_NAME now sock_fd first_user : Nat) (line text : CStr) (users : Store M)
    (clients : List Client) (code : Int) (hcode : code ≠ -2) (htext : text ≠ [])
    (hlf : '\n' ∉ text)
    (hmsg : (if (tokenize line).1 < 0 then "Too many arguments!\n".toList
      else (process_args wr_ok asctime MAX_NAME now (tokenize line).1 (tokenize line).2
        first_user users clients).return_msg) = text ++ ['\n'])
    (hdone : process_args wr_ok asctime MAX_NAME now (tokenize line).1 (tokenize line).2
      first_user users clients =
        ⟨code, (process_args wr_ok asctime MAX_NAME now (tokenize line).1 (tokenize line).2
          first_user users clients).return_msg, users, clients, [], false⟩) :
    serve_line wr_ok asctime MAX_NAME now sock_fd first_user line users clients =
      if wr_ok sock_fd = true then
        ⟨false, users, clients, [(sock_fd, text ++ ['\r', '\n'])], false⟩
      else ⟨true, users, clients, [], false⟩ := by
  have hne : text ++ ['\n'] ≠ [] := by simp
  unfold serve_line
  dsimp only
  rw [hmsg, if_pos hne, message_client_one_line (wr_ok sock_fd) sock_fd text htext hlf, hdone]
  dsimp only
  rw [if_neg hcode]
  cases wr_ok sock_fd <;> simp

/-- C18, the claim as stated fails: the session of user `a` on descriptor 4 sends a line of
twelve tokens, for which `tokenize` returns -1, and the write of the reply fails.  Nothing
is sent and `read_from` reports the session closed. -/
theorem too_many_write_fails_closed :
    (tokenize twelve_tokens).1 = -1 ∧
    (serve_line (fun _ => false) (fun _ => []) 8 0 4 0 twelve_tokens (run 1 8 cap_ops)
      two_clients).closed = true ∧
    (serve_line (fun _ => false) (fun _ => []) 8 0 4 0 twelve_tokens (run 1 8 cap_ops)
      two_clients).wire = [] := by
  decide

/-- C18, amended. For a session bound to `first_user` and a line for which `tokenize`
returns -1, `process_args` matches no command: it returns 0 with an empty reply, the store
and the sessions unchanged and nothing written.  `read_from` then replies `Too many
arguments!`: when the write of that reply succeeds it is the only line written, the store is
unchanged and the session stays active; when the write fails nothing is written, the store is
unchanged and `read_from` reports the session closed. -/
theorem serve_too_many_arguments {M : Nat} (wr_ok : Nat → Bool) (asctime : Nat → CStr)
    (MAX_NAME now sock_fd first_user : Nat) (line : CStr) (users : Store M)
    (clients : List Client) (h : (tokenize line).1 = -1) :
    process_args wr_ok asctime MAX_NAME now (tokenize line).1 (tokenize line).2 first_user
        users clients = ⟨0, [], users, clients, [], false⟩ ∧
    serve_line wr_ok asctime MAX_NAME now sock_fd first_user line users clients =
      if wr_ok sock_fd = true then
        ⟨false, users, clients,
          [(sock_fd, "Too many arguments!".toList ++ ['\r', '\n'])], false⟩
      else ⟨true, users, clients, [], false⟩ := by
  have hp : process_args wr_ok asctime MAX_NAME now (tokenize line).1 (tokenize line).2
      first_user users clients = ⟨0, [], users, clients, [], false⟩ := by
    unfold process_args
    dsimp only
    rw [if_pos (by omega)]
  refine ⟨hp, ?_⟩
  apply serve_line_reply wr_ok asctime MAX_NAME now sock_fd first_user line
    "Too many arguments!".toList users clients 0 (by decide) (by decide) (by decide)
  · rw [if_pos (by omega)]
    decide
  · rw [hp]

/-- Witness of C18: a line of twelve tokens from the session of user `a` on descriptor 4,
with every write succeeding. -/
theorem serve_too_many_arguments_witness :
    (tokenize twelve_tokens).1 = -1 ∧
    serve_line (fun _ => true) (fun _ => []) 8 0 4 0 twelve_tokens (run 1 8 cap_ops)
        two_clients =
      ⟨false, run 1 8 cap_ops, two_clients, [(4, "Too many arguments!\r\n".toList)], false⟩ :=
  ⟨by decide,
    (serve_too_many_arguments (fun _ => true) (fun _ => []) 8 0 4 0 twelve_tokens
      (run 1 8 cap_ops) two_clients (by decide)).2⟩

/-- C19, the claim as stated fails: on the empty line, which has no token, `process_args`
returns 0 and sets no reply, and `read_from` writes nothing. -/
theorem empty_line_no_reply :
    tokenize [] = (0, []) ∧ ¬ spec_command_form 0 [] ∧
    (process_args (fun _ => true) (fun _ => []) 8 0 (tokenize []).1 (tokenize []).2 0
      (run 1 8 cap_ops) two_clients).code = 0 ∧
    (process_args (fun _ => true) (fun _ => []) 8 0 (tokenize []).1 (tokenize []).2 0
      (run 1 8 cap_ops) two_clients).return_msg = [] ∧
    (serve_line (fun _ => true) (fun _ => []) 8 0 4 0 [] (run 1 8 cap_ops)
      two_clients).wire = [] := by
  decide

/-- C19, amended. For a session bound to `first_user` and a line within the token limit:
when the line has no token, `process_args` returns 0 with no reply, nothing is written, the
store is unchanged and the session stays active; when it has at least one token and is none
of the five command forms (this includes a command word with the wrong number of arguments),
`process_args` returns -1 with the reply `Incorrect syntax`, the store and the sessions
unchanged and nothing written by it, and `read_from` then writes that reply to the invoker:
when the write succeeds the session stays active, when it fails `read_from` reports the
session closed. -/
theorem incorrect_syntax_contract {M : Nat} (wr_ok : Nat → Bool) (asctime : Nat → CStr)
    (MAX_NAME now sock_fd first_user : Nat) (line : CStr) (users : Store M)
    (clients : List Client) :
    ((tokenize line).1 = 0 →
      process_args wr_ok asctime MAX_NAME now (tokenize line).1 (tokenize line).2 first_user
          users clients = ⟨0, [], users, clients, [], false⟩ ∧
      serve_line wr_ok asctime MAX_NAME now sock_fd first_user line users clients =
        ⟨false, users, clients, [], false⟩) ∧
    (0 < (tokenize line).1 → ¬ spec_command_form (tokenize line).1 (tokenize line).2 →
      process_args wr_ok asctime MAX_NAME now (tokenize line).1 (tokenize line).2 first_user
          users clients = ⟨-1, "Incorrect syntax\n".toList, users, clients, [], false⟩ ∧
      serve_line wr_ok asctime MAX_NAME now sock_fd first_user line users clients =
        if wr_ok sock_fd = true then
          ⟨false, users, clients, [(sock_fd, "Incorrect syntax".toList ++ ['\r', '\n'])],
            false⟩
        else ⟨true, users, clients, [], false⟩) := by
  constructor
  · intro h0
    have hp : process_args wr_ok asctime MAX_NAME now (tokenize line).1 (tokenize line).2
        first_user users clients = ⟨0, [], users, clients, [], false⟩ := by
      unfold process_args
      dsimp only
      rw [if_pos (by omega)]
    refine ⟨hp, ?_⟩
    unfold serve_line
    dsimp only
    rw [hp]
    simp [h0]
  · intro hpos hform
    have hhead : ∀ w : CStr, (tokenize line).2.getD 0 [] = w → w ≠ [] →
        (tokenize line).2.head? = some w := by
      intro w hw hne
      cases hl : (tokenize line).2 with
      | nil =>
        rw [hl] at hw
        exact absurd hw.symm hne
      | cons a l =>
        rw [hl] at hw
        simp at hw
        simp [hw]
    have hp : process_args wr_ok asctime MAX_NAME now (tokenize line).1 (tokenize line).2
        first_user users clients =
        ⟨-1, "Incorrect syntax\n".toList, users, clients, [], false⟩ := by
      unfold process_args
      dsimp only
      rw [if_neg (by omega),
        if_neg (fun hc => hform (Or.inl ⟨hhead _ hc.1 (by decide), hc.2⟩)),
        if_neg (fun hc => hform (Or.inr (Or.inl ⟨hhead _ hc.1 (by decide), hc.2⟩))),
        if_neg (fun hc => hform (Or.inr (Or.inr (Or.inl ⟨hhead _ hc.1 (by decide), hc.2⟩)))),
        if_neg (fun hc => hform (Or.inr (Or.inr (Or.inr (Or.inl
          ⟨hhead _ hc.1 (by decide), hc.2⟩))))),
        if_neg (fun hc => hform (Or.inr (Or.inr (Or.inr (Or.inr
          ⟨hhead _ hc.1 (by decide), hc.2⟩)))))]
    refine ⟨hp, ?_⟩
    apply serve_line_reply wr_ok asctime MAX_NAME now sock_fd first_user line
      "Incorrect syntax".toList users clients (-1) (by decide) (by decide) (by decide)
    · rw [if_neg (by omega), hp]
      rfl
    · rw [hp]

/-- Witness of C19: the lines `profile` (a command word without its argument) and
`befriend b` (no command word) from the session of user `a` on descriptor 4 get the reply
`Incorrect syntax` and leave the store and the sessions as they were. -/
theorem incorrect_syntax_contract_witness :
    serve_line (fun _ => true) (fun _ => []) 8 0 4 0 "profile".toList (run 1 8 cap_ops)
        two_clients =
      ⟨false, run 1 8 cap_ops, two_clients, [(4, "Incorrect syntax\r\n".toList)], false⟩ ∧
    serve_line (fun _ => true) (fun _ => []) 8 0 4 0 "befriend b".toList (run 1 8 cap_ops)
        two_clients =
      ⟨false, run 1 8 cap_ops, two_clients, [(4, "Incorrect syntax\r\n".toList)], false⟩ :=
  ⟨((incorrect_syntax_contract (fun _ => true) (fun _ => []) 8 0 4 0 "profile".toList
      (run 1 8 cap_ops) two_clients).2 (by decide) (by decide)).2,
   ((incorrect_syntax_contract (fun _ => true) (fun _ => []) 8 0 4 0 "befriend b".toList
      (run 1 8 cap_ops) two_clients).2 (by decide) (by decide)).2⟩

/-! ### Names in reachable stores -/

/-- C23. In every store reachable from the empty store by `create_user`, `make_friends` and
`make_post` calls, the names of the users are pairwise distinct (two positions of the list
that hold the same name are the same position) and every name has fewer than `MAX_NAME`
characters. -/
theorem reachable_names_distinct_bounded (M MAX_NAME : Nat) (ops : List Op) :
    ((run M MAX_NAME ops).map (fun u => u.name)).Nodup ∧
    (∀ (i j : Nat) (U V : User M), (run M MAX_NAME ops)[i]? = some U →
      (run M MAX_NAME ops)[j]? = some V → U.name = V.name → i = j) ∧
    (∀ u ∈ run M MAX_NAME ops, u.name.length < MAX_NAME) := by
  have hinv := Inv_run M MAX_NAME ops
  refine ⟨hinv.names_nodup, ?_, ?_⟩
  · intro i j U V hU hV hname
    have h1 := find_user_of_nodup _ i U hinv.names_nodup hU
    have h2 := find_user_of_nodup _ j V hinv.names_nodup hV
    rw [hname, h2] at h1
    exact (Option.some.inj h1).symm
  · intro u hu
    exact hinv.names_fit u.name (List.mem_map_of_mem _ hu)

/-! ### No post to oneself -/

theorem post_scan_self_false {M : Nat} (MAX_NAME : Nat) (s : Store M) (hinv : Inv MAX_NAME s)
    (U : Nat) (A : User M) (hA : s[U]? = some A) :
    post_scan s A.name A.friends.toList = false := by
  cases hscan : post_scan s A.name A.friends.toList with
  | false => rfl
  | true =>
    exfalso
    obtain ⟨p, hp, hname⟩ := (post_scan_iff s A.name A.friends.toList).1 hscan
    have hslots : slots s U = A.friends.toList := by simp [slots, hA]
    have hmem : some p ∈ slots s U := by
      rw [hslots]
      exact (List.takeWhile_sublist _).subset hp
    unfold name_at at hname
    cases hP : s[p]? with
    | none => rw [hP] at hname; simp at hname
    | some P =>
      rw [hP] at hname
      simp only [Option.map_some', Option.some.injEq] at hname
      have h1 := find_user_of_nodup s p P hinv.names_nodup hP
      have h2 := find_user_of_nodup s U A hinv.names_nodup hA
      rw [hname, h2] at h1
      have hpu : U = p := Option.some.inj h1
      subst hpu
      exact hinv.noself U hmem

/-- C27. In every store reachable from the empty store by `create_user`, `make_friends` and
`make_post` calls, `make_post(U, U, contents)` returns 1 for every user `U` of the store and
leaves the store as it was: no post is added. -/
theorem no_post_to_self (M MAX_NAME : Nat) (ops : List Op) (U : Nat) (contents : CStr)
    (now : Nat) (hU : U < (run M MAX_NAME ops).length) :
    make_post MAX_NAME (some U) (some U) contents now (run M MAX_NAME ops) =
      (1, run M MAX_NAME ops) := by
  have hA : (run M MAX_NAME ops)[U]? = some ((run M MAX_NAME ops)[U]) :=
    List.getElem?_eq_getElem hU
  rw [make_post_resolved MAX_NAME U U _ _ contents now _ hA hA,
    post_scan_self_false MAX_NAME _ (Inv_run M MAX_NAME ops) U _ hA]
  rfl

/-- Witness of C27: after `a`, `b` and `c` are created and `a` and `b` made friends, user `a`
cannot post to itself. -/
theorem no_post_to_self_witness :
    make_post 8 (some 0) (some 0) "hi".toList 0 (run 1 8 cap_ops) = (1, run 1 8 cap_ops) :=
  no_post_to_self 1 8 cap_ops 0 "hi".toList 0 (by decide)

/-! ### Contiguous friend arrays -/

theorem contiguous_no_gap (l : List (Option Nat)) (h : contiguous l = true) (i j p : Nat)
    (hij : i < j) (hi : l[i]? = some none) : l[j]? ≠ some (some p) := by
  induction l generalizing i j with
  | nil => simp
  | cons x rest ih =>
    cases x with
    | none =>
      intro hj
      have hall : rest.all Option.isNone = true := h
      rw [List.all_eq_true] at hall
      obtain ⟨k, rfl⟩ : ∃ k, j = k + 1 := ⟨j - 1, by omega⟩
      simp only [List.getElem?_cons_succ] at hj
      have := hall _ (List.getElem?_mem hj)
      simp at this
    | some q =>
      have hc : contiguous rest = true := h
      cases i with
      | zero => simp at hi
      | succ i =>
        obtain ⟨k, rfl⟩ : ∃ k, j = k + 1 := ⟨j - 1, by omega⟩
        simp only [List.getElem?_cons_succ] at hi ⊢
        exact ih hc i k (by omega) hi

/-- C28. In every store reachable from the empty store by `create_user`, `make_friends` and
`make_post` calls, the occupied slots of every friend array form a contiguous prefix: no
empty slot precedes an occupied one.  So the scans that stop at the first empty slot see
every friend: the first loop of `make_friends` reports `b` exactly when `b` is in a slot of
`a`, the loop of `make_post` finds an author name exactly when a friend in some slot has that
name, and `print_user` lists the names of the friends in all the occupied slots. -/
theorem reachable_contiguous_scans (M MAX_NAME : Nat) (ops : List Op) (a : Nat) :
    contiguous (slots (run M MAX_NAME ops) a) = true ∧
    (∀ i j p : Nat, i < j → (slots (run M MAX_NAME ops) a)[i]? = some none →
      (slots (run M MAX_NAME ops) a)[j]? ≠ some (some p)) ∧
    (∀ b : Nat, scan_user1 b (slots (run M MAX_NAME ops) a) 0 = none ↔
      some b ∈ slots (run M MAX_NAME ops) a) ∧
    (∀ n : CStr, post_scan (run M MAX_NAME ops) n (slots (run M MAX_NAME ops) a) = true ↔
      ∃ p, some p ∈ slots (run M MAX_NAME ops) a ∧ name_at (run M MAX_NAME ops) p = some n) ∧
    friend_names (run M MAX_NAME ops) (slots (run M MAX_NAME ops) a) =
      (slots (run M MAX_NAME ops) a).reduceOption.map (user_name (run M MAX_NAME ops)) := by
  have hc := (Inv_run M MAX_NAME ops).contig a
  refine ⟨hc, fun i j p hij hi => contiguous_no_gap _ hc i j p hij hi, ?_, ?_, ?_⟩
  · intro b
    rw [scan_user1_none, contiguous_mem_occupied_run _ hc]
  · intro n
    rw [post_scan_iff]
    constructor
    · rintro ⟨p, hp, hn⟩
      exact ⟨p, (contiguous_mem_occupied_run _ hc p).1 hp, hn⟩
    · rintro ⟨p, hp, hn⟩
      exact ⟨p, (contiguous_mem_occupied_run _ hc p).2 hp, hn⟩
  · rw [friend_names_eq, contiguous_occupied_run_all _ hc]

/-! ### The creation of the user in `add_user_to_client` -/

theorem handshake_ready_users {M : Nat} (wr_ok : Nat → Bool) (client_fd : Nat)
    (client_list : List Client) (users : Store M) (user : Option Nat) (wire : Wire) :
    (handshake_ready wr_ok client_fd client_list users user wire).users = users := by
  unfold handshake_ready
  dsimp only
  split <;> rfl

theorem create_user_fresh {M : Nat} (MAX_NAME : Nat) (n : CStr) (users : Store M)
    (hfit : n.length < MAX_NAME) (hf : find_user n users = none) :
    create_user MAX_NAME n users = (0, users ++ [new_user M MAX_NAME n]) := by
  have hnone := (find_user_from_none n users 0).1 hf
  have hw0 : (create_user_walk n users 0).isSome = false := by
    rw [Bool.eq_false_iff]
    intro h
    obtain ⟨u, hu, hun⟩ := (create_user_walk_isSome n users 0).1 h
    exact hnone u hu hun
  unfold create_user
  rw [if_neg (by omega)]
  dsimp only
  rw [hw0]
  cases users with
  | nil => rfl
  | cons u rest => simp


/-- C24. In `add_user_to_client` with a positive `MAX_NAME`, let `n` be the received
username as the function cuts it (to `MAX_NAME - 1` characters when it has `MAX_NAME` or
more).  Whenever `find_user` reports `n` as not found, the `create_user` call that follows
returns 0, appending a user named `n`, and the `find_user` after it returns a user whose name
is exactly `n`; so the branch taken when `create_user` fails is never entered, and, unless
the truncation notice could not be written, the function leaves the user list with that new
user appended. -/
theorem create_after_not_found {M : Nat} (wr_ok : Nat → Bool) (MAX_NAME : Nat)
    (username : CStr) (client_fd : Nat) (client_list : List Client) (user_list : Store M)
    (hpos : 0 < MAX_NAME)
    (hnf : find_user (if MAX_NAME ≤ username.length then username.take (MAX_NAME - 1)
      else username) user_list = none) :
    (create_user MAX_NAME (if MAX_NAME ≤ username.length then username.take (MAX_NAME - 1)
        else username) user_list).1 = 0 ∧
    (create_user MAX_NAME (if MAX_NAME ≤ username.length then username.take (MAX_NAME - 1)
        else username) user_list).2 =
      user_list ++ [new_user M MAX_NAME (if MAX_NAME ≤ username.length then
        username.take (MAX_NAME - 1) else username)] ∧
    (∃ p U, find_user (if MAX_NAME ≤ username.length then username.take (MAX_NAME - 1)
          else username)
        (create_user MAX_NAME (if MAX_NAME ≤ username.length then
          username.take (MAX_NAME - 1) else username) user_list).2 = some p ∧
      (create_user MAX_NAME (if MAX_NAME ≤ username.length then username.take (MAX_NAME - 1)
        else username) user_list).2[p]? = some U ∧
      U.name = (if MAX_NAME ≤ username.length then username.take (MAX_NAME - 1)
        else username)) ∧
    ((MAX_NAME ≤ username.length → wr_ok client_fd = true) →
      (add_user_to_client wr_ok MAX_NAME username client_fd client_list user_list).users =
        user_list ++ [new_user M MAX_NAME (if MAX_NAME ≤ username.length then
          username.take (MAX_NAME - 1) else username)]) := by
  have hname : (if MAX_NAME ≤ username.length then username.take (MAX_NAME - 1)
      else username) = spec_handshake_name MAX_NAME username := rfl
  have hfit := spec_handshake_name_fits MAX_NAME username hpos
  rw [hname] at hnf ⊢
  have hcreate := create_user_fresh MAX_NAME _ user_list hfit hnf
  have hnew : (new_user M MAX_NAME (spec_handshake_name MAX_NAME username)).name =
      spec_handshake_name MAX_NAME username := by
    simp [new_user, strncpy_fits _ MAX_NAME hfit]
  have hfind : find_user (spec_handshake_name MAX_NAME username)
      (user_list ++ [new_user M MAX_NAME (spec_handshake_name MAX_NAME username)]) =
      some user_list.length := by
    have := find_user_append_new user_list
      (new_user M MAX_NAME (spec_handshake_name MAX_NAME username)) (by rw [hnew]; exact hnf)
    rw [hnew] at this
    exact this
  rw [hcreate]
  refine ⟨rfl, rfl, ⟨user_list.length, _, hfind, by simp, hnew⟩, ?_⟩
  intro hw
  have hnotice : (if decide (username.length ≥ MAX_NAME) = true then
      message_client (wr_ok client_fd) client_fd (truncated_msg MAX_NAME)
      else ((0 : Int), ([] : Wire))).1 ≠ -1 := by
    split
    · rename_i hl
      rw [hw (by simpa using hl), message_client_ok]
      decide
    · decide
  unfold add_user_to_client
  have hname2 : (if decide (username.length ≥ MAX_NAME) = true then
      username.take (MAX_NAME - 1) else username) =
      spec_handshake_name MAX_NAME username := by
    unfold spec_handshake_name
    simp
  simp only [hname2, hnf, hcreate]
  rw [if_neg hnotice]
  rw [if_neg (by decide)]
  split
  · rfl
  · exact handshake_ready_users _ _ _ _ _ _

/-- Witness of C24: the username `alice` with `MAX_NAME = 4` is cut to `ali`, which the empty
store does not hold; `create_user` returns 0 and `find_user` then finds the user `ali`. -/
theorem create_after_not_found_witness :
    (create_user 4 "ali".toList ([] : Store 1)).1 = 0 ∧
    find_user "ali".toList (create_user 4 "ali".toList ([] : Store 1)).2 = some 0 :=
  ⟨(create_after_not_found (fun _ => true) 4 "alice".toList 7 [⟨7, [], 0, none⟩]
      ([] : Store 1) (by decide) (by decide)).1, by decide⟩

/-! ### Users and posts are only ever added -/

theorem keeps_refl {M : Nat} (s : Store M) : keeps_users_and_posts s s :=
  ⟨le_refl _, fun _ u hu => ⟨u, hu, rfl, List.suffix_refl _⟩⟩

theorem keeps_trans {M : Nat} (s t r : Store M) (h1 : keeps_users_and_posts s t)
    (h2 : keeps_users_and_posts t r) : keeps_users_and_posts s r := by
  refine ⟨le_trans h1.1 h2.1, ?_⟩
  intro i u hu
  obtain ⟨v, hv, hvn, hvp⟩ := h1.2 i u hu
  obtain ⟨w, hw, hwn, hwp⟩ := h2.2 i v hv
  exact ⟨w, hw, hwn.trans hvn, hvp.trans hwp⟩

theorem keeps_append {M : Nat} (s : Store M) (x : User M) :
    keeps_users_and_posts s (s ++ [x]) := by
  refine ⟨by simp, ?_⟩
  intro i u hu
  have hi : i < s.length := by
    by_contra hn
    rw [List.getElem?_eq_none (by omega)] at hu
    exact Option.noConfusion hu
  exact ⟨u, by rw [List.getElem?_append_left hi]; exact hu, rfl, List.suffix_refl _⟩

theorem keeps_set {M : Nat} (s : Store M) (t : Nat) (tu new : User M) (ht : s[t]? = some tu)
    (hname : new.name = tu.name) (hposts : tu.first_post <:+ new.first_post) :
    keeps_users_and_posts s (s.set t new) := by
  refine ⟨by simp, ?_⟩
  intro i u hu
  by_cases hit : t = i
  · subst hit
    rw [ht] at hu
    cases hu
    have hlt : t < s.length := by
      by_contra hn
      rw [List.getElem?_eq_none (by omega)] at ht
      exact Option.noConfusion ht
    exact ⟨new, by simp [hlt], hname, hposts⟩
  · exact ⟨u, by rw [List.getElem?_set_ne hit]; exact hu, rfl, List.suffix_refl _⟩

theorem keeps_set_friend {M : Nat} (s : Store M) (u i p : Nat) :
    keeps_users_and_posts s (set_friend s u i p) := by
  unfold set_friend
  split
  · rename_i usr hu
    exact keeps_set s u usr _ hu rfl (List.suffix_refl _)
  · exact keeps_refl s

/-- C22. For every store and every call of `create_user`, `make_friends` or `make_post`,
whatever it returns: the user list after the call is at least as long as before, every user
of the list before is at the same place after the call with the same name, and the post list
it had before is a suffix of the post list it has after (the old posts, with their author
and contents, in their old order).  No user and no post is removed or rewritten. -/
theorem store_append_only {M : Nat} (MAX_NAME : Nat) (s : Store M) :
    (∀ name : CStr, keeps_users_and_posts s (create_user MAX_NAME name s).2) ∧
    (∀ name1 name2 : CStr, keeps_users_and_posts s (make_friends name1 name2 s).2) ∧
    (∀ (author target : Option Nat) (contents : CStr) (now : Nat),
      keeps_users_and_posts s (make_post MAX_NAME author target contents now s).2) := by
  refine ⟨?_, ?_, ?_⟩
  · intro name
    rcases create_user_cases MAX_NAME name s with hc | hc | ⟨_, _, hc⟩
    · rw [hc]
      exact keeps_refl s
    · rw [hc]
      exact keeps_refl s
    · rw [hc]
      exact keeps_append s _
  · intro name1 name2
    rcases make_friends_cases name1 name2 s with ⟨_, hs⟩ | ⟨a, b, _, _, _, _, _, _, hs⟩
    · rw [hs]
      exact keeps_refl s
    · rw [hs]
      exact keeps_trans _ _ _ (keeps_set_friend s a _ b) (keeps_set_friend _ b _ a)
  · intro author target contents now
    cases author with
    | none => exact keeps_refl s
    | some a =>
      cases target with
      | none => exact keeps_refl s
      | some t =>
        cases hA : s[a]? with
        | none =>
          have h : make_post MAX_NAME (some a) (some t) contents now s = (2, s) := by
            simp [make_post, hA]
          rw [h]
          exact keeps_refl s
        | some au =>
          cases hT : s[t]? with
          | none =>
            have h : make_post MAX_NAME (some a) (some t) contents now s = (2, s) := by
              simp [make_post, hA, hT]
            rw [h]
            exact keeps_refl s
          | some tu =>
            rw [make_post_resolved MAX_NAME a t au tu contents now s hA hT]
            split
            · exact keeps_set s t tu _ hT rfl (List.suffix_cons _ _)
            · exact keeps_refl s

/-! ### The counting passes of the rendering functions -/

/-- C25. For every user list, post and user, the size computed by the counting pass of
`list_users`, of `print_post` and of `print_user` is the length of the text the second pass
builds plus one for the terminator: the text and its terminator fill the allocation
exactly, and the returned string is the whole text, nothing being cut. -/
theorem counting_pass_exact {M : Nat} (asctime : Nat → CStr) (head curr : Store M)
    (post : Post) (user : User M) :
    (list_users_size curr "User List\n".toList.length + 1 =
        (list_users_build curr (strncpy "User List\n".toList
          (list_users_size curr "User List\n".toList.length + 1))).length + 1 ∧
      list_users curr = list_users_build curr (strncpy "User List\n".toList
          (list_users_size curr "User List\n".toList.length + 1))) ∧
    (print_post_size asctime post = (print_post_format asctime post).length + 1 ∧
      print_post asctime post =
        snprintf (print_post_size asctime post) (print_post_format asctime post) ∧
      print_post asctime post = print_post_format asctime post) ∧
    (print_user_size asctime head user =
        (print_user_build asctime head user (print_user_size asctime head user)).length + 1 ∧
      print_user asctime head user =
        terminate_at (print_user_build asctime head user (print_user_size asctime head user))
          (print_user_size asctime head user - 1) ∧
      print_user asctime head user =
        print_user_build asctime head user (print_user_size asctime head user)) := by
  have e0 : "User List\n".toList.length = 10 := by decide
  have e1 : "Name: ".toList.length = 6 := by decide
  have e2 : "\n\n".toList.length = 2 := by decide
  have e3 : "From: ".toList.length = 6 := by decide
  have e4 : "\nDate: ".toList.length = 7 := by decide
  have e5 : "\n".toList.length = 1 := by decide
  refine ⟨?_, ?_, ?_⟩
  · have hcopy : strncpy "User List\n".toList
        (list_users_size curr "User List\n".toList.length + 1) = "User List\n".toList := by
      unfold strncpy
      apply List.take_of_length_le
      rw [list_users_size_eq]
      omega
    have hsize : list_users_size curr "User List\n".toList.length + 1 =
        (list_users_build curr "User List\n".toList).length + 1 := by
      rw [list_users_size_eq, list_users_build_eq, List.length_append]
    rw [hcopy]
    refine ⟨hsize, ?_⟩
    unfold list_users
    dsimp only
    rw [hcopy]
    unfold terminate_at
    exact List.take_of_length_le (by omega)
  · have hsize : print_post_size asctime post = (print_post_format asctime post).length + 1 := by
      unfold print_post_size print_post_format
      simp only [List.length_append, e3, e4, e5]
      omega
    have hcut : print_post asctime post =
        snprintf (print_post_size asctime post) (print_post_format asctime post) := by
      unfold print_post print_post_size print_post_format
      dsimp only
      rw [Nat.zero_add]
    refine ⟨hsize, hcut, ?_⟩
    rw [hcut]
    unfold snprintf
    exact List.take_of_length_le (by omega)
  · have hname : snprintf (print_user_size asctime head user)
        ("Name: ".toList ++ user.name ++ "\n\n".toList) =
        "Name: ".toList ++ user.name ++ "\n\n".toList := by
      unfold snprintf
      apply List.take_of_length_le
      unfold print_user_size
      simp only [friends_size_eq, posts_size_eq, List.length_append, e1, e2]
      omega
    have hsize : print_user_size asctime head user =
        (print_user_build asctime head user (print_user_size asctime head user)).length + 1 := by
      unfold print_user_build
      dsimp only
      rw [hname]
      unfold print_user_size
      simp only [friends_size_eq, friends_build_eq, posts_size_eq, posts_build_eq,
        List.length_append, e1, e2]
      omega
    have hterm : print_user asctime head user =
        terminate_at (print_user_build asctime head user (print_user_size asctime head user))
          (print_user_size asctime head user - 1) := rfl
    refine ⟨hsize, hterm, ?_⟩
    rw [hterm]
    unfold terminate_at
    exact List.take_of_length_le (by omega)

/-! ### The bounds of `in_buf` in `read_from` -/

theorem strchrnul_lf_at (pre text rest : CStr) (h : '\n' ∉ text) :
    strchrnul_lf (pre ++ (text ++ '\n' :: rest)) pre.length = pre.length + text.length := by
  unfold strchrnul_lf
  rw [List.drop_left]
  congr 1
  induction text with
  | nil => simp
  | cons c t ih =>
    have hc : c ≠ '\n' := fun e => h (by simp [e])
    have ht : '\n' ∉ t := fun hm => h (by simp [hm])
    simp [hc, ih ht]

theorem lines_text_length_pos (lines : List CStr) (h : lines ≠ []) :
    0 < ((lines.map (fun l => l ++ ['\n'])).flatten).length := by
  cases lines with
  | nil => exact absurd rfl h
  | cons l rest => simp

theorem lines_length_le (lines : List CStr) :
    lines.length ≤ ((lines.map (fun l => l ++ ['\n'])).flatten).length := by
  induction lines with
  | nil => simp
  | cons l rest ih =>
    simp only [List.map_cons, List.flatten_cons, List.length_append, List.length_cons,
      List.length_nil]
    omega

theorem message_client_loop_lines (sock_fd : Nat) (lines : List CStr) (pre : CStr)
    (fuel : Nat) (hlf : ∀ l ∈ lines, '\n' ∉ l) (hfuel : lines.length ≤ fuel)
    (hstart : pre ≠ [] ∨ lines.head? ≠ some []) :
    message_client_loop true sock_fd (pre ++ (lines.map (fun l => l ++ ['\n'])).flatten)
        fuel pre.length =
      (0, (if lines.getLast? = some [] then lines.dropLast else lines).map
        (fun l => (sock_fd, l ++ ['\r', '\n']))) := by
  induction lines generalizing pre fuel with
  | nil =>
    cases fuel with
    | zero => rfl
    | succ fuel =>
      unfold message_client_loop
      simp only [List.map_nil, List.flatten_nil, List.append_nil]
      by_cases hp : pre = []
      · subst hp
        simp [strchrnul_lf]
      · have hlen : 0 < pre.length := List.length_pos.2 hp
        rw [if_neg (by omega)]
        simp
  | cons l rest ih =>
    obtain ⟨fuel, rfl⟩ : ∃ k, fuel = k + 1 := ⟨fuel - 1, by simp at hfuel; omega⟩
    have hl : '\n' ∉ l := hlf l (by simp)
    have hrest : ∀ x ∈ rest, '\n' ∉ x := fun x hx => hlf x (by simp [hx])
    have hmsg : pre ++ ((l :: rest).map (fun l => l ++ ['\n'])).flatten =
        pre ++ (l ++ '\n' :: (rest.map (fun l => l ++ ['\n'])).flatten) := by simp
    have hmsg2 : pre ++ ((l :: rest).map (fun l => l ++ ['\n'])).flatten =
        (pre ++ l ++ ['\n']) ++ (rest.map (fun l => l ++ ['\n'])).flatten := by simp
    have hlen : (pre ++ ((l :: rest).map (fun l => l ++ ['\n'])).flatten).length =
        pre.length + l.length + 1 + ((rest.map (fun l => l ++ ['\n'])).flatten).length := by
      rw [hmsg]
      simp only [List.length_append, List.length_cons]
      omega
    have hfound := strchrnul_lf_at pre l ((rest.map (fun l => l ++ ['\n'])).flatten) hl
    rw [← hmsg] at hfound
    unfold message_client_loop
    by_cases hend : l = [] ∧ rest = []
    · obtain ⟨rfl, rfl⟩ := hend
      have hp : pre ≠ [] := by
        rcases hstart with h | h
        · exact h
        · simp at h
      have hpl : 0 < pre.length := List.length_pos.2 hp
      rw [if_neg (by simp)]
      simp
    · have hpos : 0 < l.length + ((rest.map (fun l => l ++ ['\n'])).flatten).length := by
        by_cases hl0 : l = []
        · have hr : rest ≠ [] := fun hr => hend ⟨hl0, hr⟩
          have := lines_text_length_pos rest hr
          omega
        · have := List.length_pos.2 hl0
          omega
      rw [if_pos (Or.inr (by rw [hlen]; omega))]
      dsimp only
      rw [hfound]
      have hne0 : pre.length + l.length ≠ 0 := by
        rcases hstart with h | h
        · have := List.length_pos.2 h
          omega
        · have hl0 : l ≠ [] := fun e => h (by simp [e])
          have := List.length_pos.2 hl0
          omega
      have hlt : ¬ pre.length + l.length ≥
          (pre ++ ((l :: rest).map (fun l => l ++ ['\n'])).flatten).length := by
        rw [hlen]
        omega
      rw [if_pos hne0, if_neg hlt]
      simp only [if_true]
      have hline : ((pre ++ ((l :: rest).map (fun l => l ++ ['\n'])).flatten).drop
          pre.length).take (pre.length + l.length - pre.length) = l := by
        rw [hmsg, List.drop_left, Nat.add_sub_cancel_left, List.take_left]
      rw [hline]
      have hnext : pre.length + l.length + 1 = (pre ++ l ++ ['\n']).length := by
        simp only [List.length_append, List.length_cons, List.length_nil]
      rw [hnext, hmsg2, ih (pre ++ l ++ ['\n']) fuel hrest (by simp at hfuel; omega)
        (Or.inl (by simp))]
      congr 1
      cases rest with
      | nil =>
        have hl0 : l ≠ [] := fun e => hend ⟨e, rfl⟩
        simp [hl0]
      | cons r rest2 =>
        simp only [List.getLast?_cons_cons]
        split <;> simp [List.dropLast]

/-- The writes of `message_client` on a message made of lines, each ended by a newline, when
every write succeeds: nothing when the first line is empty; all the lines but the last when
the last line is empty; otherwise every line, in order, each followed by CR LF. -/
theorem message_client_lines (sock_fd : Nat) (lines : List CStr)
    (hlf : ∀ l ∈ lines, '\n' ∉ l) :
    message_client true sock_fd ((lines.map (fun l => l ++ ['\n'])).flatten) =
      (0, (if lines.head? = some [] then []
        else if lines.getLast? = some [] then lines.dropLast else lines).map
          (fun l => (sock_fd, l ++ ['\r', '\n']))) := by
  by_cases hhead : lines.head? = some []
  · rw [if_pos hhead]
    cases lines with
    | nil => simp at hhead
    | cons l rest =>
      simp only [List.head?_cons, Option.some.injEq] at hhead
      subst hhead
      unfold message_client
      unfold message_client_loop
      simp [strchrnul_lf]
  · rw [if_neg hhead]
    have h := message_client_loop_lines sock_fd lines []
      (((lines.map (fun l => l ++ ['\n'])).flatten).length + 1) hlf
      (by have := lines_length_le lines; omega)
      (Or.inr hhead)
    simpa [message_client] using h

theorem spec_crlf_text_append (a b : CStr) :
    spec_crlf_text (a ++ b) = spec_crlf_text a ++ spec_crlf_text b := by
  induction a with
  | nil => rfl
  | cons c rest ih =>
    rw [List.cons_append]
    by_cases hc : c = '\n'
    · simp only [spec_crlf_text, if_pos hc, ih, List.cons_append]
    · simp only [spec_crlf_text, if_neg hc, ih, List.cons_append]

theorem spec_crlf_text_line (l : CStr) (h : '\n' ∉ l) : spec_crlf_text l = l := by
  induction l with
  | nil => rfl
  | cons c rest ih =>
    have hc : c ≠ '\n' := fun e => h (by simp [e])
    have hr : '\n' ∉ rest := fun hm => h (by simp [hm])
    simp only [spec_crlf_text, if_neg hc, ih hr]

theorem spec_crlf_text_lines (lines : List CStr) (hlf : ∀ l ∈ lines, '\n' ∉ l) :
    spec_crlf_text ((lines.map (fun l => l ++ ['\n'])).flatten) =
      (lines.map (fun l => l ++ ['\r', '\n'])).flatten := by
  induction lines with
  | nil => rfl
  | cons l rest ih =>
    have hl : '\n' ∉ l := hlf l (by simp)
    have hr : ∀ x ∈ rest, '\n' ∉ x := fun x hx => hlf x (by simp [hx])
    simp only [List.map_cons, List.flatten_cons, spec_crlf_text_append,
      spec_crlf_text_line l hl, ih hr]
    rfl

/-- On a message made of lines, each ended by a newline, whose first and last lines are not
empty, when every write succeeds: `message_client` writes the lines in order, one write per
line, each followed by CR LF, the bytes written are the message with every LF replaced by
CR LF, and it returns 0. -/
theorem message_client_whole (sock_fd : Nat) (lines : List CStr)
    (hlf : ∀ l ∈ lines, '\n' ∉ l) (hfirst : lines.head? ≠ some [])
    (hlast : lines.getLast? ≠ some []) :
    message_client true sock_fd ((lines.map (fun l => l ++ ['\n'])).flatten) =
      (0, lines.map (fun l => (sock_fd, l ++ ['\r', '\n']))) ∧
    wire_bytes (message_client true sock_fd ((lines.map (fun l => l ++ ['\n'])).flatten)).2 =
      spec_crlf_text ((lines.map (fun l => l ++ ['\n'])).flatten) := by
  have h := message_client_lines sock_fd lines hlf
  rw [if_neg hfirst, if_neg hlast] at h
  refine ⟨h, ?_⟩
  rw [h, spec_crlf_text_lines lines hlf]
  simp [wire_bytes, Function.comp_def]

/-- C21, the code at failing inputs, every write succeeding.  The message `a`, LF, LF is
terminated by a newline and has the two lines `a` and the empty line: `message_client`
writes `a` CR LF only, so the bytes written are not the message with every LF replaced by
CR LF.  A message that starts with a newline is not written at all.  Such a message reaches
`message_client` from the server itself: when the only user is named `x` LF, the reply to
`list_users` ends in two newlines, and the session is sent the header and the name line but
not the empty line that ends the reply. -/
theorem message_client_drops_empty_line :
    (message_client true 4 ['a', '\n', '\n'] = (0, [(4, ['a', '\r', '\n'])]) ∧
      spec_crlf_text ['a', '\n', '\n'] = ['a', '\r', '\n', '\r', '\n'] ∧
      wire_bytes (message_client true 4 ['a', '\n', '\n']).2 ≠
        spec_crlf_text ['a', '\n', '\n']) ∧
    message_client true 4 ['\n', 'b', '\n'] = (0, []) ∧
    (lf_name_store.map (fun u => u.name) = [['x', '\n']] ∧
      list_users lf_name_store = "User List\n\tx\n\n".toList ∧
      (serve_line (fun _ => true) (fun _ => []) 8 0 4 0 "list_users".toList lf_name_store
        [⟨4, [], 0, some 0⟩]).wire =
        [(4, "User List\r\n".toList), (4, "\tx\r\n".toList)]) := by
  decide

/-! ### The store operations on reachable stores -/

theorem reachable_run_all (M MAX_NAME : Nat) (ops : List Op) (a b : Nat) :
    some b ∈ (slots (run M MAX_NAME ops) a).takeWhile Option.isSome ↔
      some b ∈ slots (run M MAX_NAME ops) a :=
  contiguous_mem_occupied_run _ ((Inv_run M MAX_NAME ops).contig a) b

/-- In a store with distinct names and valid friend pointers, a friend array holds a user of
a given name exactly when it holds the user who has that name. -/
theorem friend_by_name_iff {M : Nat} (MAX_NAME : Nat) (s : Store M) (hinv : Inv MAX_NAME s)
    (a t : Nat) (A : User M) (hA : s[a]? = some A) :
    (∃ p, some p ∈ slots s t ∧ name_at s p = some A.name) ↔ some a ∈ slots s t := by
  constructor
  · rintro ⟨p, hp, hname⟩
    unfold name_at at hname
    cases hP : s[p]? with
    | none => rw [hP] at hname; simp at hname
    | some P =>
      rw [hP] at hname
      simp only [Option.map_some', Option.some.injEq] at hname
      have h1 := find_user_of_nodup s p P hinv.names_nodup hP
      have h2 := find_user_of_nodup s a A hinv.names_nodup hA
      rw [hname, h2] at h1
      have hap : a = p := Option.some.inj h1
      rw [hap]
      exact hp
  · intro h
    exact ⟨a, h, by simp [name_at, hA]⟩

/-- C2. For every store the program can build (reached from the empty store by
`create_user`, `make_friends` and `make_post` calls) and every pair of names, `make_friends`
returns 4 exactly when at least one name is absent from the user list; otherwise 3 exactly
when both names resolve to the same user; otherwise 1 exactly when B is in a friend slot of
A; otherwise 2 exactly when A or B has no empty slot; otherwise 0: the conditions are
decided in that order. -/
theorem reachable_make_friends_precedence (M MAX_NAME : Nat) (ops : List Op)
    (name1 name2 : CStr) :
    ((make_friends name1 name2 (run M MAX_NAME ops)).1 = 4 ↔
      find_user name1 (run M MAX_NAME ops) = none ∨
        find_user name2 (run M MAX_NAME ops) = none) ∧
    ((make_friends name1 name2 (run M MAX_NAME ops)).1 = 3 ↔
      ∃ a, find_user name1 (run M MAX_NAME ops) = some a ∧
        find_user name2 (run M MAX_NAME ops) = some a) ∧
    ((make_friends name1 name2 (run M MAX_NAME ops)).1 = 1 ↔
      ∃ a b, find_user name1 (run M MAX_NAME ops) = some a ∧
        find_user name2 (run M MAX_NAME ops) = some b ∧ a ≠ b ∧
        some b ∈ slots (run M MAX_NAME ops) a) ∧
    ((make_friends name1 name2 (run M MAX_NAME ops)).1 = 2 ↔
      ∃ a b, find_user name1 (run M MAX_NAME ops) = some a ∧
        find_user name2 (run M MAX_NAME ops) = some b ∧ a ≠ b ∧
        some b ∉ slots (run M MAX_NAME ops) a ∧
        (none ∉ slots (run M MAX_NAME ops) a ∨ none ∉ slots (run M MAX_NAME ops) b)) ∧
    ((make_friends name1 name2 (run M MAX_NAME ops)).1 = 0 ↔
      ∃ a b, find_user name1 (run M MAX_NAME ops) = some a ∧
        find_user name2 (run M MAX_NAME ops) = some b ∧ a ≠ b ∧
        some b ∉ slots (run M MAX_NAME ops) a ∧
        none ∈ slots (run M MAX_NAME ops) a ∧ none ∈ slots (run M MAX_NAME ops) b) := by
  have h := make_friends_order name1 name2 (run M MAX_NAME ops)
  simp only [reachable_run_all] at h
  exact ⟨h.1, h.2.1, h.2.2.1, h.2.2.2.1, h.2.2.2.2.1⟩

/-- C6. In every store the program can build, for every author and target that point to
users of the store such that a user with the author's name occupies a slot of the target's
friend array, `make_post(author, target, contents)` returns 0 and the target's post list
afterwards is one new post, with the author's name and the given contents, followed by the
target's previous post list; the names of the users, every friend array and every other
user are unchanged. -/
theorem reachable_make_post_success (M MAX_NAME : Nat) (ops : List Op) (a t : Nat)
    (A T : User M) (contents : CStr) (now : Nat)
    (hA : (run M MAX_NAME ops)[a]? = some A) (hT : (run M MAX_NAME ops)[t]? = some T)
    (hfr : ∃ p, some p ∈ T.friends.toList ∧ name_at (run M MAX_NAME ops) p = some A.name) :
    make_post MAX_NAME (some a) (some t) contents now (run M MAX_NAME ops) =
      (0, (run M MAX_NAME ops).set t
        { T with first_post := ⟨A.name, contents, now⟩ :: T.first_post }) ∧
    (make_post MAX_NAME (some a) (some t) contents now (run M MAX_NAME ops)).2.map
        (fun x => x.name) = (run M MAX_NAME ops).map (fun x => x.name) ∧
    (∀ c, slots (make_post MAX_NAME (some a) (some t) contents now (run M MAX_NAME ops)).2 c =
      slots (run M MAX_NAME ops) c) ∧
    (∀ c, c ≠ t →
      (make_post MAX_NAME (some a) (some t) contents now (run M MAX_NAME ops)).2[c]? =
        (run M MAX_NAME ops)[c]?) := by
  have hinv := Inv_run M MAX_NAME ops
  have hfit : A.name.length < MAX_NAME :=
    hinv.names_fit A.name (List.mem_map_of_mem _ (List.getElem?_mem hA))
  have hslots : slots (run M MAX_NAME ops) t = T.friends.toList := by simp [slots, hT]
  obtain ⟨p, hp, hname⟩ := hfr
  have hp2 : some p ∈ T.friends.toList.takeWhile Option.isSome := by
    rw [← hslots] at hp ⊢
    exact (reachable_run_all M MAX_NAME ops t p).2 hp
  exact make_post_adds MAX_NAME a t A T contents now _ hA hT hfit ⟨p, hp2, hname⟩

/-- Witness of C6 on the store reached by `cap_ops`, where `a` and `b` are friends: a post
from `a` to `b` is made. -/
theorem reachable_make_post_success_witness :
    (make_post 8 (some 0) (some 1) ['h', 'i'] 7 (run 1 8 cap_ops)).1 = 0 ∧
    ((make_post 8 (some 0) (some 1) ['h', 'i'] 7 (run 1 8 cap_ops)).2[1]?).map
      (fun x => x.first_post) = some [⟨['a'], ['h', 'i'], 7⟩] := by
  have h := (reachable_make_post_success 1 8 cap_ops 0 1
    { name := ['a'], profile_pic := [], first_post := [], friends := ⟨[some 1], rfl⟩ }
    { name := ['b'], profile_pic := [], first_post := [], friends := ⟨[some 0], rfl⟩ }
    ['h', 'i'] 7 (by decide) (by decide) ⟨0, by decide, by decide⟩).1
  rw [h]
  decide

/-- C7. In every store the program can build, for arguments that are NULL or point to users
of the store: `make_post` returns 2 exactly when the author or the target is NULL; otherwise
it returns 1 exactly when the author is in no slot of the target's friend array (which is
the same as no user with the author's name being in one); and whenever it does not return 0
the store, with every post list and every friend array, is unchanged. -/
theorem reachable_make_post_failure (M MAX_NAME : Nat) (ops : List Op)
    (author target : Option Nat) (contents : CStr) (now : Nat)
    (hva : ∀ a, author = some a → a < (run M MAX_NAME ops).length)
    (hvt : ∀ t, target = some t → t < (run M MAX_NAME ops).length) :
    ((make_post MAX_NAME author target contents now (run M MAX_NAME ops)).1 = 2 ↔
      author = none ∨ target = none) ∧
    (∀ a t : Nat, author = some a → target = some t →
      ((make_post MAX_NAME author target contents now (run M MAX_NAME ops)).1 = 1 ↔
        some a ∉ slots (run M MAX_NAME ops) t)) ∧
    (∀ (a t : Nat) (A T : User M), author = some a → target = some t →
      (run M MAX_NAME ops)[a]? = some A → (run M MAX_NAME ops)[t]? = some T →
      ((make_post MAX_NAME author target contents now (run M MAX_NAME ops)).1 = 1 ↔
        ¬ ∃ p, some p ∈ T.friends.toList ∧
          name_at (run M MAX_NAME ops) p = some A.name)) ∧
    ((make_post MAX_NAME author target contents now (run M MAX_NAME ops)).1 ≠ 0 →
      (make_post MAX_NAME author target contents now (run M MAX_NAME ops)).2 =
        run M MAX_NAME ops) := by
  have hinv := Inv_run M MAX_NAME ops
  have h := make_post_refusal MAX_NAME author target contents now (run M MAX_NAME ops) hva hvt
  have hname : ∀ (a t : Nat) (A T : User M), author = some a → target = some t →
      (run M MAX_NAME ops)[a]? = some A → (run M MAX_NAME ops)[t]? = some T →
      ((make_post MAX_NAME author target contents now (run M MAX_NAME ops)).1 = 1 ↔
        ¬ ∃ p, some p ∈ T.friends.toList ∧
          name_at (run M MAX_NAME ops) p = some A.name) := by
    intro a t A T ha ht hA hT
    have hslots : slots (run M MAX_NAME ops) t = T.friends.toList := by simp [slots, hT]
    rw [h.2.1 a t A T ha ht hA hT, ← hslots]
    simp only [reachable_run_all]
  refine ⟨h.1, ?_, hname, h.2.2⟩
  intro a t ha ht
  have hal := hva a ha
  have htl := hvt t ht
  have hA : (run M MAX_NAME ops)[a]? = some (run M MAX_NAME ops)[a] :=
    List.getElem?_eq_getElem hal
  have hT : (run M MAX_NAME ops)[t]? = some (run M MAX_NAME ops)[t] :=
    List.getElem?_eq_getElem htl
  have hslots : slots (run M MAX_NAME ops) t = ((run M MAX_NAME ops)[t]).friends.toList := by
    simp [slots, hT]
  rw [hname a t _ _ ha ht hA hT, ← hslots, friend_by_name_iff MAX_NAME _ hinv a t _ hA]

/-- Witness of C7 on the store reached by `cap_ops`, where `a` and `b` are friends and `c` has
no friend: a post from `a` to `c` is refused with 1 and the store stays as it is. -/
theorem reachable_make_post_failure_witness :
    (make_post 8 (some 0) (some 2) ['h', 'i'] 7 (run 1 8 cap_ops)).1 = 1 ∧
    (make_post 8 (some 0) (some 2) ['h', 'i'] 7 (run 1 8 cap_ops)).2 = run 1 8 cap_ops := by
  have h := reachable_make_post_failure 1 8 cap_ops (some 0) (some 2) ['h', 'i'] 7
    (by decide) (by decide)
  have h1 : (make_post 8 (some 0) (some 2) ['h', 'i'] 7 (run 1 8 cap_ops)).1 = 1 :=
    (h.2.1 0 2 rfl rfl).2 (by decide)
  exact ⟨h1, h.2.2.2 (by rw [h1]; decide)⟩

/-- C17. For every user of a store the program can build, `print_user` returns exactly the
name line `Name: <name>` and an empty line, the separator rule, `Friends:`, the name of each
friend in slot order, each followed by a newline, the separator rule, `Posts:`, the posts of
the user in list order, which is newest first, each as `From: <author>`, `Date: <formatted
time>`, `<contents>` with the divider between consecutive posts and none after the last, and
a final separator rule.  The text depends only on the name, the names of the friends and
the posts: two users of such stores that agree on them have the same text. -/
theorem reachable_print_user_text (M MAX_NAME : Nat) (ops : List Op) (asctime : Nat → CStr)
    (u : Nat) (U : User M) (hU : (run M MAX_NAME ops)[u]? = some U) :
    print_user asctime (run M MAX_NAME ops) U =
      "Name: ".toList ++ U.name ++ "\n\n".toList ++ separator ++ "Friends:\n".toList ++
        ((U.friends.toList.reduceOption.map (user_name (run M MAX_NAME ops))).map
          (fun n => n ++ ['\n'])).flatten ++ separator ++ "Posts:\n".toList ++
        List.intercalate post_separator (U.first_post.map (fun p =>
          "From: ".toList ++ p.author ++ "\nDate: ".toList ++ asctime p.date ++
            "\n".toList ++ p.contents ++ "\n".toList)) ++ separator ∧
    (∀ (MAX_NAME2 : Nat) (ops2 : List Op) (u2 : Nat) (U2 : User M),
      (run M MAX_NAME2 ops2)[u2]? = some U2 → U2.name = U.name →
      U2.friends.toList.reduceOption.map (user_name (run M MAX_NAME2 ops2)) =
        U.friends.toList.reduceOption.map (user_name (run M MAX_NAME ops)) →
      U2.first_post = U.first_post →
      print_user asctime (run M MAX_NAME2 ops2) U2 =
        print_user asctime (run M MAX_NAME ops) U) := by
  have key : ∀ (N : Nat) (o : List Op) (v : Nat) (V : User M), (run M N o)[v]? = some V →
      print_user asctime (run M N o) V =
        spec_profile_text asctime V.name
          (V.friends.toList.reduceOption.map (user_name (run M N o))) V.first_post := by
    intro N o v V hV
    have hslots : slots (run M N o) v = V.friends.toList := by simp [slots, hV]
    have hc : contiguous V.friends.toList = true := by
      rw [← hslots]
      exact (Inv_run M N o).contig v
    exact (print_user_layout asctime (run M N o) V).2.1 hc
  refine ⟨?_, ?_⟩
  · rw [key MAX_NAME ops u U hU]
    rfl
  · intro N2 ops2 u2 U2 hU2 hn hf hp
    rw [key N2 ops2 u2 U2 hU2, key MAX_NAME ops u U hU, hn, hf, hp]

/-- Witness of C17 on the store reached by `cap_ops`: the profile of `a`, whose one friend
is `b` and who has no post. -/
theorem reachable_print_user_text_witness :
    print_user (fun _ => []) (run 1 8 cap_ops)
        { name := ['a'], profile_pic := [], first_post := [], friends := ⟨[some 1], rfl⟩ } =
      ("Name: a\n\n------------------------------------------\nFriends:\nb\n" ++
        "------------------------------------------\nPosts:\n" ++
        "------------------------------------------\n").toList :=
  ((reachable_print_user_text 1 8 cap_ops (fun _ => []) 0
    { name := ['a'], profile_pic := [], first_post := [], friends := ⟨[some 1], rfl⟩ }
    (by decide)).1).trans (by decide)

/-! ### The lines handed to the dispatcher -/

end Friends
